import Mathlib

/-!
# getmail: MIME decoding and address parsing

A shallow embedding of `src/email/parser.go`, `src/email/data.go` and
`src/email/types.go`.

Go strings are modelled as lists of Unicode code points (`Str`), byte slices
as lists of natural numbers below 256 (`Bytes`), Go maps as association lists
in the order in which a `range` loop visits them, and `(value, error)` results
as `Except`.
-/

set_option autoImplicit false

namespace Getmail

/-- A Go `string`, as its sequence of code points. -/
abbrev Str := List Char

/-- A Go `[]byte`. -/
abbrev Bytes := List Nat

/-- The bytes of an ASCII text, `[]byte(s)`. -/
def asciiBytes (s : Str) : Bytes := s.map Char.toNat

deriving instance DecidableEq for Except

/-! ## The `strings` package -/

/-- The double quote character. -/
def dquote : Char := Char.ofNat 34

/-- Go `unicode.IsSpace`: the Unicode White_Space property. -/
def isSpace (c : Char) : Bool :=
  let n := c.toNat
  (9 ≤ n && n ≤ 13) || n == 32 || n == 0x85 || n == 0xA0 || n == 0x1680 ||
  (0x2000 ≤ n && n ≤ 0x200A) || n == 0x2028 || n == 0x2029 || n == 0x202F ||
  n == 0x205F || n == 0x3000

/-- Go `strings.TrimFunc`. -/
def TrimFunc (s : Str) (f : Char → Bool) : Str :=
  (s.dropWhile f).rdropWhile f

/-- Go `strings.TrimSpace`. -/
def TrimSpace (s : Str) : Str := TrimFunc s isSpace

/-- Go `strings.Trim(s, cutset)`. -/
def Trim (s : Str) (cutset : Str) : Str := TrimFunc s (fun c => cutset.contains c)

/-- Go `strings.Split(s, sep)` for a one-character separator. -/
def Split : Str → Char → List Str
  | [], _ => [[]]
  | c :: t, sep =>
    if c = sep then [] :: Split t sep
    else match Split t sep with
      | [] => [[c]]
      | hd :: tl => (c :: hd) :: tl

/-- Go `strings.SplitN(s, sep, 2)` for a one-character separator. -/
def SplitN2 (s : Str) (sep : Char) : List Str :=
  if sep ∈ s then [s.takeWhile (fun c => c != sep), (s.dropWhile (fun c => c != sep)).tail]
  else [s]

/-- Go `strings.Join`. -/
def Join : List Str → Str → Str
  | [], _ => []
  | [a], _ => a
  | a :: b :: t, sep => a ++ sep ++ Join (b :: t) sep

/-- Go `unicode.ToUpper` on the characters that matter for a comparison with
an ASCII constant: ASCII letters, dotless i and long s (the only other code
points whose upper case is ASCII); every other code point is left in place. -/
def toUpperChar (c : Char) : Char :=
  if c.toNat = 0x131 then 'I' else if c.toNat = 0x17F then 'S' else c.toUpper

/-- Go `unicode.ToLower` on the characters that matter for a comparison with
an ASCII constant: ASCII letters, dotted capital I and the Kelvin sign (the
only other code points whose lower case is ASCII). -/
def toLowerChar (c : Char) : Char :=
  if c.toNat = 0x130 then 'i' else if c.toNat = 0x212A then 'k' else c.toLower

/-- Go `strings.ToUpper`, exact wherever the result is compared with ASCII text. -/
def ToUpper (s : Str) : Str := s.map toUpperChar

/-- Go `strings.ToLower`, exact wherever the result is compared with ASCII text. -/
def ToLower (s : Str) : Str := s.map toLowerChar

/-- Go `strings.HasPrefix`. -/
def HasPrefix (s p : Str) : Bool := p.isPrefixOf s

/-- Go `strings.Contains`. -/
def Contains (s sub : Str) : Bool := s.tails.any (fun t => sub.isPrefixOf t)

/-! ## `net/textproto` -/

/-- Go `validHeaderFieldByte`: the token characters of RFC 7230. -/
def validHeaderFieldByte (c : Char) : Bool :=
  let n := c.toNat
  (48 ≤ n && n ≤ 57) || (65 ≤ n && n ≤ 90) || (97 ≤ n && n ≤ 122) ||
  n == 33 || (35 ≤ n && n ≤ 39) || n == 42 || n == 43 || n == 45 || n == 46 ||
  n == 94 || n == 95 || n == 96 || n == 124 || n == 126

/-- The canonicalising loop of `canonicalMIMEHeaderKey`: upper case at the
start and after each dash, lower case elsewhere. -/
def canonLoop : Str → Bool → Str
  | [], _ => []
  | c :: t, upper =>
    let c1 :=
      if upper && c.isLower then c.toUpper
      else if !upper && c.isUpper then c.toLower
      else c
    c1 :: canonLoop t (c1 == '-')

/-- Go `textproto.CanonicalMIMEHeaderKey`: a key with a byte that is not a
token character is returned unchanged. -/
def CanonicalMIMEHeaderKey (s : Str) : Str :=
  if s.all validHeaderFieldByte then canonLoop s true else s

/-! ## `types.go` -/

/-- Go `type Headers map[string]string`. -/
abbrev Headers := List (Str × Str)

/-- Map read `h[key]`: the empty string when the key is absent. -/
def Headers.get (h : Headers) (key : Str) : Str :=
  match h.find? (fun e => e.1 == key) with
  | some e => e.2
  | none => []

/-- Map read `value, ok := h[key]`. -/
def Headers.get? (h : Headers) (key : Str) : Option Str :=
  (h.find? (fun e => e.1 == key)).map (fun e => e.2)

/-- Map write `h[key] = value`. -/
def Headers.set : Headers → Str → Str → Headers
  | [], key, value => [(key, value)]
  | e :: t, key, value =>
    if e.1 = key then (key, value) :: t else e :: Headers.set t key value

/-- The loop of `Headers.GetParam` over the `;`-separated segments. -/
def getParamLoop : List Str → Str → Str
  | [], _ => []
  | part :: rest, paramKey =>
    match SplitN2 part '=' with
    | [k, v] =>
      if TrimSpace k = paramKey then Trim (TrimSpace v) [dquote]
      else getParamLoop rest paramKey
    | _ => getParamLoop rest paramKey

/-- Go `Headers.GetParam`. -/
def Headers.GetParam (h : Headers) (headerKey paramKey : Str) : Str :=
  match h.get? headerKey with
  | none => []
  | some value => getParamLoop (Split value ';') paramKey

/-- Go `Headers.GetString`. -/
def Headers.GetString (h : Headers) (key : Str) : Str := h.get key

/-- Go `HeaderContentType`. -/
structure HeaderContentType where
  MediaType : Str := []
  SubType : Str := []
  Params : Headers := []
deriving DecidableEq, Repr

/-- Go `EmailContentHeader`. -/
structure EmailContentHeader where
  MimeVersion : Str := []
  ContentType : HeaderContentType := {}
  ContentTransferEncoding : Str := []
  Extra : Headers := []
deriving DecidableEq, Repr

/-- Go `EmailContent`: `R` is the content the reader `R` delivers. -/
structure EmailContent where
  R : Bytes
  Headers : EmailContentHeader
  Size : Int
deriving DecidableEq, Repr

/-- Go `EmailUser`. -/
structure EmailUser where
  Name : Str := []
  Email : Str := []
deriving DecidableEq, Repr

/-- Go `MimeHeaders`. -/
structure MimeHeaders where
  MimeVersion : Str := []
  Date : Str := []
  Subject : Str := []
  From : EmailUser := {}
  To : List EmailUser := []
  Cc : List EmailUser := []
  ContentType : HeaderContentType := {}
  ContentTransferEncoding : Str := []
  Extra : Headers := []
deriving DecidableEq, Repr

/-! ## `parser.go`: `parseContentType` -/

/-- The loop of `parseContentType` over `parts[1:]`. -/
def parseContentTypeParams : List Str → Headers → Headers
  | [], acc => acc
  | param :: rest, acc =>
    match SplitN2 param '=' with
    | [k, v] =>
      parseContentTypeParams rest
        (acc.set (TrimSpace k) (Trim (TrimSpace v) [dquote]))
    | _ => parseContentTypeParams rest acc

/-- Go `parseContentType`. -/
def parseContentType (value : Str) : Except Str HeaderContentType :=
  let parts := Split value ';'
  match SplitN2 (TrimSpace (parts.headD [])) '/' with
  | [m, s] =>
    .ok { MediaType := TrimSpace m, SubType := TrimSpace s,
          Params := parseContentTypeParams parts.tail [] }
  | _ => .error ("invalid media type: ".toList ++ value)

/-! ## `data.go`, `parser.go`: header normalisation -/

/-- Go `textproto.MIMEHeader` / `mail.Header`, a `map[string][]string`, as the
sequence of entries a `range` loop visits. -/
abbrev MIMEHeader := List (Str × List Str)

/-- The `lines` built from a header map: `fmt.Sprintf("%s: %s", k, strings.Join(v, "; "))`. -/
def headerLines (header : MIMEHeader) : List Str :=
  header.map (fun e => e.1 ++ ": ".toList ++ Join e.2 "; ".toList)

/-- Go `splitAndTrim` for a one-character separator. -/
def splitAndTrim (value : Str) (sep : Char) : List Str :=
  (Split value sep).map TrimSpace

/-- Go `parseHeaders`. -/
def parseHeaders (h : MIMEHeader) : Headers :=
  h.foldl (fun headers e =>
    if e.2.length = 0 then headers
    else
      let v := if e.2.length = 1 then splitAndTrim (e.2.headD []) ';' else e.2
      headers.set (CanonicalMIMEHeaderKey e.1) (Join v "; ".toList)) []

/-! ## `mime/multipart`, `encoding/base64`, `mime/quotedprintable`

The standard library is not part of the repository. A multipart reader is
modelled by what it delivers: the successive results of `NextPart`. -/

/-- A `multipart.Reader`: what its successive `NextPart` calls return.
`eof` is `io.EOF`, `fail` any other error, and `part` one part followed by
the rest of the reader. A part has its header, the result of `io.ReadAll`
on it (`data`, `readErr`), and `sub boundary`, the reader that
`multipart.NewReader(part, boundary)` gives over its body. -/
inductive Reader where
  | eof : Reader
  | fail (err : Str) : Reader
  | part (Header : MIMEHeader) (data : Bytes) (readErr : Option Str)
      (sub : Str → Reader) (next : Reader) : Reader

/-- A `*multipart.Part`. -/
structure Part where
  Header : MIMEHeader
  data : Bytes
  readErr : Option Str
  sub : Str → Reader

/-- The value of a base64 digit in the standard alphabet (`decodeMap`). -/
def b64val (c : Nat) : Option Nat :=
  if 65 ≤ c ∧ c ≤ 90 then some (c - 65)
  else if 97 ≤ c ∧ c ≤ 122 then some (c - 71)
  else if 48 ≤ c ∧ c ≤ 57 then some (c + 4)
  else if c = 43 then some 62
  else if c = 47 then some 63
  else none

/-- A line feed or carriage return, which the decoder skips. -/
def isNL (c : Nat) : Bool := c == 10 || c == 13

/-- The error of `base64.StdEncoding.Decode` (a `CorruptInputError`). -/
def b64err : Str := "illegal base64 data".toList

/-- Go `base64.StdEncoding.Decode`: quanta of four digits, newlines skipped,
padding required, trailing bits of a padded quantum not checked. `dbuf` holds
the digits of the current quantum. -/
def b64Decode : Bytes → List Nat → Except Str Bytes
  | [], dbuf => if dbuf = [] then .ok [] else .error b64err
  | c :: rest, dbuf =>
    match b64val c with
    | some v =>
      match dbuf with
      | [d0, d1, d2] =>
        let val := d0 * 262144 + d1 * 4096 + d2 * 64 + v
        (b64Decode rest []).map
          (fun out => val / 65536 % 256 :: val / 256 % 256 :: val % 256 :: out)
      | _ => b64Decode rest (dbuf ++ [v])
    | none =>
      if isNL c then b64Decode rest dbuf
      else if c ≠ 61 then .error b64err
      else match dbuf with
        | [d0, d1] =>
          match rest.dropWhile isNL with
          | [] => .error b64err
          | p :: rest2 =>
            if p ≠ 61 then .error b64err
            else if rest2.dropWhile isNL ≠ [] then .error b64err
            else .ok [(d0 * 262144 + d1 * 4096) / 65536 % 256]
        | [d0, d1, d2] =>
          if rest.dropWhile isNL ≠ [] then .error b64err
          else
            let val := d0 * 262144 + d1 * 4096 + d2 * 64
            .ok [val / 65536 % 256, val / 256 % 256]
        | _ => .error b64err

/-- The library functions whose result depends on bytes the model does not
interpret: `multipart.NewReader(bytes.NewReader(b), boundary)` and
`io.ReadAll(quotedprintable.NewReader(bytes.NewReader(data)))`. -/
structure Stdlib where
  NewReader : Bytes → Str → Reader
  qpReadAll : Bytes → Except Str Bytes

/-! ## `data.go` -/

/-- Go `decodeData`. -/
def decodeData (lib : Stdlib) (data : Bytes) (encoding : Str) : Except Str Bytes :=
  let e := ToLower encoding
  if e = "base64".toList then b64Decode data []
  else if e = "quoted-printable".toList then lib.qpReadAll data
  else if e = "7bit".toList ∨ e = "8bit".toList ∨ e = "binary".toList ∨ e = [] then .ok data
  else .ok data

/-- An item handed to `yield`: `(part, nil)` is `ok part`, `(nil, err)` is
`error err`. -/
abbrev Item := Except Str Part

/-- The body of the nested `range` loop of `MultipartIterator`, over the
state of the outer consumer and a flag that records that the body executed
`return`: an error item is passed on and the function returns; a part is
passed on and the function returns when the consumer answers stop. -/
def forward {σ : Type} (yield : Item → σ → σ × Bool) (it : Item) (st : σ × Bool) :
    (σ × Bool) × Bool :=
  match it with
  | .error subErr => (((yield (.error subErr) st.1).1, true), false)
  | .ok subPart =>
    let y := yield (.ok subPart) st.1
    if !y.2 then ((y.1, true), false) else ((y.1, false), true)

/-- Go `MultipartIterator`, as the function it returns: `yield` is the
consumer (the body of the `range` loop) in state-passing form, giving the new
state and whether to go on. The nested `range` loop runs the iterator of the
body of the part with `forward yield` as its consumer. -/
def MultipartIterator : Reader → (σ : Type) → (Item → σ → σ × Bool) → σ → σ
  | .eof, _, _, s => s
  | .fail err, _, yield, s => (yield (.error err) s).1
  | .part hd data rerr sub next, σ, yield, s =>
    let header := parseHeaders hd
    let contentType := header.GetString "Content-Type".toList
    let subBoundary := header.GetParam "Content-Type".toList "boundary".toList
    if Contains contentType "multipart".toList && subBoundary != [] then
      let r := MultipartIterator (sub subBoundary) (σ × Bool) (forward yield) (s, false)
      if r.2 then r.1 else MultipartIterator next σ yield r.1
    else
      let y := yield (.ok ⟨hd, data, rerr, sub⟩) s
      if !y.2 then y.1 else MultipartIterator next σ yield y.1

/-! ## `regexp`: the fragment the address patterns use

Go matches leftmost-first: the match a backtracking search finds first. The
patterns are anchored at both ends, so a search starts at the first character
only and succeeds when the continuation is reached with no input left. -/

/-- The regular expressions of `parseEmailUser`: a character class, a
sequence, a greedy `?`, greedy `*` and `+` of a class, a capture group. -/
inductive Re where
  | cls (p : Char → Bool) : Re
  | seq (a b : Re) : Re
  | opt (r : Re) : Re
  | star (p : Char → Bool) : Re
  | plus (p : Char → Bool) : Re
  | group (i : Nat) (r : Re) : Re

/-- The captures of a match, latest first. -/
abbrev Caps := List (Nat × Str)

/-- The first alternative that succeeds. -/
def firstOf {α : Type} (a b : Option α) : Option α :=
  match a with
  | some x => some x
  | none => b

/-- Greedy repetition of a class: the longest run first, then shorter ones. -/
def starRun {α : Type} (p : Char → Bool) : Str → (Str → Option α) → Option α
  | [], k => k []
  | c :: t, k => if p c then firstOf (starRun p t k) (k (c :: t)) else k (c :: t)

/-- Backtracking match of `r` at the start of `s`, then the continuation `k`
on the rest of the input. -/
def Re.run : Re → Str → Caps → (Str → Caps → Option Caps) → Option Caps
  | .cls p, s, caps, k =>
    match s with
    | c :: t => if p c then k t caps else none
    | [] => none
  | .seq a b, s, caps, k => a.run s caps (fun s1 c1 => b.run s1 c1 k)
  | .opt r, s, caps, k => firstOf (r.run s caps k) (k s caps)
  | .star p, s, caps, k => starRun p s (fun rest => k rest caps)
  | .plus p, s, caps, k =>
    match s with
    | c :: t => if p c then starRun p t (fun rest => k rest caps) else none
    | [] => none
  | .group i r, s, caps, k =>
    r.run s caps (fun rest c1 => k rest ((i, s.take (s.length - rest.length)) :: c1))

/-- The text of capture group `i`, empty when the group did not take part. -/
def capture (caps : Caps) (i : Nat) : Str :=
  match caps.find? (fun e => e.1 == i) with
  | some e => e.2
  | none => []

/-- Go `FindStringSubmatch` for a pattern `^r$` with `n` groups: nil (`none`)
when there is no match, else the whole match and the `n` group texts. -/
def FindStringSubmatch (r : Re) (n : Nat) (s : Str) : Option (List Str) :=
  (r.run s [] (fun rest caps => if rest = [] then some caps else none)).map
    (fun caps => s :: (List.range n).map (fun i => capture caps (i + 1)))

/-- The class `\s` of Go regular expressions: tab, line feed, form feed,
carriage return, space. -/
def reSpace (c : Char) : Bool :=
  c.toNat == 9 || c.toNat == 10 || c.toNat == 12 || c.toNat == 13 || c.toNat == 32

/-- The class `[^<>@\s]`. -/
def addrChar (c : Char) : Bool := !(c == '<' || c == '>' || c == '@' || reSpace c)

/-- The class `[^"<@]`. -/
def nameChar (c : Char) : Bool := !(c == dquote || c == '<' || c == '@')

/-- A literal character. -/
def Re.lit (c : Char) : Re := .cls (fun x => x == c)

/-- The sub-pattern `[^<>@\s]+@[^<>@\s]+`. -/
def reAddr : Re := .seq (.plus addrChar) (.seq (.lit '@') (.plus addrChar))

/-- The sub-pattern `<([^<>@\s]+@[^<>@\s]+)>`, the address being group `i`. -/
def reAngle (i : Nat) : Re := .seq (.lit '<') (.seq (.group i reAddr) (.lit '>'))

/-- The pattern `^"?([^"<@]+)?"?\s*<([^<>@\s]+@[^<>@\s]+)>$`. -/
def re1 : Re :=
  .seq (.opt (.lit dquote)) (.seq (.opt (.group 1 (.plus nameChar)))
    (.seq (.opt (.lit dquote)) (.seq (.star reSpace) (reAngle 2))))

/-- The pattern `^<([^<>@\s]+@[^<>@\s]+)>$`. -/
def re2 : Re := reAngle 1

/-- The pattern `^([^<>@\s]+@[^<>@\s]+)$`. -/
def re3 : Re := .group 1 reAddr

/-! ## `parser.go`: addresses -/

/-- Go `parseEmailUser`. -/
def parseEmailUser (input : Str) : Except Str EmailUser :=
  let input := TrimSpace input
  if input = [] then .error "input cannot be empty".toList
  else
    let input :=
      if HasPrefix (ToUpper input) "TO:".toList then TrimSpace (input.drop 3) else input
    match FindStringSubmatch re1 2 input with
    | some [_, name, email] =>
      .ok { Name := Trim name [dquote, ' '], Email := TrimSpace email }
    | _ =>
      match FindStringSubmatch re2 1 input with
      | some [_, email] => .ok { Name := [], Email := TrimSpace email }
      | _ =>
        match FindStringSubmatch re3 1 input with
        | some [_, email] => .ok { Name := [], Email := TrimSpace email }
        | _ => .error ("could not parse email line: ".toList ++ input)

/-- The loop of `parseEmailUsers`, with the users collected so far. -/
def parseEmailUsersLoop : List Str → List EmailUser → Except Str (List EmailUser)
  | [], users => .ok users
  | line :: rest, users =>
    match parseEmailUser line with
    | .error err => .error err
    | .ok email => parseEmailUsersLoop rest (users ++ [email])

/-- Go `parseEmailUsers`. -/
def parseEmailUsers (input : List Str) : Except Str (List EmailUser) :=
  parseEmailUsersLoop input []

/-- The body of the loop of `parseMimeHeaderLines` on one line: the headers
after the line, or the error the function returns. -/
def mimeHeaderStep (headers : MimeHeaders) (line : Str) : Except Str MimeHeaders :=
  match SplitN2 (TrimSpace line) ':' with
  | [k, v] =>
    let key := TrimSpace k
    let value := TrimSpace v
    let ck := CanonicalMIMEHeaderKey key
    if ck = "Mime-Version".toList then .ok { headers with MimeVersion := value }
    else if ck = "Date".toList then .ok { headers with Date := value }
    else if ck = "Subject".toList then .ok { headers with Subject := value }
    else if ck = "From".toList then
      match parseEmailUser value with
      | .error _ => .error "smtp: error parsing from header".toList
      | .ok fromUser => .ok { headers with From := fromUser }
    else if ck = "To".toList then
      match parseEmailUsers (Split value ',') with
      | .error _ => .error "smtp: error parsing to header".toList
      | .ok toUsers => .ok { headers with To := toUsers }
    else if ck = "Cc".toList then
      match parseEmailUsers (Split value ',') with
      | .error _ => .error "smtp: error parsing cc header".toList
      | .ok ccUsers => .ok { headers with Cc := ccUsers }
    else if ck = "Content-Transfer-Encoding".toList then
      .ok { headers with ContentTransferEncoding := value }
    else if ck = "Content-Type".toList then
      match parseContentType value with
      | .error _ => .ok headers
      | .ok ct => .ok { headers with ContentType := ct }
    else .ok { headers with Extra := headers.Extra.set key value }
  | _ => .ok headers

/-- The loop of `parseMimeHeaderLines` over the lines. -/
def mimeHeaderLoop : List Str → MimeHeaders → Except Str MimeHeaders
  | [], headers => .ok headers
  | line :: rest, headers =>
    match mimeHeaderStep headers line with
    | .error err => .error err
    | .ok headers1 => mimeHeaderLoop rest headers1

/-- Go `parseMimeHeaderLines`. -/
def parseMimeHeaderLines (header : MIMEHeader) : Except Str MimeHeaders :=
  mimeHeaderLoop (headerLines header) {}

/-! ## `parser.go`: part headers and `parseBody` -/

/-- One pass of the loop of `parseEmailContentHeader` over a line. -/
def contentHeaderLine (headers : EmailContentHeader) (line : Str) : EmailContentHeader :=
  match SplitN2 (TrimSpace line) ':' with
  | [k, v] =>
    let key := TrimSpace k
    let value := TrimSpace v
    let ck := CanonicalMIMEHeaderKey key
    if ck = "Content-Transfer-Encoding".toList then
      { headers with ContentTransferEncoding := value }
    else if ck = "Content-Type".toList then
      match parseContentType value with
      | .error _ => headers
      | .ok ct => { headers with ContentType := ct }
    else if ck = "Mime-Version".toList then
      { headers with MimeVersion := value }
    else { headers with Extra := headers.Extra.set key value }
  | _ => headers

/-- Go `parseEmailContentHeader`; its error is always nil. -/
def parseEmailContentHeader (header : MIMEHeader) : Except Str EmailContentHeader :=
  .ok ((headerLines header).foldl contentHeaderLine {})

/-- The variables `bodyText`, `bodyHTML`, `attachments` of `parseBody`. -/
structure BodyState where
  bodyText : Option EmailContent := none
  bodyHTML : Option EmailContent := none
  attachments : List EmailContent := []
deriving DecidableEq, Repr

/-- The content a part gives in the loop of `parseBody`: `none` when the
loop goes to the next part without classifying this one. -/
def partContent (lib : Stdlib) (part : Part) : Option EmailContent :=
  match parseEmailContentHeader part.Header with
  | .error _ => none
  | .ok h =>
    match part.readErr with
    | some _ => none
    | none =>
      let decoded :=
        if h.ContentTransferEncoding ≠ [] then
          decodeData lib part.data h.ContentTransferEncoding
        else .ok part.data
      match decoded with
      | .error _ => none
      | .ok data =>
        if part.Header.length = 0 then none
        else some { R := data, Headers := h, Size := (data.length : Int) }

/-- The body of the `range` loop of `parseBody`; it never stops the iterator. -/
def parseBodyLoop (lib : Stdlib) (it : Item) (st : BodyState) : BodyState × Bool :=
  match it with
  | .error _ => (st, true)
  | .ok part =>
    match partContent lib part with
    | none => (st, true)
    | some c =>
      if c.Headers.ContentType.MediaType = "text".toList ∧
          c.Headers.ContentType.SubType = "plain".toList then
        ({ st with bodyText := some c }, true)
      else if c.Headers.ContentType.MediaType = "text".toList ∧
          c.Headers.ContentType.SubType = "html".toList then
        ({ st with bodyHTML := some c }, true)
      else ({ st with attachments := st.attachments ++ [c] }, true)

/-- Go `parseBody`: the three results, or the error. -/
def parseBody (lib : Stdlib) (h : MimeHeaders) (b : Bytes) : Except Str BodyState :=
  if HasPrefix h.ContentType.MediaType "multipart".toList then
    let boundary := h.ContentType.Params.get "boundary".toList
    if boundary = [] then
      .error "multipart content type missing boundary parameter".toList
    else
      .ok (MultipartIterator (lib.NewReader b boundary) BodyState (parseBodyLoop lib) {})
  else if h.ContentType.MediaType = "text".toList ∧
      h.ContentType.SubType = "plain".toList then
    .ok { bodyText := some { R := b, Headers := {}, Size := (b.length : Int) } }
  else if h.ContentType.MediaType = "text".toList ∧
      h.ContentType.SubType = "html".toList then
    .ok { bodyHTML := some { R := b, Headers := {}, Size := (b.length : Int) } }
  else
    .error ("unhandled singlepart content type: ".toList ++ h.ContentType.MediaType ++
      "/".toList ++ h.ContentType.SubType)

/-! ## The walker as a sequence -/

/-- The boundary the walker reads out of a part header. -/
def walkerBoundary (hd : MIMEHeader) : Str :=
  (parseHeaders hd).GetParam "Content-Type".toList "boundary".toList

/-- The test under which the walker descends into a part. -/
def descends (hd : MIMEHeader) : Bool :=
  Contains ((parseHeaders hd).GetString "Content-Type".toList) "multipart".toList &&
    walkerBoundary hd != []

/-- The error item that ends the walk over a reader, if there is one. -/
def Reader.failure : Reader → Option Str
  | .eof => none
  | .fail err => some err
  | .part hd _ _ sub next =>
    if descends hd then
      match (sub (walkerBoundary hd)).failure with
      | some err => some err
      | none => next.failure
    else next.failure

/-- The parts the walker yields, in order, to a consumer that never stops. -/
def Reader.parts : Reader → List Part
  | .eof => []
  | .fail _ => []
  | .part hd data rerr sub next =>
    if descends hd then
      (sub (walkerBoundary hd)).parts ++
        (if (sub (walkerBoundary hd)).failure.isSome then [] else next.parts)
    else ⟨hd, data, rerr, sub⟩ :: next.parts

/-- The items the walker yields to a consumer that never stops: the parts,
then the error item if the walk fails. -/
def Reader.items (r : Reader) : List Item :=
  r.parts.map .ok ++ (match r.failure with | some err => [.error err] | none => [])

/-- A consumer driven over a sequence of items: it receives them until it
answers stop or has received an error item. The flag tells whether the
sequence was cut short in one of these ways. -/
def drive {σ : Type} (yield : Item → σ → σ × Bool) : List Item → σ → σ × Bool
  | [], s => (s, false)
  | .error err :: _, s => ((yield (.error err) s).1, true)
  | .ok p :: rest, s =>
    if (yield (.ok p) s).2 then drive yield rest (yield (.ok p) s).1
    else ((yield (.ok p) s).1, true)

/-- A consumer that records every item and never stops. -/
def collect (it : Item) (acc : List Item) : List Item × Bool := (acc ++ [it], true)

/-- The sequence of items `MultipartIterator` yields over a reader. -/
def yielded (r : Reader) : List Item := MultipartIterator r (List Item) collect []

/-- The content `parseBody` makes of a yielded item, `none` when it skips it. -/
def itemContent (lib : Stdlib) (it : Item) : Option EmailContent :=
  match it with
  | .ok part => partContent lib part
  | .error _ => none

/-- The parts the walker yields that `parseBody` does not skip, as the
contents it makes of them, in the order the walker yields them. -/
def walkerContents (lib : Stdlib) (r : Reader) : List EmailContent :=
  (yielded r).filterMap (itemContent lib)

/-- Whether a content is classified as `text/plain`. -/
def isTextPlain (c : EmailContent) : Bool :=
  c.Headers.ContentType.MediaType = "text".toList ∧
    c.Headers.ContentType.SubType = "plain".toList

/-- Whether a content is classified as `text/html`. -/
def isTextHTML (c : EmailContent) : Bool :=
  c.Headers.ContentType.MediaType = "text".toList ∧
    c.Headers.ContentType.SubType = "html".toList

/-- The classification step of the loop of `parseBody` on one content. -/
def classify (st : BodyState) (c : EmailContent) : BodyState :=
  if isTextPlain c then { st with bodyText := some c }
  else if isTextHTML c then { st with bodyHTML := some c }
  else { st with attachments := st.attachments ++ [c] }

/-- A local part or domain: not empty, with no `<`, `>`, `@` and no white
space (in the sense of `unicode.IsSpace`, which includes the class `\s`). -/
def addrText (s : Str) : Prop :=
  s ≠ [] ∧ ∀ c ∈ s, c ≠ '<' ∧ c ≠ '>' ∧ c ≠ '@' ∧ isSpace c = false

/-- A display name: not empty, with no double quote, `<`, `@`. -/
def nameText (n : Str) : Prop :=
  n ≠ [] ∧ ∀ c ∈ n, c ≠ dquote ∧ c ≠ '<' ∧ c ≠ '@'

/-- The input `"n" <l@d>`. -/
def quotedForm (n l d : Str) : Str :=
  [dquote] ++ n ++ [dquote] ++ [' ', '<'] ++ l ++ ['@'] ++ d ++ ['>']

/-- The input `<l@d>`. -/
def angleForm (l d : Str) : Str := ['<'] ++ l ++ ['@'] ++ d ++ ['>']

/-- The input `l@d`. -/
def bareForm (l d : Str) : Str := l ++ ['@'] ++ d

/-- The canonical name and the value that the header loops read out of a
line `name: value`; `none` for a line without colon. -/
def lineKeyValue (line : Str) : Option (Str × Str) :=
  match SplitN2 (TrimSpace line) ':' with
  | [k, v] => some (CanonicalMIMEHeaderKey (TrimSpace k), TrimSpace v)
  | _ => none

/-- The value of a line when its canonical name is `name`. -/
def lineValue (name : String) (line : Str) : Option Str :=
  (lineKeyValue line).bind (fun kv => if kv.1 = name.toList then some kv.2 else none)

/-- The values of the header `name` in a header map, in the order of the
loop: the `;`-joined values of each entry whose name is canonically `name`. -/
def headerValues (header : MIMEHeader) (name : String) : List Str :=
  ((headerLines header).filterMap lineKeyValue).filterMap
    (fun kv => if kv.1 = name.toList then some kv.2 else none)

/-- The records of a comma-separated address list, when every segment parses. -/
def addressList (value : Str) : List (Except Str EmailUser) :=
  (Split value ',').map parseEmailUser

/-! ## Concrete messages -/

/-- A part header with one Content-Type value. -/
def ctHeader (ct : String) : MIMEHeader := [("Content-Type".toList, [ct.toList])]

/-- A part that is not a multipart body: a reader over it fails. -/
def leafSub : Str → Reader := fun _ => .fail "multipart: NextPart: EOF".toList

/-- The library on a message whose body holds two `text/plain` parts. -/
def twoPlainLib : Stdlib :=
  { NewReader := fun _ _ =>
      .part (ctHeader "text/plain") (asciiBytes "first".toList) none leafSub
        (.part (ctHeader "text/plain") (asciiBytes "second".toList) none leafSub .eof),
    qpReadAll := fun d => .ok d }

/-- Top-level headers `Content-Type: multipart/mixed; boundary=B`. -/
def mixedHeaders : MimeHeaders :=
  { ContentType := { MediaType := "multipart".toList, SubType := "mixed".toList,
                     Params := [("boundary".toList, "B".toList)] } }

/-- The header of a base64 `application/pdf` part. -/
def pdfHeader : MIMEHeader :=
  [("Content-Type".toList, ["application/pdf".toList]),
   ("Content-Transfer-Encoding".toList, ["base64".toList])]

/-- The library on a `multipart/mixed` message with a `text/plain` part, a
`text/html` part and a base64 `application/pdf` part. -/
def mixedLib : Stdlib :=
  { NewReader := fun _ _ =>
      .part (ctHeader "text/plain") (asciiBytes "Hello".toList) none leafSub
        (.part (ctHeader "text/html") (asciiBytes "<p>Hello</p>".toList) none leafSub
          (.part pdfHeader (asciiBytes "JVBERi0xLjQK".toList) none leafSub .eof)),
    qpReadAll := fun d => .ok d }

/-- The part headers `parseBody` records for a part with one Content-Type. -/
def ctOnly (m s : String) : EmailContentHeader :=
  { ContentType := { MediaType := m.toList, SubType := s.toList } }

/-- A body of three parts, none of them a multipart container: `text/plain`,
then `text/plain` with a `name` parameter that contains the word multipart
and a `boundary` parameter, then `text/html`. -/
def threeLeaves : Reader :=
  .part (ctHeader "text/plain") (asciiBytes "one".toList) none leafSub
    (.part (ctHeader "text/plain; name=multipart-notes.txt; boundary=xyz")
        (asciiBytes "two".toList) none leafSub
      (.part (ctHeader "text/html") (asciiBytes "three".toList) none leafSub .eof))

/-- A body of one `application/octet-stream` part whose `name` parameter
contains the word multipart and which has a `boundary` parameter. -/
def oneAttachment : Reader :=
  .part (ctHeader "application/octet-stream; name=multipart.bin; boundary=xyz")
    (asciiBytes "DATA".toList) none leafSub .eof

/-- What an item shows: the bytes of a part, or the error. -/
def itemData (it : Item) : Except Str Bytes := it.map (fun p => p.data)

/-- The language of a regular expression: the texts it matches. -/
def Re.lang : Re → Str → Prop
  | .cls p, s => ∃ c, s = [c] ∧ p c = true
  | .seq a b, s => ∃ x y, s = x ++ y ∧ a.lang x ∧ b.lang y
  | .opt r, s => s = [] ∨ r.lang s
  | .star p, s => ∀ c ∈ s, p c = true
  | .plus p, s => s ≠ [] ∧ ∀ c ∈ s, p c = true
  | .group _ r, s => r.lang s

/-! ## Base64 encoding -/

/-- The digit of a base64 value in the standard alphabet (`encodeStd`). -/
def b64char (v : Nat) : Nat :=
  if v < 26 then v + 65
  else if v < 52 then v + 71
  else if v < 62 then v - 4
  else if v = 62 then 43
  else 47

/-- Go `base64.StdEncoding.Encode`: four digits for every three bytes, the
last quantum padded with `=`. -/
def b64Encode : Bytes → Bytes
  | a :: b :: c :: rest =>
    b64char (a / 4) :: b64char (a % 4 * 16 + b / 16) :: b64char (b % 16 * 4 + c / 64) ::
      b64char (c % 64) :: b64Encode rest
  | [a, b] => [b64char (a / 4), b64char (a % 4 * 16 + b / 16), b64char (b % 16 * 4), 61]
  | [a] => [b64char (a / 4), b64char (a % 4 * 16), 61, 61]
  | [] => []

/-- A letter-case variant of a name: the same text up to the case of ASCII letters. -/
def caseVariant (e name : Str) : Prop := e.map Char.toLower = name.map Char.toLower

/-! ## uuidv7.go -/

/-- The result of a call that may panic. -/
inductive Outcome (α : Type) where
  | ok (a : α) : Outcome α
  | panic (msg : Str) : Outcome α
deriving DecidableEq, Repr

/-- The big-endian bytes of `x` in a buffer of `n` bytes, the high bytes
lost when `x` does not fit. -/
def beBytes : Nat → Nat → Bytes
  | 0, _ => []
  | n + 1, x => beBytes n (x / 256) ++ [x % 256]

/-- Go `(*big.Int).FillBytes(buf)` for a buffer of `n` bytes: the absolute
value of `x`, big-endian and zero-extended; it panics when the value does
not fit. -/
def FillBytes (x : Int) (n : Nat) : Outcome Bytes :=
  if x.natAbs < 256 ^ n then .ok (beBytes n x.natAbs)
  else .panic "math/big: buffer too small to fit value".toList

/-- Go `UUIDv7`; `bytes` is the array `[16]byte`. -/
structure UUIDv7 where
  bytes : Bytes
deriving DecidableEq, Repr

/-- Go `NewUUIDv7`. `rnd` is what `rand.Read(value[:])` gives, the 16 bytes
or the error, and `now` is `time.Now().UnixMilli()`. -/
def NewUUIDv7 (rnd : Except Str Bytes) (now : Int) : Outcome (Except Str UUIDv7) :=
  match rnd with
  | .error err => .ok (.error err)
  | .ok value =>
    match FillBytes now 6 with
    | .panic msg => .panic msg
    | .ok ts =>
      let value := ts ++ value.drop 6
      let value := value.set 6 ((value.getD 6 0 &&& 0x0F) ||| 0x70)
      let value := value.set 8 ((value.getD 8 0 &&& 0x3F) ||| 0x80)
      .ok (.ok { bytes := value })

/-- A lower-case hexadecimal digit (`ldigits`). -/
def hexDigit (n : Nat) : Char := "0123456789abcdef".toList.getD n '0'

/-- The verb `%x` on a byte slice: two digits per byte. -/
def hexBytes : Bytes → Str
  | [] => []
  | b :: t => hexDigit (b / 16) :: hexDigit (b % 16) :: hexBytes t

/-- Go `UUIDv7.String`. The slices of the 16-byte array have 4, 2, 2, 2 and 6
bytes, so each group has the width its verb asks for and nothing is padded. -/
def UUIDv7.String (u : UUIDv7) : Str :=
  hexBytes (u.bytes.take 4) ++ ['-'] ++ hexBytes ((u.bytes.drop 4).take 2) ++ ['-'] ++
    hexBytes ((u.bytes.drop 6).take 2) ++ ['-'] ++ hexBytes ((u.bytes.drop 8).take 2) ++
    ['-'] ++ hexBytes ((u.bytes.drop 10).take 6)

/-- Lexicographic order of two lists under the order `lt` of the elements. -/
def lexLt {α : Type} [DecidableEq α] (lt : α → α → Bool) : List α → List α → Bool
  | [], [] => false
  | [], _ :: _ => true
  | _ :: _, [] => false
  | a :: s, b :: t => lt a b || (decide (a = b) && lexLt lt s t)

/-- Go `s < t` on strings: lexicographic order of the bytes, which for UTF-8
is the order of the code points. -/
def strLt (s t : Str) : Bool := lexLt (fun a b => decide (a.toNat < b.toNat)) s t

/-! ## spf-checks.go -/

/-- Go `strings.TrimPrefix`. -/
def TrimPrefix (s p : Str) : Str := if p.isPrefixOf s then s.drop p.length else s

/-- Go `strings.TrimSuffix`. -/
def TrimSuffix (s p : Str) : Str := if p.isSuffixOf s then s.take (s.length - p.length) else s

/-- The loop of `strings.Fields`: `cur` is the field being read. -/
def fieldsLoop : Str → Str → List Str
  | [], cur => if cur = [] then [] else [cur]
  | c :: t, cur =>
    if isSpace c then (if cur = [] then fieldsLoop t [] else cur :: fieldsLoop t [])
    else fieldsLoop t (cur ++ [c])

/-- Go `strings.Fields`: the maximal runs of characters that are not white space. -/
def Fields (s : Str) : List Str := fieldsLoop s []

/-- Go `net.IP`, a byte slice; the nil address is the empty slice. -/
abbrev IP := Bytes

/-- Go `net.IPNet`. -/
structure IPNet where
  IP : Bytes
  Mask : Bytes
deriving DecidableEq, Repr

/-- The functions of package `net` the SPF code calls: `net.LookupTXT`,
what `net.ParseCIDR` makes of the address and the prefix length once it has
found the `/` between them, and `(*IPNet).Contains`. -/
structure Net where
  LookupTXT : Str → Except Str (List Str)
  parseCIDR : Str → Str → Option IPNet
  contains : IPNet → IP → Bool

/-- Go `net.ParseCIDR`: a text without `/` is an error; otherwise the text
before the first `/` is the address and the text after it the prefix length. -/
def ParseCIDR (net : Net) (s : Str) : Option IPNet :=
  if '/' ∈ s then
    net.parseCIDR (s.takeWhile (fun c => c != '/')) (s.dropWhile (fun c => c != '/')).tail
  else none

/-- Go `SPFRecord`; the two maps `map[string]struct{}` are sets of texts. -/
structure SPFRecord where
  Domain : Str
  ipv4 : List Str := []
  ipv6 : List Str := []
deriving DecidableEq, Repr

/-- Go `NewSPFRecord`. -/
def NewSPFRecord (domain : Str) : SPFRecord := { Domain := domain, ipv4 := [], ipv6 := [] }

/-- The map write `m[x] = struct{}{}`. -/
def setInsert (s : List Str) (x : Str) : List Str := if x ∈ s then s else s ++ [x]

/-- Go `SPFRecord.Add`. -/
def SPFRecord.Add (r : SPFRecord) (ipv4 ipv6 : List Str) : SPFRecord :=
  { r with ipv4 := ipv4.foldl setInsert r.ipv4, ipv6 := ipv6.foldl setInsert r.ipv6 }

/-- The body of the two `range` loops of `CheckIfContains`: an entry that
`net.ParseCIDR` rejects is skipped. -/
def cidrContains (net : Net) (ip : IP) (cidr : Str) : Bool :=
  match ParseCIDR net cidr with
  | some ipnet => net.contains ipnet ip
  | none => false

/-- Go `SPFRecord.CheckIfContains`; the lists are the entries of the two maps
in the order the `range` loops visit them. -/
def SPFRecord.CheckIfContains (net : Net) (r : SPFRecord) (ip : IP) : Bool :=
  r.ipv4.any (cidrContains net ip) || r.ipv6.any (cidrContains net ip)

/-- Go `SPFRecord.normalizeSPF`. -/
def normalizeSPF (spf : Str) : Str :=
  let spf := TrimPrefix spf "v=spf1".toList
  let spf := TrimSpace spf
  let spf := TrimSuffix spf "~all".toList
  let spf := TrimSuffix spf "-all".toList
  let spf := TrimSuffix spf "+all".toList
  let spf := TrimSuffix spf "?all".toList
  TrimSpace spf

/-- The four results of `parseSPFRecord`. -/
structure SPFParts where
  ipv4 : List Str := []
  ipv6 : List Str := []
  includes : List Str := []
  redirects : List Str := []
deriving DecidableEq, Repr

/-- The body of the loop of `parseSPFRecord` on one field. -/
def spfPart (acc : SPFParts) (part : Str) : SPFParts :=
  if HasPrefix part "ip4:".toList then
    { acc with ipv4 := acc.ipv4 ++ [TrimPrefix part "ip4:".toList] }
  else if HasPrefix part "ip6:".toList then
    { acc with ipv6 := acc.ipv6 ++ [TrimPrefix part "ip6:".toList] }
  else if HasPrefix part "include:".toList then
    { acc with includes := acc.includes ++ [TrimPrefix part "include:".toList] }
  else if HasPrefix part "redirect=".toList then
    { acc with redirects := acc.redirects ++ [TrimPrefix part "redirect=".toList] }
  else acc

/-- Go `SPFRecord.parseSPFRecord`. -/
def parseSPFRecord (spf : Str) : SPFParts :=
  (Fields (normalizeSPF spf)).foldl spfPart {}

/-- The state of one resolution: the record whose maps `fetchSPFNetworks`
fills, the `visited` map (in the order of insertion), and the log of the
calls of `net.LookupTXT`. -/
structure Resolution where
  r : SPFRecord
  visited : List Str := []
  lookups : List Str := []
deriving DecidableEq, Repr

/-- The loops `for _, inc := range includes` and `for _, red := range
redirects` of `fetchSPFNetworks`: an error of a call is logged and the loop
goes on. `none` is the result when a call does not return. -/
def fetchEach (fetch : Str → Resolution → Option (Option Str × Resolution)) :
    List Str → Resolution → Option Resolution
  | [], st => some st
  | d :: rest, st =>
    match fetch d st with
    | none => none
    | some (_, st1) => fetchEach fetch rest st1

/-- The loop of `fetchSPFNetworks` over the TXT records, with the slices
`allIPv4` and `allIPv6` collected so far. -/
def recordsLoop (fetch : Str → Resolution → Option (Option Str × Resolution)) :
    List Str → Resolution → List Str → List Str → Option (Resolution × List Str × List Str)
  | [], st, all4, all6 => some (st, all4, all6)
  | record :: rest, st, all4, all6 =>
    if !HasPrefix record "v=spf1".toList then recordsLoop fetch rest st all4 all6
    else
      match fetchEach fetch (parseSPFRecord record).includes st with
      | none => none
      | some st1 =>
        match fetchEach fetch (parseSPFRecord record).redirects st1 with
        | none => none
        | some st2 =>
          recordsLoop fetch rest st2 (all4 ++ (parseSPFRecord record).ipv4)
            (all6 ++ (parseSPFRecord record).ipv6)

/-- Go `SPFRecord.fetchSPFNetworks`, with a bound on the depth of the
recursion: `none` when the bound is reached, else the error (or nil) and the
state after the call. -/
def fetchSPFNetworks (net : Net) : Nat → Str → Resolution → Option (Option Str × Resolution)
  | 0, _, _ => none
  | fuel + 1, domain, st =>
    if domain ∈ st.visited then some (none, st)
    else
      let st1 : Resolution :=
        { st with visited := setInsert st.visited domain, lookups := st.lookups ++ [domain] }
      match net.LookupTXT domain with
      | .error err =>
        some (some ("TXT lookup failed for ".toList ++ domain ++ ": ".toList ++ err), st1)
      | .ok txtRecords =>
        match recordsLoop (fetchSPFNetworks net fuel) txtRecords st1 [] [] with
        | none => none
        | some (st2, all4, all6) => some (none, { st2 with r := st2.r.Add all4 all6 })

/-- Go `SPFRecord.CheckSPF`, with the bound on the depth of the recursion:
the two results and the state of the resolution. -/
def SPFRecord.CheckSPF (net : Net) (fuel : Nat) (r : SPFRecord) (domain : Str) (ip : IP) :
    Option ((Bool × Option Str) × Resolution) :=
  match fetchSPFNetworks net fuel domain { r := r, visited := [], lookups := [] } with
  | none => none
  | some (some err, st) =>
    some ((false, some ("error fetching SPF records: ".toList ++ err)), st)
  | some (none, st) => some ((st.r.CheckIfContains net ip, none), st)

/-- The `v=spf1` records of a domain, none when its lookup fails. -/
def spfRecords (net : Net) (d : Str) : List Str :=
  match net.LookupTXT d with
  | .ok txtRecords => txtRecords.filter (fun record => HasPrefix record "v=spf1".toList)
  | .error _ => []

/-- The domains the `v=spf1` records of a domain include or redirect to. -/
def spfEdges (net : Net) (d : Str) : List Str :=
  (spfRecords net d).flatMap (fun record =>
    (parseSPFRecord record).includes ++ (parseSPFRecord record).redirects)

/-- The `ip4:` entries of the `v=spf1` records of a domain. -/
def spfIPv4 (net : Net) (d : Str) : List Str :=
  (spfRecords net d).flatMap (fun record => (parseSPFRecord record).ipv4)

/-- The `ip6:` entries of the `v=spf1` records of a domain. -/
def spfIPv6 (net : Net) (d : Str) : List Str :=
  (spfRecords net d).flatMap (fun record => (parseSPFRecord record).ipv6)

/-- The domains reachable from `root` along include and redirect edges. -/
inductive Reach (net : Net) (root : Str) : Str → Prop where
  | root : Reach net root root
  | step (d w : Str) : Reach net root d → w ∈ spfEdges net d → Reach net root w

/-- The number of domains of `U` that are not yet visited. -/
def unvisited (U visited : List Str) : Nat := (U.filter (fun u => decide (u ∉ visited))).length

/-- Every visited domain that is not pending has all its edges visited. -/
def Closed (net : Net) (visited : List Str) (P : Str → Prop) : Prop :=
  ∀ v ∈ visited, ¬ P v → ∀ w ∈ spfEdges net v, w ∈ visited

/-- What calls of `fetchSPFNetworks` on the domains `ds` do to the state. -/
structure Grow (net : Net) (ds : List Str) (st st1 : Resolution) : Prop where
  mono : ∀ v ∈ st.visited, v ∈ st1.visited
  targets : ∀ d ∈ ds, d ∈ st1.visited
  sound : ∀ v ∈ st1.visited, v ∈ st.visited ∨ ∃ d ∈ ds, Reach net d v
  closed : ∀ P : Str → Prop, Closed net st.visited P → Closed net st1.visited P
  ip4 : ∀ x, x ∈ st1.r.ipv4 ↔
    x ∈ st.r.ipv4 ∨ ∃ v, v ∈ st1.visited ∧ v ∉ st.visited ∧ x ∈ spfIPv4 net v
  ip6 : ∀ x, x ∈ st1.r.ipv6 ↔
    x ∈ st.r.ipv6 ∨ ∃ v, v ∈ st1.visited ∧ v ∉ st.visited ∧ x ∈ spfIPv6 net v
  inv : st.lookups = st.visited ∧ st.visited.Nodup →
    st1.lookups = st1.visited ∧ st1.visited.Nodup

/-- A DNS in which `a.test` includes itself and `b.test`, and `b.test`
redirects to `a.test` and includes a domain whose lookup fails. -/
def cycleNet : Net :=
  { LookupTXT := fun d =>
      if d = "a.test".toList then
        .ok ["v=spf1 ip4:10.0.0.0/8 include:a.test include:b.test -all".toList,
             "google-site-verification=xyz".toList]
      else if d = "b.test".toList then
        .ok ["v=spf1 ip4:192.0.2.1 ip6:2001:db8::/32 include:gone.test redirect=a.test".toList]
      else .error "no such host".toList,
    parseCIDR := fun addr bits =>
      if addr = "10.0.0.0".toList ∧ bits = "8".toList then
        some ⟨[10, 0, 0, 0], [255, 0, 0, 0]⟩
      else none,
    contains := fun n ip => n.IP.head? = ip.head? }

/-! ## session.go, backend.go, Email -/

/-- One step of the loops of Go `strings.EqualFold` on the runes `sr` and
`tr`: equal runes, or an ASCII letter and its other case, or, when the larger
rune is not ASCII, the general case, which asks `unicode.SimpleFold` whether
its orbit leads from the smaller rune to the larger one (the parameter
`orbit`). -/
def equalFoldRune (orbit : Char → Char → Bool) (sr tr : Char) : Bool :=
  if tr = sr then true
  else
    let lo := if tr.toNat < sr.toNat then tr else sr
    let hi := if tr.toNat < sr.toNat then sr else tr
    if hi.toNat < 128 then
      decide (65 ≤ lo.toNat ∧ lo.toNat ≤ 90 ∧ hi.toNat = lo.toNat + 32)
    else orbit lo hi

/-- Go `strings.EqualFold`. -/
def EqualFold (orbit : Char → Char → Bool) : Str → Str → Bool
  | [], [] => true
  | sr :: s, tr :: t => equalFoldRune orbit sr tr && EqualFold orbit s t
  | _, _ => false

/-- Go `EmailUser.HasDomain`. -/
def EmailUser.HasDomain (orbit : Char → Char → Bool) (eu : EmailUser) (domains : List Str) :
    Str × Bool :=
  match SplitN2 eu.Email '@' with
  | [_, domain] => (domain, domains.any (fun d => EqualFold orbit d domain))
  | _ => ([], false)

/-- Go `Email`. A reader is the bytes it delivers, a time its Unix
milliseconds, and a nil `ClientIP` the empty slice. -/
structure Email where
  ID : Str := []
  ReceivedAt : Int := 0
  ClientIP : IP := []
  From : EmailUser := {}
  RcptTo : List EmailUser := []
  Recipients : List EmailUser := []
  Subject : Str := []
  Headers : Option MimeHeaders := none
  Raw : Bytes := []
  Body : Bytes := []
  BodyText : Option EmailContent := none
  BodyHTML : Option EmailContent := none
  Attachments : List EmailContent := []
  SPF : Bool := false
  DKIM : Bool := false
  DMARC : Bool := false
deriving DecidableEq, Repr

/-- Go `NewEmail`: the error of `NewUUIDv7` is dropped, the identifier is
then the zero value. -/
def NewEmail (rnd : Except Str Bytes) (now : Int) : Outcome Email :=
  match NewUUIDv7 rnd now with
  | .panic msg => .panic msg
  | .ok (.ok uuid) => .ok { ID := uuid.String, ReceivedAt := now }
  | .ok (.error _) =>
    .ok { ID := UUIDv7.String { bytes := List.replicate 16 0 }, ReceivedAt := now }

/-- What one call of `Email.VerifySPF` does: its results (or its panic), the
`Email` after the call, and the TXT lookups it performed. -/
structure SPFCall where
  result : Outcome (Bool × Option Str)
  email : Email
  lookups : List Str
deriving DecidableEq, Repr

/-- Go `Email.VerifySPF`, with the bound on the depth of the recursion of
`fetchSPFNetworks`. No statement of the function assigns to the receiver, so
the `Email` after the call is the receiver; `SplitN(...)[1]` panics when the
sender address has no `@`. -/
def Email.VerifySPF (net : Net) (fuel : Nat) (e : Email) : Option SPFCall :=
  if e.SPF then some { result := .ok (e.SPF, none), email := e, lookups := [] }
  else if e.ClientIP = [] ∨ e.From.Email = [] then
    some { result := .ok (false, none), email := e, lookups := [] }
  else
    match SplitN2 e.From.Email '@' with
    | [_, domain] =>
      match (NewSPFRecord domain).CheckSPF net fuel domain e.ClientIP with
      | none => none
      | some (res, st) => some { result := .ok res, email := e, lookups := st.lookups }
    | _ =>
      some { result := .panic "index out of range [1] with length 1".toList, email := e,
             lookups := [] }

/-- What `parseEmail` and `Session.Data` take from outside the repository:
the multipart and quoted-printable readers, `mail.ReadMessage` (the header,
and what `io.ReadAll` gives on the body), the random bytes and the clock read
by `NewEmail`, and `net.ParseIP` of the host of a remote address. -/
structure World where
  lib : Stdlib
  ReadMessage : Bytes → Except Str (MIMEHeader × Except Str Bytes)
  rnd : Except Str Bytes
  now : Int
  ParseIP : Str → IP

/-- Go `parseEmail`; the reader `r` is what `io.ReadAll` gives on it. -/
def parseEmail (w : World) (r : Except Str Bytes) : Outcome (Except Str Email) :=
  match r with
  | .error err => .ok (.error ("parseEmail: failed to read raw email: ".toList ++ err))
  | .ok rawEmail =>
    match w.ReadMessage rawEmail with
    | .error err => .ok (.error ("parseEmail: failed to read message: ".toList ++ err))
    | .ok (hdr, bdy) =>
      match bdy with
      | .error err => .ok (.error ("parseEmail: failed to read body: ".toList ++ err))
      | .ok bdyBytes =>
        match parseMimeHeaderLines hdr with
        | .error err => .ok (.error ("failed to parse headers: ".toList ++ err))
        | .ok headers =>
          let recipients := headers.Cc ++ headers.To
          match parseBody w.lib headers bdyBytes with
          | .error err => .ok (.error ("failed to parse body: ".toList ++ err))
          | .ok body =>
            match NewEmail w.rnd w.now with
            | .panic msg => .panic msg
            | .ok email =>
              .ok (.ok { email with
                From := headers.From, RcptTo := recipients, Subject := headers.Subject,
                Headers := some headers, Raw := rawEmail, Body := bdyBytes,
                BodyText := body.bodyText, BodyHTML := body.bodyHTML,
                Attachments := body.attachments })

/-- An invocation of one of the two collaborators. -/
inductive Event where
  | received (email : Email) : Event
  | failed (sender : EmailUser) (rcpt : List EmailUser) (raw : Bytes) (err : Str) : Event
deriving DecidableEq, Repr

/-- Go `Session`. `State` is the remote address of the connection (`none`
when `State` or its `Conn()` is nil); `OnEmailReceived` is nil or a
collaborator that, given the `Email`, returns or panics with a value;
`OnEmailFailed` tells whether that collaborator is non-nil. -/
structure Session where
  State : Option Str := none
  TrustedDomains : List Str := []
  From : EmailUser := {}
  RcptTo : List EmailUser := []
  Email : Option Email := none
  OnEmailReceived : Option (Getmail.Email → Option Str) := none
  OnEmailFailed : Bool := false

/-- What a call on a session gives: the error it returns (`none` is nil), the
session after the call, and the collaborators it invoked. -/
structure Step where
  err : Option Str
  session : Session
  events : List Event := []

/-- Go `Session.Mail`. -/
def Session.Mail (s : Session) (sender : Str) : Step :=
  match parseEmailUser sender with
  | .error err =>
    { err := some ("Mail: failed to parse sender '".toList ++ sender ++ "': ".toList ++ err),
      session := s }
  | .ok eu => { err := none, session := { s with From := eu } }

/-- Go `Session.Rcpt`. -/
def Session.Rcpt (orbit : Char → Char → Bool) (s : Session) (toAddress : Str) : Step :=
  match parseEmailUser toAddress with
  | .error err =>
    { err := some ("Rcpt: failed to parse recipient '".toList ++ toAddress ++ "': ".toList ++ err),
      session := s }
  | .ok eu =>
    if s.TrustedDomains.length > 0 ∧ (eu.HasDomain orbit s.TrustedDomains).2 = false then
      { err := some ("Mail: sender domain '".toList ++
          (eu.HasDomain orbit s.TrustedDomains).1 ++ "' is not a valid domain".toList),
        session := s }
    else { err := none, session := { s with RcptTo := s.RcptTo ++ [eu] } }

/-- Go `Session.Data`. -/
def Session.Data (w : World) (s : Session) (r : Except Str Bytes) : Outcome Step :=
  match parseEmail w r with
  | .panic msg => .panic msg
  | .ok (.error err) =>
    .ok { err := some ("Data: failed to parse email: ".toList ++ err), session := s,
          events := if s.OnEmailFailed then [.failed s.From s.RcptTo (r.toOption.getD []) err]
                    else [] }
  | .ok (.ok email) =>
    let clientIP : IP :=
      match s.State with
      | some clientAddr => w.ParseIP clientAddr
      | none => []
    .ok { err := none,
          session := { s with Email := some { email with ClientIP := clientIP, RcptTo := s.RcptTo } } }

/-- Go `Session.Reset`. -/
def Session.Reset (s : Session) : Session := s

/-- Go `Session.Logout`: a panic of `OnEmailReceived` is recovered and
reported to `OnEmailFailed`. -/
def Session.Logout (s : Session) : Step :=
  match s.OnEmailReceived, s.Email with
  | some f, some email =>
    match f email with
    | none => { err := none, session := s, events := [.received email] }
    | some p =>
      { err := none, session := s,
        events := .received email ::
          (if s.OnEmailFailed then
            [.failed s.From s.RcptTo email.Raw ("panic in OnEmailReceived: ".toList ++ p)]
           else []) }
  | _, _ => { err := none, session := s }

/-- Go `Backend`. -/
structure Backend where
  TrustedDomains : List Str := []
  OnEmailReceived : Option (Email → Option Str) := none
  OnEmailFailed : Bool := false

/-- Go `NewBackend`. -/
def NewBackend (OnEmailReceived : Option (Email → Option Str)) (OnEmailFailed : Bool)
    (TrustedDomains : List Str) : Backend :=
  { OnEmailReceived := OnEmailReceived, OnEmailFailed := OnEmailFailed,
    TrustedDomains := TrustedDomains }

/-- Go `Backend.NewSession`: the session, the error being nil. The composite
literal sets `State` and the two collaborators; every other field has its
zero value. -/
def Backend.NewSession (bkd : Backend) (c : Option Str) : Session :=
  { State := c, OnEmailReceived := bkd.OnEmailReceived, OnEmailFailed := bkd.OnEmailFailed }

/-- A call of the SMTP server on a session before `Logout`. -/
inductive Call where
  | Mail (sender : Str) : Call
  | Rcpt (toAddress : Str) : Call
  | Data (w : World) (r : Except Str Bytes) : Call
  | Reset : Call

/-- One call on a session. -/
def Session.call (orbit : Char → Char → Bool) (s : Session) : Call → Outcome Step
  | .Mail sender => .ok (s.Mail sender)
  | .Rcpt toAddress => .ok (s.Rcpt orbit toAddress)
  | .Data w r => s.Data w r
  | .Reset => .ok { err := none, session := s.Reset }

/-- A sequence of calls on a session: each call with what it gave, or the
panic that ended the sequence. -/
def Session.calls (orbit : Char → Char → Bool) : Session → List Call → Outcome (List (Call × Step))
  | _, [] => .ok []
  | s, c :: rest =>
    match s.call orbit c with
    | .panic msg => .panic msg
    | .ok step =>
      match Session.calls orbit step.session rest with
      | .panic msg => .panic msg
      | .ok steps => .ok ((c, step) :: steps)

/-- The session after a sequence of calls. -/
def lastSession (s : Session) (steps : List (Call × Step)) : Session :=
  match steps.getLast? with
  | some (_, step) => step.session
  | none => s

/-- The `Email`s of the `Data` calls of a sequence that returned success:
what each of them stored in the session. -/
def ingested (steps : List (Call × Step)) : List Email :=
  steps.filterMap (fun cs =>
    match cs.1 with
    | .Data _ _ => if cs.2.err = none then cs.2.session.Email else none
    | _ => none)

/-- The `Email`s `OnEmailReceived` was invoked with. -/
def receivedEmails (events : List Event) : List Email :=
  events.filterMap (fun ev =>
    match ev with
    | .received email => some email
    | .failed _ _ _ _ => none)

/-- A world whose `mail.ReadMessage` gives every message the same header and
the raw bytes as body. -/
def plainWorld (now : Int) : World :=
  { lib := { NewReader := fun _ _ => .eof, qpReadAll := fun b => .ok b },
    ReadMessage := fun raw =>
      .ok ([("From".toList, ["alice@a.test".toList]),
            ("Content-Type".toList, ["text/plain".toList])], .ok raw),
    rnd := .ok (List.replicate 16 0),
    now := now,
    ParseIP := fun _ => [10, 1, 2, 3] }

/-- An `Email` from `alice@a.test`, received from 10.1.2.3. -/
def aliceEmail : Email :=
  { From := { Email := "alice@a.test".toList }, ClientIP := [10, 1, 2, 3] }

/-! ## Sequences of calls -/

/-- What a sequence of calls followed by `Logout` delivers: the `Email`s of
the successful `Data` calls, and the `Email`s `OnEmailReceived` was invoked
with. -/
def deliveries (orbit : Char → Char → Bool) (s : Session) (cs : List Call) :
    Outcome (List Email × List Email) :=
  match Session.calls orbit s cs with
  | .panic msg => .panic msg
  | .ok steps => .ok (ingested steps, receivedEmails (lastSession s steps).Logout.events)

/-- A session that ingests two messages: `one` for `bob@b.test`, then `two`
for `carol@c.test`. -/
def twoMessages : List Call :=
  [.Mail "alice@a.test".toList, .Rcpt "bob@b.test".toList,
   .Data (plainWorld 1000) (.ok (asciiBytes "one".toList)),
   .Reset,
   .Mail "alice@a.test".toList, .Rcpt "carol@c.test".toList,
   .Data (plainWorld 2000) (.ok (asciiBytes "two".toList))]

/-! ## Parts with an unparseable type, truncated bodies -/

/-- The library on a message whose body is cut after its first part, a
`text/plain` part: the next `NextPart` fails. -/
def truncatedLib : Stdlib :=
  { NewReader := fun _ _ =>
      .part (ctHeader "text/plain") (asciiBytes "Hello".toList) none leafSub
        (.fail "multipart: NextPart: unexpected EOF".toList),
    qpReadAll := fun d => .ok d }

/-- The library on a message with a `text/plain` part, then a
`multipart/alternative` container cut after its first part, a `text/html`
part, then an `application/pdf` part the walker never reaches. -/
def nestedTruncatedLib : Stdlib :=
  { NewReader := fun _ _ =>
      .part (ctHeader "text/plain") (asciiBytes "Hello".toList) none leafSub
        (.part (ctHeader "multipart/alternative; boundary=in") [] none
          (fun _ => .part (ctHeader "text/html") (asciiBytes "<p>Hello</p>".toList) none leafSub
            (.fail "multipart: NextPart: unexpected EOF".toList))
          (.part pdfHeader (asciiBytes "JVBERi0xLjQK".toList) none leafSub .eof)),
    qpReadAll := fun d => .ok d }

/-- A body with a `text/plain` part and a `text/html` part. -/
def plainHtmlReader : Reader :=
  .part (ctHeader "text/plain") (asciiBytes "Hello".toList) none leafSub
    (.part (ctHeader "text/html") (asciiBytes "<p>Hello</p>".toList) none leafSub .eof)

/-! ## Parameters of a Content-Type value -/

/-- The key that `parseContentType` and `GetParam` read out of a `;`-segment
with an `=`: the text before the first `=`, trimmed. -/
def paramKey (seg : Str) : Str := TrimSpace (seg.takeWhile (fun c => c != '='))

/-- The value that `parseContentType` and `GetParam` read out of a
`;`-segment with an `=`: the text after the first `=`, trimmed, then without
the double quotes at its two ends (`strings.Trim`). -/
def paramValue (seg : Str) : Str :=
  Trim (TrimSpace (seg.dropWhile (fun c => c != '=')).tail) [dquote]

/-- The segments that have an `=` and whose key is `k`. -/
def segmentsOf (k : Str) (segs : List Str) : List Str :=
  segs.filter (fun seg => decide ('=' ∈ seg ∧ paramKey seg = k))

/-! ## Normalisation of a header value -/

/-- The normalisation `parseHeaders` applies to a single raw value:
`strings.Join(splitAndTrim(v, ";"), "; ")`. -/
def normalise (v : Str) : Str := Join (splitAndTrim v ';') "; ".toList

/-! ## Entries and edges of SPF records -/

/-- The library on a message with a `text/plain` part, then a part with the
header `Content-Type: multipart; boundary=x` whose body is not a multipart
body, then a `text/html` part. -/
def containerLib : Stdlib :=
  { NewReader := fun _ _ =>
      .part (ctHeader "text/plain") (asciiBytes "Hello".toList) none leafSub
        (.part (ctHeader "multipart; boundary=x") (asciiBytes "junk".toList) none leafSub
          (.part (ctHeader "text/html") (asciiBytes "<p>Hello</p>".toList) none leafSub .eof)),
    qpReadAll := fun d => .ok d }

/-! ## Facts about the `strings` functions -/

theorem Split_ne_nil (s : Str) (c : Char) : Split s c ≠ [] := by
  cases s with
  | nil => simp [Split]
  | cons x t =>
    by_cases h : x = c
    · simp [Split, h]
    · cases hs : Split t c <;> simp [Split, h, hs]

theorem Split_cons_eq (x : Char) (t : Str) (c : Char) :
    Split (x :: t) c = [] :: Split t c ∧ x = c ∨
    (∃ hd tl, Split t c = hd :: tl ∧ Split (x :: t) c = (x :: hd) :: tl ∧ x ≠ c) := by
  by_cases h : x = c
  · left; simp [Split, h]
  · right
    cases hs : Split t c with
    | nil => exact absurd hs (Split_ne_nil t c)
    | cons hd tl => exact ⟨hd, tl, rfl, by simp [Split, h, hs], h⟩

theorem Join_cons_head (x : Char) (a : Str) (l : List Str) (sep : Str) :
    Join ((x :: a) :: l) sep = x :: Join (a :: l) sep := by
  cases l <;> simp [Join]

theorem Join_Split (s : Str) (c : Char) : Join (Split s c) [c] = s := by
  induction s with
  | nil => simp [Split, Join]
  | cons x t ih =>
    rcases Split_cons_eq x t c with ⟨h, hx⟩ | ⟨hd, tl, hs, h, _⟩
    · rw [h]
      cases hs : Split t c with
      | nil => exact absurd hs (Split_ne_nil t c)
      | cons hd tl => rw [hs] at ih; simp [Join, ih, hx]
    · rw [h, Join_cons_head, ← hs, ih]

theorem Split_head (s : Str) (c : Char) :
    (Split s c).headD [] = s.takeWhile (fun x => x != c) := by
  induction s with
  | nil => simp [Split]
  | cons x t ih =>
    rcases Split_cons_eq x t c with ⟨h, hx⟩ | ⟨hd, tl, hs, h, hx⟩
    · rw [h]; simp [hx, List.takeWhile]
    · rw [hs] at ih
      simp only [List.headD_cons] at ih
      have hb : (x != c) = true := by simpa using hx
      rw [h]; simp [List.takeWhile, hb, ih]

theorem Split_length (s : Str) (c : Char) : 2 ≤ (Split s c).length ↔ c ∈ s := by
  induction s with
  | nil => simp [Split]
  | cons x t ih =>
    rcases Split_cons_eq x t c with ⟨h, hx⟩ | ⟨hd, tl, hs, h, hx⟩
    · have hl : 1 ≤ (Split t c).length := by
        cases hs : Split t c with
        | nil => exact absurd hs (Split_ne_nil t c)
        | cons _ _ => simp
      rw [h]; simp [hx]; omega
    · rw [hs] at ih
      rw [h]
      simp only [List.length_cons, List.mem_cons] at ih ⊢
      rw [ih]
      constructor
      · intro h1; exact Or.inr h1
      · rintro (h1 | h1)
        · exact absurd h1.symm hx
        · exact h1

theorem Join_Split_tail (s : Str) (c : Char) (hc : c ∈ s) :
    Join (Split s c).tail [c] = (s.dropWhile (fun x => x != c)).tail := by
  induction s with
  | nil => simp at hc
  | cons x t ih =>
    rcases Split_cons_eq x t c with ⟨h, hx⟩ | ⟨hd, tl, hs, h, hx⟩
    · rw [h]; simp [hx, List.dropWhile, Join_Split]
    · have hct : c ∈ t := by
        rcases List.mem_cons.mp hc with h1 | h1
        · exact absurd h1.symm hx
        · exact h1
      have := ih hct
      rw [hs] at this
      simp only [List.tail_cons] at this
      have hb : (x != c) = true := by simpa using hx
      rw [h]; simp [List.dropWhile, hb, this]

/-! ## Content-Type values -/

/-- C10, as stated, fails: the first segment of `a/b/c` splits on `/` into
three tokens, not two, and `parseContentType` succeeds on it. -/
theorem parseContentType_three_tokens :
    ¬ ((∃ ct, parseContentType "a/b/c".toList = .ok ct) ↔
      (Split (TrimSpace ((Split "a/b/c".toList ';').headD [])) '/').length = 2) := by
  intro h
  have h1 : ∃ ct, parseContentType "a/b/c".toList = .ok ct := ⟨_, rfl⟩
  have h2 := h.mp h1
  revert h2
  decide

/-- C10 (amended): `parseContentType` succeeds exactly when the first
`;`-segment of the value, trimmed and split on `/`, yields at least two
tokens. On success `MediaType` is the first token and `SubType` is all the
text after the first `/` (the remaining tokens, joined with `/` again), each
trimmed of surrounding white space, in the case supplied. -/
theorem parseContentType_media (value : Str) :
    ((∃ ct, parseContentType value = .ok ct) ↔
      2 ≤ (Split (TrimSpace ((Split value ';').headD [])) '/').length) ∧
    ∀ ct, parseContentType value = .ok ct →
      ct.MediaType =
        TrimSpace ((Split (TrimSpace ((Split value ';').headD [])) '/').headD []) ∧
      ct.SubType =
        TrimSpace (Join (Split (TrimSpace ((Split value ';').headD [])) '/').tail ['/']) := by
  generalize hseg : TrimSpace ((Split value ';').headD []) = seg
  by_cases h : '/' ∈ seg
  · have hp : parseContentType value = .ok
        { MediaType := TrimSpace (seg.takeWhile (fun x => x != '/')),
          SubType := TrimSpace ((seg.dropWhile (fun x => x != '/')).tail),
          Params := parseContentTypeParams (Split value ';').tail [] } := by
      simp only [parseContentType, hseg, SplitN2, h, if_true]
    refine ⟨⟨fun _ => (Split_length seg '/').mpr h, fun _ => ⟨_, hp⟩⟩, ?_⟩
    intro ct hct
    rw [hp] at hct
    injection hct with hct
    subst hct
    exact ⟨by rw [Split_head], by rw [Join_Split_tail seg '/' h]⟩
  · have hp : parseContentType value = .error ("invalid media type: ".toList ++ value) := by
      simp only [parseContentType, hseg, SplitN2, h, if_false]
    refine ⟨⟨?_, ?_⟩, ?_⟩
    · rintro ⟨ct, hct⟩; rw [hp] at hct; cases hct
    · intro h2; exact absurd ((Split_length seg '/').mp h2) h
    · intro ct hct; rw [hp] at hct; cases hct

/-- The amended C10 at the value `Text/Html ; charset=x`. -/
theorem parseContentType_media_witness :
    parseContentType "Text / Html+x/y ; charset=x".toList =
      .ok ⟨"Text".toList, "Html+x/y".toList, [("charset".toList, "x".toList)]⟩ ∧
    "Text".toList = TrimSpace ((Split (TrimSpace
      ((Split "Text / Html+x/y ; charset=x".toList ';').headD [])) '/').headD []) ∧
    "Html+x/y".toList = TrimSpace (Join (Split (TrimSpace
      ((Split "Text / Html+x/y ; charset=x".toList ';').headD [])) '/').tail ['/']) :=
  ⟨by decide, (parseContentType_media "Text / Html+x/y ; charset=x".toList).2
    ⟨"Text".toList, "Html+x/y".toList, [("charset".toList, "x".toList)]⟩ (by decide)⟩

/-! ## Single-part bodies -/

/-- C5: with a top-level type `text/plain`, `parseBody` returns no error,
`BodyText` holding exactly the body with `Size` its length and empty
part-level headers, no `BodyHTML` and no attachment; with `text/html` the
same holds with `BodyHTML` and `BodyText` exchanged. -/
theorem parseBody_singlepart (lib : Stdlib) (h : MimeHeaders) (b : Bytes)
    (hm : h.ContentType.MediaType = "text".toList) :
    (h.ContentType.SubType = "plain".toList →
      parseBody lib h b = .ok
        { bodyText := some { R := b, Headers := {}, Size := (b.length : Int) },
          bodyHTML := none, attachments := [] }) ∧
    (h.ContentType.SubType = "html".toList →
      parseBody lib h b = .ok
        { bodyText := none,
          bodyHTML := some { R := b, Headers := {}, Size := (b.length : Int) },
          attachments := [] }) := by
  have hp : HasPrefix h.ContentType.MediaType "multipart".toList = false := by
    rw [hm]; decide
  have hnp : ¬ (HasPrefix h.ContentType.MediaType "multipart".toList = true) := by
    rw [hp]; decide
  constructor
  · intro hs
    unfold parseBody
    rw [if_neg hnp, if_pos ⟨hm, hs⟩]
  · intro hs
    have hne : ¬ (h.ContentType.MediaType = "text".toList ∧
        h.ContentType.SubType = "plain".toList) := by
      rw [hs]; intro hh; exact absurd hh.2 (by decide)
    unfold parseBody
    rw [if_neg hnp, if_neg hne, if_pos ⟨hm, hs⟩]

/-- C5 at `Content-Type: text/plain` with the body `hello`. -/
theorem parseBody_singlepart_witness :
    parseBody ⟨fun _ _ => .eof, fun d => .ok d⟩
        { ContentType := { MediaType := "text".toList, SubType := "plain".toList } }
        (asciiBytes "hello".toList) = .ok
      { bodyText := some { R := asciiBytes "hello".toList, Headers := {}, Size := 5 },
        bodyHTML := none, attachments := [] } :=
  (parseBody_singlepart ⟨fun _ _ => .eof, fun d => .ok d⟩
    { ContentType := { MediaType := "text".toList, SubType := "plain".toList } }
    (asciiBytes "hello".toList) rfl).1 rfl

/-! ## The walker and its consumers -/

theorem drive_parts_append {σ : Type} (yield : Item → σ → σ × Bool) (ps : List Part)
    (rest : List Item) (s : σ) :
    drive yield (ps.map .ok ++ rest) s =
      if (drive yield (ps.map .ok) s).2 then drive yield (ps.map .ok) s
      else drive yield rest (drive yield (ps.map .ok) s).1 := by
  induction ps generalizing s with
  | nil => simp [drive]
  | cons p ps ih =>
    simp only [List.map_cons, List.cons_append, drive]
    by_cases hy : (yield (.ok p) s).2 = true
    · simp only [hy, if_true]; exact ih _
    · simp [hy]

theorem drive_forward {σ : Type} (yield : Item → σ → σ × Bool) (its : List Item) (s : σ) :
    (drive (forward yield) its (s, false)).1 = drive yield its s := by
  induction its generalizing s with
  | nil => simp [drive]
  | cons it its ih =>
    cases it with
    | error e => simp [drive, forward]
    | ok p =>
      by_cases hy : (yield (.ok p) s).2 = true
      · simp only [drive, forward, hy, Bool.not_true, if_true]
        simpa using ih _
      · simp [drive, forward, hy]

theorem drive_items_failure {σ : Type} (yield : Item → σ → σ × Bool) (r : Reader) (s : σ)
    (hf : r.failure.isSome = true) : (drive yield r.items s).2 = true := by
  unfold Reader.items
  rw [drive_parts_append]
  by_cases hd : (drive yield (r.parts.map .ok) s).2 = true
  · simp [hd]
  · simp only [hd]
    cases hfe : r.failure with
    | none => rw [hfe] at hf; simp at hf
    | some e => simp [drive]

theorem drive_items_no_failure {σ : Type} (yield : Item → σ → σ × Bool) (r : Reader) (s : σ)
    (hf : r.failure = none) : drive yield r.items s = drive yield (r.parts.map .ok) s := by
  unfold Reader.items
  rw [hf]; simp

theorem MultipartIterator_part (hd : MIMEHeader) (data : Bytes) (rerr : Option Str)
    (sub : Str → Reader) (next : Reader) (σ : Type) (yield : Item → σ → σ × Bool) (s : σ) :
    MultipartIterator (.part hd data rerr sub next) σ yield s =
      if descends hd then
        if (MultipartIterator (sub (walkerBoundary hd)) (σ × Bool) (forward yield) (s, false)).2
        then (MultipartIterator (sub (walkerBoundary hd)) (σ × Bool) (forward yield) (s, false)).1
        else MultipartIterator next σ yield
          (MultipartIterator (sub (walkerBoundary hd)) (σ × Bool) (forward yield) (s, false)).1
      else if !(yield (.ok ⟨hd, data, rerr, sub⟩) s).2 then (yield (.ok ⟨hd, data, rerr, sub⟩) s).1
        else MultipartIterator next σ yield (yield (.ok ⟨hd, data, rerr, sub⟩) s).1 := by
  rfl

/-- The iterator hands a consumer the items of the reader, in order, until
the consumer stops it. -/
theorem MultipartIterator_eq_drive (r : Reader) :
    ∀ (σ : Type) (yield : Item → σ → σ × Bool) (s : σ),
      MultipartIterator r σ yield s = (drive yield r.items s).1 := by
  induction r with
  | eof => intro σ yield s; simp [MultipartIterator, Reader.items, Reader.parts, Reader.failure, drive]
  | fail e =>
    intro σ yield s
    simp [MultipartIterator, Reader.items, Reader.parts, Reader.failure, drive]
  | part hd data rerr sub next ihs ihn =>
    intro σ yield s
    rw [MultipartIterator_part]
    by_cases hd1 : descends hd = true
    · simp only [hd1, if_true]
      rw [ihs (walkerBoundary hd) (σ × Bool) (forward yield) (s, false), drive_forward]
      cases hf : (sub (walkerBoundary hd)).failure with
      | some e =>
        have h2 := drive_items_failure yield (sub (walkerBoundary hd)) s (by simp [hf])
        have hi : (Reader.part hd data rerr sub next).items = (sub (walkerBoundary hd)).items := by
          simp [Reader.items, Reader.parts, Reader.failure, hd1, hf]
        rw [h2, hi]; simp
      | none =>
        have hi : (Reader.part hd data rerr sub next).items =
            (sub (walkerBoundary hd)).parts.map .ok ++ next.items := by
          simp [Reader.items, Reader.parts, Reader.failure, hd1, hf]
        rw [hi, drive_parts_append, drive_items_no_failure yield _ s hf, ihn]
        by_cases h3 : (drive yield ((sub (walkerBoundary hd)).parts.map .ok) s).2 = true
        · simp [h3]
        · simp [h3]
    · simp only [hd1]
      have hi : (Reader.part hd data rerr sub next).items =
          .ok ⟨hd, data, rerr, sub⟩ :: next.items := by
        simp [Reader.items, Reader.parts, Reader.failure, hd1]
      rw [hi]
      by_cases h3 : (yield (.ok ⟨hd, data, rerr, sub⟩) s).2 = true
      · simp [drive, h3, ihn]
      · simp [drive, h3]

theorem parseBodyLoop_ok (lib : Stdlib) (p : Part) (st : BodyState) :
    parseBodyLoop lib (.ok p) st =
      (match partContent lib p with
        | none => st
        | some c => classify st c, true) := by
  cases hc : partContent lib p with
  | none => simp [parseBodyLoop, hc]
  | some c =>
    simp only [parseBodyLoop, hc, classify, isTextPlain, isTextHTML, decide_eq_true_eq]
    split_ifs <;> rfl

theorem drive_parseBodyLoop_parts (lib : Stdlib) (ps : List Part) (st : BodyState) :
    drive (parseBodyLoop lib) (ps.map .ok) st =
      ((ps.filterMap (partContent lib)).foldl classify st, false) := by
  induction ps generalizing st with
  | nil => simp [drive]
  | cons p ps ih =>
    simp only [List.map_cons, drive, parseBodyLoop_ok, if_true, ih]
    cases hc : partContent lib p <;> simp [List.filterMap_cons, hc]

theorem drive_collect (its : List Item) (acc : List Item) :
    (drive collect its acc).1 = acc ++ (drive collect its []).1 := by
  induction its generalizing acc with
  | nil => simp [drive]
  | cons it its ih =>
    cases it with
    | error e => simp [drive, collect]
    | ok p =>
      simp only [drive, collect, if_true, List.nil_append]
      rw [ih (acc ++ [(Except.ok p : Item)]), ih [(Except.ok p : Item)]]
      simp

theorem drive_collect_parts (ps : List Part) :
    drive collect (ps.map .ok) [] = (ps.map .ok, false) := by
  induction ps with
  | nil => simp [drive]
  | cons p ps ih =>
    simp only [List.map_cons, drive, collect, if_true, List.nil_append]
    have h1 := drive_collect (ps.map .ok) [(Except.ok p : Item)]
    have h2 : (drive collect (ps.map .ok) [(Except.ok p : Item)]).2 = false := by
      have : ∀ (its : List Part) (a c : List Item),
          (drive collect (its.map .ok) a).2 = (drive collect (its.map .ok) c).2 := by
        intro its
        induction its with
        | nil => intro a c; simp [drive]
        | cons q qs ihq =>
          intro a c
          simp only [List.map_cons, drive, collect, if_true]
          exact ihq _ _
      rw [this ps _ [], ih]
    rw [ih] at h1
    exact Prod.ext (by simpa using h1) h2

/-- A consumer that never stops receives exactly the items of the reader. -/
theorem yielded_eq_items (r : Reader) : yielded r = r.items := by
  unfold yielded
  rw [MultipartIterator_eq_drive]
  unfold Reader.items
  rw [drive_parts_append, drive_collect_parts]
  cases r.failure with
  | none => simp [drive]
  | some e => simp [drive, collect]

theorem walkerContents_eq (lib : Stdlib) (r : Reader) :
    walkerContents lib r = r.parts.filterMap (partContent lib) := by
  unfold walkerContents
  rw [yielded_eq_items]
  unfold Reader.items
  rw [List.filterMap_append, List.filterMap_map]
  cases r.failure with
  | none => simp [Function.comp_def, itemContent]
  | some e => simp [Function.comp_def, itemContent]

/-- The multipart branch of `parseBody` classifies, one after the other, the
contents of the parts the walker yields. -/
theorem parseBody_multipart_fold (lib : Stdlib) (r : Reader) (st : BodyState) :
    MultipartIterator r BodyState (parseBodyLoop lib) st =
      (walkerContents lib r).foldl classify st := by
  rw [MultipartIterator_eq_drive, walkerContents_eq]
  unfold Reader.items
  rw [drive_parts_append, drive_parseBodyLoop_parts]
  cases r.failure with
  | none => simp [drive]
  | some e => simp [drive, parseBodyLoop]

theorem foldl_classify (P : List EmailContent) (st : BodyState) :
    (P.foldl classify st).bodyText =
        (match (P.filter isTextPlain).getLast? with
          | some c => some c
          | none => st.bodyText) ∧
    (P.foldl classify st).bodyHTML =
        (match (P.filter (fun c => !isTextPlain c && isTextHTML c)).getLast? with
          | some c => some c
          | none => st.bodyHTML) ∧
    (P.foldl classify st).attachments =
        st.attachments ++ P.filter (fun c => !isTextPlain c && !isTextHTML c) := by
  induction P using List.reverseRecOn with
  | nil => simp
  | append_singleton P c ih =>
    obtain ⟨ih1, ih2, ih3⟩ := ih
    rw [List.foldl_append]
    simp only [List.foldl_cons, List.foldl_nil, List.filter_append]
    by_cases h1 : isTextPlain c = true
    · simp [classify, h1, ih2, ih3, List.filter_cons]
    · by_cases h2 : isTextHTML c = true
      · simp [classify, h1, h2, ih1, ih3, List.filter_cons]
      · simp [classify, h1, h2, ih1, ih2, ih3, List.filter_cons]

theorem isTextPlain_not_isTextHTML (c : EmailContent) (h : isTextHTML c = true) :
    isTextPlain c = false := by
  simp only [isTextHTML, isTextPlain, decide_eq_true_eq, decide_eq_false_iff_not] at h ⊢
  intro hp
  have : "html".toList = "plain".toList := h.2.symm.trans hp.2
  exact absurd this (by decide)

theorem filter_isTextHTML (P : List EmailContent) :
    P.filter (fun c => !isTextPlain c && isTextHTML c) = P.filter isTextHTML := by
  apply List.filter_congr
  intro c _
  by_cases h : isTextHTML c = true
  · simp [h, isTextPlain_not_isTextHTML c h]
  · simp [h]

theorem foldl_classify_mem (P : List EmailContent) (c : EmailContent)
    (hc : (P.foldl classify {}).bodyText = some c ∨ (P.foldl classify {}).bodyHTML = some c ∨
      c ∈ (P.foldl classify {}).attachments) : c ∈ P := by
  obtain ⟨h1, h2, h3⟩ := foldl_classify P {}
  rcases hc with hc | hc | hc
  · rw [h1] at hc
    cases hl : (P.filter isTextPlain).getLast? with
    | none => rw [hl] at hc; cases hc
    | some x =>
      rw [hl] at hc
      injection hc with hc
      subst hc
      exact (List.mem_filter.mp (List.mem_of_getLast?_eq_some hl)).1
  · rw [h2] at hc
    cases hl : (P.filter (fun c => !isTextPlain c && isTextHTML c)).getLast? with
    | none => rw [hl] at hc; cases hc
    | some x =>
      rw [hl] at hc
      injection hc with hc
      subst hc
      exact (List.mem_filter.mp (List.mem_of_getLast?_eq_some hl)).1
  · rw [h3] at hc
    simp only [List.nil_append] at hc
    exact (List.mem_filter.mp hc).1

/-! ## Classification of the parts of a multipart body -/

/-- C3, as stated, fails: in a body with two `text/plain` parts the second
becomes `BodyText` and the first, which remains, is not an attachment. -/
theorem parseBody_overwritten_text_not_attached :
    ¬ ∃ st, parseBody twoPlainLib mixedHeaders [] = .ok st ∧
      st.attachments = (walkerContents twoPlainLib (twoPlainLib.NewReader [] "B".toList)).filter
        (fun c => decide (some c ≠ st.bodyText ∧ some c ≠ st.bodyHTML)) := by
  rintro ⟨st, h1, h2⟩
  have h3 : parseBody twoPlainLib mixedHeaders [] = .ok
      { bodyText := some ⟨asciiBytes "second".toList, ctOnly "text" "plain", 6⟩,
        bodyHTML := none, attachments := [] } := by decide
  rw [h3] at h1
  injection h1 with h1
  subst h1
  revert h2
  decide

/-- C3 (amended): for a multipart message with a boundary, let P be the
contents of the parts the walker yields that `parseBody` does not skip (the
part was read, has at least one header, and its decoding succeeded).
`parseBody` returns no error, `BodyText` the last element of P of type
`text/plain` (nil if none), `BodyHTML` the last of type `text/html` (nil if
none), and as attachments the elements of P of neither type, in the order
the walker yielded them. -/
theorem parseBody_multipart_classification (lib : Stdlib) (h : MimeHeaders) (b : Bytes)
    (hm : HasPrefix h.ContentType.MediaType "multipart".toList = true)
    (hb : h.ContentType.Params.get "boundary".toList ≠ []) :
    parseBody lib h b = .ok
      { bodyText := ((walkerContents lib
          (lib.NewReader b (h.ContentType.Params.get "boundary".toList))).filter
            isTextPlain).getLast?,
        bodyHTML := ((walkerContents lib
          (lib.NewReader b (h.ContentType.Params.get "boundary".toList))).filter
            isTextHTML).getLast?,
        attachments := (walkerContents lib
          (lib.NewReader b (h.ContentType.Params.get "boundary".toList))).filter
            (fun c => !isTextPlain c && !isTextHTML c) } := by
  unfold parseBody
  rw [if_pos hm]
  simp only [hb, if_false]
  rw [parseBody_multipart_fold]
  obtain ⟨h1, h2, h3⟩ := foldl_classify (walkerContents lib
    (lib.NewReader b (h.ContentType.Params.get "boundary".toList))) {}
  rw [filter_isTextHTML] at h2
  congr 1
  generalize List.foldl classify {} (walkerContents lib
    (lib.NewReader b (h.ContentType.Params.get "boundary".toList))) = st at h1 h2 h3
  cases st with
  | mk t hh a =>
    simp only at h1 h2 h3
    subst h3
    congr 1
    · rw [h1]; cases (List.filter isTextPlain _).getLast? <;> rfl
    · rw [h2]; cases (List.filter isTextHTML _).getLast? <;> rfl

/-- The amended C3 on the body with two `text/plain` parts. -/
theorem parseBody_multipart_classification_witness :
    parseBody twoPlainLib mixedHeaders [] = .ok
      { bodyText := some ⟨asciiBytes "second".toList, ctOnly "text" "plain", 6⟩,
        bodyHTML := none, attachments := [] } :=
  (parseBody_multipart_classification twoPlainLib mixedHeaders []
    (by decide) (by decide)).trans (by decide)

/-! ## Decoded contents -/

theorem decodeData_empty (lib : Stdlib) (data : Bytes) : decodeData lib data [] = .ok data := by
  simp [decodeData, ToLower]

theorem partContent_some (lib : Stdlib) (part : Part) (c : EmailContent)
    (h : partContent lib part = some c) :
    ∃ hdr, parseEmailContentHeader part.Header = .ok hdr ∧ part.readErr = none ∧
      part.Header.length ≠ 0 ∧ c.Headers = hdr ∧
      decodeData lib part.data hdr.ContentTransferEncoding = .ok c.R ∧
      (hdr.ContentTransferEncoding = [] → c.R = part.data) ∧
      c.Size = (c.R.length : Int) := by
  refine ⟨(headerLines part.Header).foldl contentHeaderLine {}, rfl, ?_⟩
  simp only [partContent, parseEmailContentHeader] at h
  cases hr : part.readErr with
  | some e => rw [hr] at h; cases h
  | none =>
    rw [hr] at h
    simp only at h
    by_cases he : ((headerLines part.Header).foldl contentHeaderLine {}).ContentTransferEncoding = []
    · simp only [he, ne_eq, not_true_eq_false, if_false] at h
      by_cases hl : part.Header.length = 0
      · simp [hl] at h
      · simp only [hl, if_false, Option.some.injEq] at h
        subst h
        exact ⟨rfl, hl, rfl, by rw [he]; exact decodeData_empty _ _, fun _ => rfl, rfl⟩
    · simp only [he, ne_eq, not_false_eq_true, if_true] at h
      cases hd : decodeData lib part.data
          ((headerLines part.Header).foldl contentHeaderLine {}).ContentTransferEncoding with
      | error e => rw [hd] at h; cases h
      | ok data =>
        rw [hd] at h
        by_cases hl : part.Header.length = 0
        · simp [hl] at h
        · simp only [hl, if_false, Option.some.injEq] at h
          subst h
          exact ⟨rfl, hl, rfl, rfl, fun h0 => absurd h0 he, rfl⟩

/-- C4: every content `parseBody` returns for a multipart message (as
`BodyText`, `BodyHTML` or an attachment) comes from a part the walker
yielded; its bytes are `decodeData` of the bytes read from that part under
the Content-Transfer-Encoding the part declares, the bytes read unchanged
when none is declared, and its `Size` is the number of those bytes. -/
theorem parseBody_multipart_decoded (lib : Stdlib) (h : MimeHeaders) (b : Bytes)
    (st : BodyState) (c : EmailContent)
    (hm : HasPrefix h.ContentType.MediaType "multipart".toList = true)
    (hok : parseBody lib h b = .ok st)
    (hc : st.bodyText = some c ∨ st.bodyHTML = some c ∨ c ∈ st.attachments) :
    ∃ part hdr,
      .ok part ∈ yielded (lib.NewReader b (h.ContentType.Params.get "boundary".toList)) ∧
      parseEmailContentHeader part.Header = .ok hdr ∧ c.Headers = hdr ∧
      decodeData lib part.data hdr.ContentTransferEncoding = .ok c.R ∧
      (hdr.ContentTransferEncoding = [] → c.R = part.data) ∧
      c.Size = (c.R.length : Int) := by
  have hmem : c ∈ walkerContents lib
      (lib.NewReader b (h.ContentType.Params.get "boundary".toList)) := by
    unfold parseBody at hok
    rw [if_pos hm] at hok
    by_cases hb : h.ContentType.Params.get "boundary".toList = []
    · simp only [hb, if_true] at hok
      cases hok
    · simp only [hb, if_false] at hok
      rw [parseBody_multipart_fold] at hok
      injection hok with hok
      subst hok
      exact foldl_classify_mem _ c hc
  unfold walkerContents at hmem
  obtain ⟨it, hit, hcont⟩ := List.mem_filterMap.mp hmem
  cases it with
  | error e => simp [itemContent] at hcont
  | ok part =>
    obtain ⟨hdr, h1, _, _, h4, h5, h6, h7⟩ := partContent_some lib part c hcont
    exact ⟨part, hdr, hit, h1, h4, h5, h6, h7⟩

/-- C4 on a `multipart/mixed` message with a `text/plain` part, a `text/html`
part and a base64 `application/pdf` part: `BodyText`, `BodyHTML` and one
attachment holding the nine decoded bytes `%PDF-1.4` and a line feed. -/
theorem parseBody_multipart_decoded_witness :
    parseBody mixedLib mixedHeaders [] = .ok
      { bodyText := some ⟨asciiBytes "Hello".toList, ctOnly "text" "plain", 5⟩,
        bodyHTML := some ⟨asciiBytes "<p>Hello</p>".toList, ctOnly "text" "html", 12⟩,
        attachments := [⟨[37, 80, 68, 70, 45, 49, 46, 52, 10],
          { ContentType := { MediaType := "application".toList, SubType := "pdf".toList },
            ContentTransferEncoding := "base64".toList }, 9⟩] } ∧
    ∃ part hdr,
      .ok part ∈ yielded (mixedLib.NewReader [] (mixedHeaders.ContentType.Params.get "boundary".toList)) ∧
      parseEmailContentHeader part.Header = .ok hdr ∧
      { ContentType := { MediaType := "application".toList, SubType := "pdf".toList },
        ContentTransferEncoding := "base64".toList } = hdr ∧
      decodeData mixedLib part.data hdr.ContentTransferEncoding =
        .ok [37, 80, 68, 70, 45, 49, 46, 52, 10] ∧
      (hdr.ContentTransferEncoding = [] → [37, 80, 68, 70, 45, 49, 46, 52, 10] = part.data) ∧
      (9 : Int) = (([37, 80, 68, 70, 45, 49, 46, 52, 10] : Bytes).length : Int) :=
  ⟨by decide,
   parseBody_multipart_decoded mixedLib mixedHeaders []
     { bodyText := some ⟨asciiBytes "Hello".toList, ctOnly "text" "plain", 5⟩,
       bodyHTML := some ⟨asciiBytes "<p>Hello</p>".toList, ctOnly "text" "html", 12⟩,
       attachments := [⟨[37, 80, 68, 70, 45, 49, 46, 52, 10],
         { ContentType := { MediaType := "application".toList, SubType := "pdf".toList },
           ContentTransferEncoding := "base64".toList }, 9⟩] }
     ⟨[37, 80, 68, 70, 45, 49, 46, 52, 10],
       { ContentType := { MediaType := "application".toList, SubType := "pdf".toList },
         ContentTransferEncoding := "base64".toList }, 9⟩
     (by decide) (by decide) (Or.inr (Or.inr (List.mem_singleton.mpr rfl)))⟩

/-! ## The walker on parts that are not multipart -/

/-- C1 at `threeLeaves`: the three parts have the media type `text`, so the
body has three leaf parts and no container; the walker yields the first
leaf and then an error item, and never the second and third leaf. -/
theorem MultipartIterator_three_leaves :
    (yielded threeLeaves).map itemData =
      [.ok (asciiBytes "one".toList), .error "multipart: NextPart: EOF".toList] ∧
    (parseContentType "text/plain; name=multipart-notes.txt; boundary=xyz".toList).map
      (fun ct => (ct.MediaType, ct.SubType)) = .ok ("text".toList, "plain".toList) := by
  refine ⟨by decide, by decide⟩

/-- C2 at `oneAttachment`: the media type of the part is `application`, not
multipart, yet the walker descends into it: it yields what the reader over
the body of the part delivers, here one error item, and not the part. -/
theorem MultipartIterator_descends_on_parameter :
    (parseContentType "application/octet-stream; name=multipart.bin; boundary=xyz".toList).map
      (fun ct => ct.MediaType) = .ok "application".toList ∧
    descends (ctHeader "application/octet-stream; name=multipart.bin; boundary=xyz") = true ∧
    (yielded oneAttachment).map itemData = [.error "multipart: NextPart: EOF".toList] := by
  refine ⟨by decide, by decide, by decide⟩

/-! ## The address patterns: what a match implies -/

theorem firstOf_eq_some {α : Type} (a b : Option α) (x : α) (h : firstOf a b = some x) :
    a = some x ∨ b = some x := by
  cases a with
  | none => right; simpa [firstOf] using h
  | some y => left; simpa [firstOf] using h

theorem starRun_sound {α : Type} (p : Char → Bool) (s : Str) (k : Str → Option α) (res : α)
    (h : starRun p s k = some res) :
    ∃ pre rest, s = pre ++ rest ∧ (∀ c ∈ pre, p c = true) ∧ k rest = some res := by
  induction s with
  | nil => exact ⟨[], [], rfl, by simp, by simpa [starRun] using h⟩
  | cons c t ih =>
    by_cases hp : p c = true
    · simp only [starRun, hp, if_true] at h
      rcases firstOf_eq_some _ _ _ h with h1 | h1
      · obtain ⟨pre, rest, hs, hall, hk⟩ := ih h1
        refine ⟨c :: pre, rest, by simp [hs], ?_, hk⟩
        intro x hx
        rcases List.mem_cons.mp hx with hx | hx
        · rw [hx]; exact hp
        · exact hall x hx
      · exact ⟨[], c :: t, rfl, by simp, h1⟩
    · simp only [starRun, hp] at h
      exact ⟨[], c :: t, rfl, by simp, by simpa using h⟩

theorem Re.run_sound (r : Re) : ∀ (s : Str) (caps : Caps) (k : Str → Caps → Option Caps)
    (res : Caps), r.run s caps k = some res →
    ∃ pre rest caps1, s = pre ++ rest ∧ r.lang pre ∧ k rest caps1 = some res := by
  induction r with
  | cls p =>
    intro s caps k res h
    cases s with
    | nil => simp [Re.run] at h
    | cons c t =>
      by_cases hp : p c = true
      · simp only [Re.run, hp, if_true] at h
        exact ⟨[c], t, caps, rfl, ⟨c, rfl, hp⟩, h⟩
      · simp [Re.run, hp] at h
  | seq a b iha ihb =>
    intro s caps k res h
    simp only [Re.run] at h
    obtain ⟨p1, r1, c1, hs1, hl1, hk1⟩ := iha s caps _ res h
    obtain ⟨p2, r2, c2, hs2, hl2, hk2⟩ := ihb r1 c1 k res hk1
    exact ⟨p1 ++ p2, r2, c2, by rw [hs1, hs2, List.append_assoc], ⟨p1, p2, rfl, hl1, hl2⟩, hk2⟩
  | opt r ih =>
    intro s caps k res h
    simp only [Re.run] at h
    rcases firstOf_eq_some _ _ _ h with h1 | h1
    · obtain ⟨p1, r1, c1, hs1, hl1, hk1⟩ := ih s caps k res h1
      exact ⟨p1, r1, c1, hs1, Or.inr hl1, hk1⟩
    · exact ⟨[], s, caps, rfl, Or.inl rfl, h1⟩
  | star p =>
    intro s caps k res h
    simp only [Re.run] at h
    obtain ⟨pre, rest, hs, hall, hk⟩ := starRun_sound p s _ res h
    exact ⟨pre, rest, caps, hs, hall, hk⟩
  | plus p =>
    intro s caps k res h
    cases s with
    | nil => simp [Re.run] at h
    | cons c t =>
      by_cases hp : p c = true
      · simp only [Re.run, hp, if_true] at h
        obtain ⟨pre, rest, hs, hall, hk⟩ := starRun_sound p t _ res h
        refine ⟨c :: pre, rest, caps, by simp [hs], ⟨by simp, ?_⟩, hk⟩
        intro x hx
        rcases List.mem_cons.mp hx with hx | hx
        · rw [hx]; exact hp
        · exact hall x hx
      · simp [Re.run, hp] at h
  | group i r ih =>
    intro s caps k res h
    simp only [Re.run] at h
    obtain ⟨p1, r1, c1, hs1, hl1, hk1⟩ := ih s caps _ res h
    exact ⟨p1, r1, _, hs1, hl1, hk1⟩

theorem FindStringSubmatch_sound (r : Re) (n : Nat) (s : Str) (m : List Str)
    (h : FindStringSubmatch r n s = some m) : r.lang s := by
  unfold FindStringSubmatch at h
  cases hr : r.run s [] (fun rest caps => if rest = [] then some caps else none) with
  | none => rw [hr] at h; simp at h
  | some res =>
    obtain ⟨pre, rest, c1, hs, hl, hk⟩ := Re.run_sound r s [] _ res hr
    by_cases he : rest = []
    · rw [hs, he, List.append_nil]; exact hl
    · simp [he] at hk

theorem reAddr_lang_at (s : Str) (h : reAddr.lang s) : '@' ∈ s := by
  simp only [reAddr, Re.lang, Re.lit] at h
  obtain ⟨x, y, hs, _, ⟨u, v, hy, ⟨c, hu, hc⟩, _⟩⟩ := h
  have : c = '@' := by simpa using hc
  subst hs hy hu this
  simp

theorem re1_lang (s : Str) (h : re1.lang s) : '@' ∈ s ∧ '<' ∈ s := by
  simp only [re1, reAngle, Re.lang] at h
  obtain ⟨x1, y1, hs1, _, x2, y2, hs2, _, x3, y3, hs3, _, x4, y4, hs4, _,
    x5, y5, hs5, h5, x6, y6, hs6, h6, _⟩ := h
  have hat := reAddr_lang_at x6 h6
  obtain ⟨c, hc, hc2⟩ := h5
  have : c = '<' := by simpa using hc2
  subst hs1 hs2 hs3 hs4 hs5 hs6 hc this
  simp [hat]

theorem re2_lang (s : Str) (h : re2.lang s) : '@' ∈ s ∧ '<' ∈ s := by
  simp only [re2, reAngle, Re.lang] at h
  obtain ⟨x5, y5, hs5, h5, x6, y6, hs6, h6, _⟩ := h
  have hat := reAddr_lang_at x6 h6
  obtain ⟨c, hc, hc2⟩ := h5
  have : c = '<' := by simpa using hc2
  subst hs5 hs6 hc this
  simp [hat]

theorem re3_lang (s : Str) (h : re3.lang s) : '@' ∈ s := by
  simp only [re3, Re.lang] at h
  exact reAddr_lang_at s h

/-! ## The address patterns: the match on the three shapes -/

theorem TrimFunc_all (s : Str) (f : Char → Bool) (h : ∀ c ∈ s, f c = false) :
    TrimFunc s f = s := by
  unfold TrimFunc
  have h1 : s.dropWhile f = s := by
    cases s with
    | nil => rfl
    | cons a t => simp [List.dropWhile, h a (List.mem_cons_self a t)]
  rw [h1]
  exact List.rdropWhile_eq_self_iff.mpr (fun hl => by simp [h _ (List.getLast_mem hl)])

theorem TrimFunc_ends (a z : Char) (m : Str) (f : Char → Bool) (ha : f a = false)
    (hz : f z = false) : TrimFunc (a :: (m ++ [z])) f = a :: (m ++ [z]) := by
  unfold TrimFunc
  have h1 : (a :: (m ++ [z])).dropWhile f = a :: (m ++ [z]) := by
    simp [List.dropWhile, ha]
  rw [h1]
  have h2 : a :: (m ++ [z]) = (a :: m) ++ [z] := rfl
  rw [h2]
  exact List.rdropWhile_concat_neg f (a :: m) z (by simp [hz])

theorem firstOf_some {α : Type} (x : α) (b : Option α) : firstOf (some x) b = some x := rfl

theorem firstOf_none {α : Type} (b : Option α) : firstOf none b = b := rfl

theorem starRun_greedy {α : Type} (p : Char → Bool) (xs rest : Str) (k : Str → Option α)
    (res : α) (hxs : ∀ c ∈ xs, p c = true) (hrest : ∀ c, rest.head? = some c → p c = false)
    (hk : k rest = some res) : starRun p (xs ++ rest) k = some res := by
  induction xs with
  | nil =>
    cases rest with
    | nil => simpa [starRun] using hk
    | cons c t =>
      have : p c = false := hrest c rfl
      simpa [starRun, this] using hk
  | cons x xs ih =>
    have hx : p x = true := hxs x (List.mem_cons_self x xs)
    have := ih (fun c hc => hxs c (List.mem_cons_of_mem x hc))
    simp [starRun, hx, this, firstOf_some]

theorem plus_greedy (p : Char → Bool) (xs rest : Str) (caps : Caps)
    (k : Str → Caps → Option Caps) (res : Caps) (hne : xs ≠ [])
    (hxs : ∀ c ∈ xs, p c = true) (hrest : ∀ c, rest.head? = some c → p c = false)
    (hk : k rest caps = some res) : (Re.plus p).run (xs ++ rest) caps k = some res := by
  cases xs with
  | nil => exact absurd rfl hne
  | cons x xs =>
    have hx : p x = true := hxs x (List.mem_cons_self x xs)
    simp only [List.cons_append, Re.run, hx, if_true]
    exact starRun_greedy p xs rest _ res (fun c hc => hxs c (List.mem_cons_of_mem x hc)) hrest hk

theorem reAddr_greedy (l d rest : Str) (caps : Caps) (k : Str → Caps → Option Caps)
    (res : Caps) (hl : l ≠ []) (hd : d ≠ []) (hla : ∀ c ∈ l, addrChar c = true)
    (hda : ∀ c ∈ d, addrChar c = true) (hrest : ∀ c, rest.head? = some c → addrChar c = false)
    (hk : k rest caps = some res) :
    reAddr.run (l ++ '@' :: (d ++ rest)) caps k = some res := by
  unfold reAddr
  simp only [Re.run]
  apply plus_greedy addrChar l ('@' :: (d ++ rest)) caps _ res hl hla
  · intro c hc
    simp only [List.head?_cons, Option.some.injEq] at hc
    subst hc; decide
  · simp only [Re.lit, Re.run, beq_self_eq_true, if_true]
    exact plus_greedy addrChar d rest caps k res hd hda hrest hk

theorem take_sub_length (a b : Str) : (a ++ b).take ((a ++ b).length - b.length) = a := by
  simp

theorem reAngle_greedy (i : Nat) (l d : Str) (caps : Caps) (hl : l ≠ []) (hd : d ≠ [])
    (hla : ∀ c ∈ l, addrChar c = true) (hda : ∀ c ∈ d, addrChar c = true) :
    (reAngle i).run ('<' :: (l ++ '@' :: (d ++ ['>']))) caps
      (fun rest caps => if rest = [] then some caps else none) =
      some ((i, l ++ '@' :: d) :: caps) := by
  simp only [reAngle, Re.run, Re.lit, beq_self_eq_true, if_true]
  apply reAddr_greedy l d ['>'] caps _ _ hl hd hla hda
  · intro c hc
    simp only [List.head?_cons, Option.some.injEq] at hc
    subst hc; decide
  · have e : l ++ '@' :: (d ++ ['>']) = (l ++ '@' :: d) ++ ['>'] := by simp
    rw [e, take_sub_length]
    simp

theorem run_seq (a b : Re) (s : Str) (caps : Caps) (k : Str → Caps → Option Caps) :
    (Re.seq a b).run s caps k = a.run s caps (fun s1 c1 => b.run s1 c1 k) := rfl

theorem run_opt (r : Re) (s : Str) (caps : Caps) (k : Str → Caps → Option Caps) :
    (Re.opt r).run s caps k = firstOf (r.run s caps k) (k s caps) := rfl

theorem run_group (i : Nat) (r : Re) (s : Str) (caps : Caps) (k : Str → Caps → Option Caps) :
    (Re.group i r).run s caps k =
      r.run s caps (fun rest c1 => k rest ((i, s.take (s.length - rest.length)) :: c1)) := rfl

theorem run_star (p : Char → Bool) (s : Str) (caps : Caps) (k : Str → Caps → Option Caps) :
    (Re.star p).run s caps k = starRun p s (fun rest => k rest caps) := rfl

theorem run_lit_eq (c : Char) (t : Str) (caps : Caps) (k : Str → Caps → Option Caps) :
    (Re.lit c).run (c :: t) caps k = k t caps := by
  simp [Re.lit, Re.run]

theorem run_lit_ne (c x : Char) (t : Str) (caps : Caps) (k : Str → Caps → Option Caps)
    (h : x ≠ c) : (Re.lit c).run (x :: t) caps k = none := by
  simp [Re.lit, Re.run, h]

/-- The input `<l@d>` after optional white space. -/
theorem spaceAngle_greedy (ws l d : Str) (caps : Caps) (hws : ∀ c ∈ ws, reSpace c = true)
    (hl : l ≠ []) (hd : d ≠ [])
    (hla : ∀ c ∈ l, addrChar c = true) (hda : ∀ c ∈ d, addrChar c = true) :
    (Re.seq (.star reSpace) (reAngle 2)).run (ws ++ '<' :: (l ++ '@' :: (d ++ ['>']))) caps
      (fun rest caps => if rest = [] then some caps else none) =
      some ((2, l ++ '@' :: d) :: caps) := by
  rw [run_seq, run_star]
  apply starRun_greedy reSpace ws _ _ _ hws
  · intro c hc
    simp only [List.head?_cons, Option.some.injEq] at hc
    subst hc; decide
  · exact reAngle_greedy 2 l d caps hl hd hla hda

theorem quoteSpaceAngle_greedy (ws l d : Str) (caps : Caps)
    (hws : ∀ c ∈ ws, reSpace c = true) (hl : l ≠ []) (hd : d ≠ [])
    (hla : ∀ c ∈ l, addrChar c = true) (hda : ∀ c ∈ d, addrChar c = true) :
    (Re.seq (.opt (.lit dquote)) (.seq (.star reSpace) (reAngle 2))).run
      (dquote :: (ws ++ '<' :: (l ++ '@' :: (d ++ ['>'])))) caps
      (fun rest caps => if rest = [] then some caps else none) =
      some ((2, l ++ '@' :: d) :: caps) := by
  rw [run_seq, run_opt, run_lit_eq]
  rw [spaceAngle_greedy ws l d caps hws hl hd hla hda, firstOf_some]

theorem noQuoteAngle_greedy (l d : Str) (caps : Caps) (hl : l ≠ []) (hd : d ≠ [])
    (hla : ∀ c ∈ l, addrChar c = true) (hda : ∀ c ∈ d, addrChar c = true) :
    (Re.seq (.opt (.lit dquote)) (.seq (.star reSpace) (reAngle 2))).run
      ('<' :: (l ++ '@' :: (d ++ ['>']))) caps
      (fun rest caps => if rest = [] then some caps else none) =
      some ((2, l ++ '@' :: d) :: caps) := by
  rw [run_seq, run_opt, run_lit_ne dquote '<' _ _ _ (by decide), firstOf_none]
  exact spaceAngle_greedy [] l d caps (by simp) hl hd hla hda

/-- The pattern `re1` on `"n" <l@d>`. -/
theorem re1_quoted (n l d : Str) (hn : n ≠ []) (hna : ∀ c ∈ n, nameChar c = true)
    (hl : l ≠ []) (hd : d ≠ [])
    (hla : ∀ c ∈ l, addrChar c = true) (hda : ∀ c ∈ d, addrChar c = true) :
    re1.run (dquote :: (n ++ dquote :: ([' '] ++ '<' :: (l ++ '@' :: (d ++ ['>']))))) []
      (fun rest caps => if rest = [] then some caps else none) =
      some [(2, l ++ '@' :: d), (1, n)] := by
  unfold re1
  rw [run_seq, run_opt, run_lit_eq]
  have h2 : (Re.seq (.opt (.group 1 (.plus nameChar)))
      (.seq (.opt (.lit dquote)) (.seq (.star reSpace) (reAngle 2)))).run
      (n ++ dquote :: ([' '] ++ '<' :: (l ++ '@' :: (d ++ ['>'])))) []
      (fun rest caps => if rest = [] then some caps else none) =
      some [(2, l ++ '@' :: d), (1, n)] := by
    rw [run_seq, run_opt]
    have h3 : (Re.group 1 (.plus nameChar)).run
        (n ++ dquote :: ([' '] ++ '<' :: (l ++ '@' :: (d ++ ['>'])))) []
        (fun s1 c1 => (Re.seq (.opt (.lit dquote)) (.seq (.star reSpace) (reAngle 2))).run s1 c1
          (fun rest caps => if rest = [] then some caps else none)) =
        some [(2, l ++ '@' :: d), (1, n)] := by
      rw [run_group]
      apply plus_greedy nameChar n _ [] _ _ hn hna
      · intro c hc
        simp only [List.head?_cons, Option.some.injEq] at hc
        subst hc; decide
      · rw [take_sub_length]
        exact quoteSpaceAngle_greedy [' '] l d [(1, n)] (by decide) hl hd hla hda
    rw [h3, firstOf_some]
  rw [h2, firstOf_some]

/-- The pattern `re1` on `<l@d>`. -/
theorem re1_angle (l d : Str) (hl : l ≠ []) (hd : d ≠ [])
    (hla : ∀ c ∈ l, addrChar c = true) (hda : ∀ c ∈ d, addrChar c = true) :
    re1.run ('<' :: (l ++ '@' :: (d ++ ['>']))) []
      (fun rest caps => if rest = [] then some caps else none) =
      some [(2, l ++ '@' :: d)] := by
  unfold re1
  rw [run_seq, run_opt, run_lit_ne dquote '<' _ _ _ (by decide), firstOf_none]
  rw [run_seq, run_opt]
  have h3 : (Re.group 1 (.plus nameChar)).run ('<' :: (l ++ '@' :: (d ++ ['>']))) []
      (fun s1 c1 => (Re.seq (.opt (.lit dquote)) (.seq (.star reSpace) (reAngle 2))).run s1 c1
        (fun rest caps => if rest = [] then some caps else none)) = none := by
    have : nameChar '<' = false := by decide
    simp [Re.run, this]
  rw [h3, firstOf_none]
  exact noQuoteAngle_greedy l d [] hl hd hla hda

/-- The pattern `re3` on `l@d`. -/
theorem re3_bare (l d : Str) (hl : l ≠ []) (hd : d ≠ [])
    (hla : ∀ c ∈ l, addrChar c = true) (hda : ∀ c ∈ d, addrChar c = true) :
    re3.run (l ++ '@' :: d) []
      (fun rest caps => if rest = [] then some caps else none) =
      some [(1, l ++ '@' :: d)] := by
  unfold re3
  rw [run_group]
  have := reAddr_greedy l d [] []
    (fun rest c1 => if rest = [] then some ((1, (l ++ '@' :: d).take
      ((l ++ '@' :: d).length - rest.length)) :: c1) else none)
    [(1, l ++ '@' :: d)] hl hd hla hda (by simp) (by simp)
  simpa using this

theorem reSpace_isSpace (c : Char) (h : reSpace c = true) : isSpace c = true := by
  simp only [reSpace, isSpace, Bool.or_eq_true, beq_iff_eq, Bool.and_eq_true,
    decide_eq_true_eq] at h ⊢
  omega

theorem addrText_addrChar (s : Str) (h : addrText s) : ∀ c ∈ s, addrChar c = true := by
  intro c hc
  obtain ⟨h1, h2, h3, h4⟩ := h.2 c hc
  have h5 : reSpace c = false := by
    cases hr : reSpace c with
    | false => rfl
    | true => rw [reSpace_isSpace c hr] at h4; cases h4
  simp [addrChar, h1, h2, h3, h5]

theorem nameText_nameChar (n : Str) (h : nameText n) : ∀ c ∈ n, nameChar c = true := by
  intro c hc
  obtain ⟨h1, h2, h3⟩ := h.2 c hc
  simp [nameChar, h1, h2, h3]

theorem TrimSpace_bare (l d : Str) (hl : addrText l) (hd : addrText d) :
    TrimSpace (l ++ '@' :: d) = l ++ '@' :: d := by
  apply TrimFunc_all
  intro c hc
  rcases List.mem_append.mp hc with h | h
  · exact (hl.2 c h).2.2.2
  · rcases List.mem_cons.mp h with h | h
    · subst h; decide
    · exact (hd.2 c h).2.2.2

theorem mem_TrimSpace (c : Char) (s : Str) (h : c ∈ TrimSpace s) : c ∈ s := by
  unfold TrimSpace TrimFunc at h
  exact (List.dropWhile_suffix isSpace).subset ((List.rdropWhile_prefix isSpace _).subset h)

theorem HasPrefix_TO_cons (c : Char) (t : Str) (hc : toUpperChar c ≠ 'T') :
    HasPrefix (ToUpper (c :: t)) "TO:".toList = false := by
  simp only [HasPrefix, ToUpper, List.map_cons, String.toList, List.isPrefixOf,
    Bool.and_eq_false_imp, beq_iff_eq]
  intro h
  exact absurd h.symm hc

theorem parseEmailUser_ok_at (s : Str) (u : EmailUser) (h : parseEmailUser s = .ok u) :
    '@' ∈ s := by
  unfold parseEmailUser at h
  simp only at h
  split at h
  · cases h
  · have hin : '@' ∈ (if HasPrefix (ToUpper (TrimSpace s)) "TO:".toList = true
        then TrimSpace ((TrimSpace s).drop 3) else TrimSpace s) → '@' ∈ s := by
      intro ht
      split at ht
      · exact mem_TrimSpace _ _ (List.mem_of_mem_drop (mem_TrimSpace _ _ ht))
      · exact mem_TrimSpace _ _ ht
    split at h
    · next m _ _ _ heq =>
      exact hin (re1_lang _ (FindStringSubmatch_sound _ _ _ _ heq)).1
    · split at h
      · next m _ _ heq =>
        exact hin (re2_lang _ (FindStringSubmatch_sound _ _ _ _ heq)).1
      · split at h
        · next m _ _ heq =>
          exact hin (re3_lang _ (FindStringSubmatch_sound _ _ _ _ heq))
        · cases h

theorem FindStringSubmatch_none_of_not_mem (r : Re) (n : Nat) (s : Str) (c : Char)
    (hr : ∀ t, r.lang t → c ∈ t) (hc : c ∉ s) : FindStringSubmatch r n s = none := by
  cases h : FindStringSubmatch r n s with
  | none => rfl
  | some m => exact absurd (hr s (FindStringSubmatch_sound r n s m h)) hc

theorem parseEmailUser_quoted (n l d : Str) (hn : nameText n) (hl : addrText l)
    (hd : addrText d) :
    parseEmailUser (quotedForm n l d) =
      .ok ⟨Trim n [dquote, ' '], bareForm l d⟩ := by
  have e1 : quotedForm n l d =
      dquote :: ((n ++ dquote :: ' ' :: '<' :: (l ++ '@' :: d)) ++ ['>']) := by
    simp [quotedForm]
  have e2 : quotedForm n l d =
      dquote :: (n ++ dquote :: ([' '] ++ '<' :: (l ++ '@' :: (d ++ ['>'])))) := by
    simp [quotedForm]
  have e3 : bareForm l d = l ++ '@' :: d := by simp [bareForm]
  have ht : TrimSpace (quotedForm n l d) = quotedForm n l d := by
    rw [e1]; exact TrimFunc_ends _ _ _ _ (by decide) (by decide)
  have hp : HasPrefix (ToUpper (quotedForm n l d)) "TO:".toList = false := by
    rw [e1]; exact HasPrefix_TO_cons _ _ (by decide)
  have hf : FindStringSubmatch re1 2 (quotedForm n l d) =
      some [quotedForm n l d, n, l ++ '@' :: d] := by
    unfold FindStringSubmatch
    rw [e2, re1_quoted n l d hn.1 (nameText_nameChar n hn) hl.1 hd.1
      (addrText_addrChar l hl) (addrText_addrChar d hd)]
    simp [capture, List.range_succ, List.find?]
  unfold parseEmailUser
  simp only [ht, hp]
  rw [if_neg (by rw [e1]; simp)]
  simp only [Bool.false_eq_true, if_false, hf]
  rw [e3, TrimSpace_bare l d hl hd]

theorem parseEmailUser_angle (l d : Str) (hl : addrText l) (hd : addrText d) :
    parseEmailUser (angleForm l d) = .ok ⟨[], bareForm l d⟩ := by
  have e1 : angleForm l d = '<' :: ((l ++ '@' :: d) ++ ['>']) := by
    simp [angleForm]
  have e2 : angleForm l d = '<' :: (l ++ '@' :: (d ++ ['>'])) := by
    simp [angleForm]
  have e3 : bareForm l d = l ++ '@' :: d := by simp [bareForm]
  have ht : TrimSpace (angleForm l d) = angleForm l d := by
    rw [e1]; exact TrimFunc_ends _ _ _ _ (by decide) (by decide)
  have hp : HasPrefix (ToUpper (angleForm l d)) "TO:".toList = false := by
    rw [e1]; exact HasPrefix_TO_cons _ _ (by decide)
  have hf : FindStringSubmatch re1 2 (angleForm l d) =
      some [angleForm l d, [], l ++ '@' :: d] := by
    unfold FindStringSubmatch
    rw [e2, re1_angle l d hl.1 hd.1 (addrText_addrChar l hl) (addrText_addrChar d hd)]
    simp [capture, List.range_succ, List.find?]
  unfold parseEmailUser
  simp only [ht, hp]
  rw [if_neg (by rw [e1]; simp)]
  simp only [Bool.false_eq_true, if_false, hf]
  rw [e3, TrimSpace_bare l d hl hd]
  rfl

theorem parseEmailUser_bare (l d : Str) (hl : addrText l) (hd : addrText d)
    (hp : HasPrefix (ToUpper (bareForm l d)) "TO:".toList = false) :
    parseEmailUser (bareForm l d) = .ok ⟨[], bareForm l d⟩ := by
  have e3 : bareForm l d = l ++ '@' :: d := by simp [bareForm]
  have ht : TrimSpace (bareForm l d) = bareForm l d := by
    rw [e3]; exact TrimSpace_bare l d hl hd
  have hlt : '<' ∉ bareForm l d := by
    rw [e3]
    intro hc
    rcases List.mem_append.mp hc with h | h
    · exact (hl.2 _ h).1 rfl
    · rcases List.mem_cons.mp h with h | h
      · exact absurd h (by decide)
      · exact (hd.2 _ h).1 rfl
  have h1 : FindStringSubmatch re1 2 (bareForm l d) = none :=
    FindStringSubmatch_none_of_not_mem re1 2 _ '<' (fun t ht => (re1_lang t ht).2) hlt
  have h2 : FindStringSubmatch re2 1 (bareForm l d) = none :=
    FindStringSubmatch_none_of_not_mem re2 1 _ '<' (fun t ht => (re2_lang t ht).2) hlt
  have h3 : FindStringSubmatch re3 1 (bareForm l d) =
      some [bareForm l d, bareForm l d] := by
    unfold FindStringSubmatch
    rw [e3, re3_bare l d hl.1 hd.1 (addrText_addrChar l hl) (addrText_addrChar d hd)]
    simp [capture, List.range_succ, List.find?]
  unfold parseEmailUser
  simp only [ht, hp]
  rw [if_neg (by rw [e3]; simp)]
  simp only [Bool.false_eq_true, if_false, h1, h2, h3, ht]

/-! ## Addresses -/

/-- C7, as stated, fails: the local part `to:x` and the domain `d` are as the
claim takes them, and `parseEmailUser` of `to:x@d` strips the leading `to:`
and returns the address `x@d`, not `to:x@d`. -/
theorem parseEmailUser_strips_to :
    addrText "to:x".toList ∧ addrText "d".toList ∧
    parseEmailUser (bareForm "to:x".toList "d".toList) = .ok ⟨[], "x@d".toList⟩ ∧
    parseEmailUser (bareForm "to:x".toList "d".toList) ≠
      .ok ⟨[], bareForm "to:x".toList "d".toList⟩ := by
  refine ⟨⟨by decide, by decide⟩, ⟨by decide, by decide⟩, by decide, by decide⟩

/-- C7 (amended): for a display name `n` (not empty, without double quote,
`<`, `@`), a local part `l` and a domain `d` (not empty, without `<`, `>`,
`@`, white space), `parseEmailUser` of `"n" <l@d>` returns the name `n`
stripped of surrounding spaces and quotes and the address `l@d`; of `<l@d>`
it returns the empty name and `l@d`; of `l@d` it returns the same provided
`l@d` does not begin with `to:` in any letter case; and every input without
`@` fails. -/
theorem parseEmailUser_shapes (n l d : Str) (hn : nameText n) (hl : addrText l)
    (hd : addrText d) :
    parseEmailUser (quotedForm n l d) = .ok ⟨Trim n [dquote, ' '], bareForm l d⟩ ∧
    parseEmailUser (angleForm l d) = .ok ⟨[], bareForm l d⟩ ∧
    (HasPrefix (ToUpper (bareForm l d)) "TO:".toList = false →
      parseEmailUser (bareForm l d) = .ok ⟨[], bareForm l d⟩) ∧
    ∀ s, '@' ∉ s → ∃ e, parseEmailUser s = .error e := by
  refine ⟨parseEmailUser_quoted n l d hn hl hd, parseEmailUser_angle l d hl hd,
    parseEmailUser_bare l d hl hd, ?_⟩
  intro s hs
  cases h : parseEmailUser s with
  | error e => exact ⟨e, rfl⟩
  | ok u => exact absurd (parseEmailUser_ok_at s u h) hs

/-- The amended C7 at the name `Jane Doe`, the local part `jane` and the
domain `x.com`, and at the input `not-an-address`. -/
theorem parseEmailUser_shapes_witness :
    parseEmailUser (quotedForm "Jane Doe".toList "jane".toList "x.com".toList) =
      .ok ⟨"Jane Doe".toList, "jane@x.com".toList⟩ ∧
    parseEmailUser (angleForm "jane".toList "x.com".toList) = .ok ⟨[], "jane@x.com".toList⟩ ∧
    parseEmailUser (bareForm "jane".toList "x.com".toList) = .ok ⟨[], "jane@x.com".toList⟩ ∧
    ∃ e, parseEmailUser "not-an-address".toList = .error e :=
  ⟨(parseEmailUser_shapes "Jane Doe".toList "jane".toList "x.com".toList
      ⟨by decide, by decide⟩ ⟨by decide, by decide⟩ ⟨by decide, by decide⟩).1.trans
      (by decide),
   (parseEmailUser_shapes "Jane Doe".toList "jane".toList "x.com".toList
      ⟨by decide, by decide⟩ ⟨by decide, by decide⟩ ⟨by decide, by decide⟩).2.1.trans
      (by decide),
   ((parseEmailUser_shapes "Jane Doe".toList "jane".toList "x.com".toList
      ⟨by decide, by decide⟩ ⟨by decide, by decide⟩ ⟨by decide, by decide⟩).2.2.1
      (by decide)).trans (by decide),
   (parseEmailUser_shapes "Jane Doe".toList "jane".toList "x.com".toList
      ⟨by decide, by decide⟩ ⟨by decide, by decide⟩ ⟨by decide, by decide⟩).2.2.2
      "not-an-address".toList (by decide)⟩

/-- C8 at the input `<` + vertical tab + `@b>`: the pattern accepts the
vertical tab as local part (it is not in the class `\s`), `TrimSpace` then
removes it, and the returned `Email` is `@b`, with an empty local part. -/
theorem parseEmailUser_empty_local_part :
    parseEmailUser ['<', Char.ofNat 11, '@', 'b', '>'] = .ok ⟨[], "@b".toList⟩ := by
  decide

/-! ## Address headers -/

theorem parseEmailUsersLoop_ok (segs : List Str) (acc us : List EmailUser)
    (h : parseEmailUsersLoop segs acc = .ok us) :
    us.map Except.ok = acc.map Except.ok ++ segs.map parseEmailUser := by
  induction segs generalizing acc with
  | nil =>
    simp only [parseEmailUsersLoop] at h
    injection h with h
    simp [h]
  | cons seg rest ih =>
    simp only [parseEmailUsersLoop] at h
    cases hp : parseEmailUser seg with
    | error e => rw [hp] at h; cases h
    | ok u =>
      rw [hp] at h
      have := ih _ h
      simp [this, hp]

theorem parseEmailUsersLoop_error (segs : List Str) (acc : List EmailUser) :
    (∃ e, parseEmailUsersLoop segs acc = .error e) ↔
      ∃ seg ∈ segs, ∃ e, parseEmailUser seg = .error e := by
  induction segs generalizing acc with
  | nil => simp [parseEmailUsersLoop]
  | cons seg rest ih =>
    simp only [parseEmailUsersLoop]
    cases hp : parseEmailUser seg with
    | error e => simp [hp]
    | ok u =>
      simp only [List.mem_cons, exists_eq_or_imp, hp]
      rw [ih]
      simp

theorem lineKeyValue_none (line : Str) (hc : ':' ∉ TrimSpace line) :
    lineKeyValue line = none ∧ ∀ h, mimeHeaderStep h line = .ok h := by
  simp [lineKeyValue, mimeHeaderStep, SplitN2, hc]

theorem mimeHeaderStep_error_iff (h : MimeHeaders) (line : Str) :
    (∃ e, mimeHeaderStep h line = .error e) ↔
      ∃ value,
        (lineKeyValue line = some ("From".toList, value) ∧
          ∃ e, parseEmailUser value = .error e) ∨
        ((lineKeyValue line = some ("To".toList, value) ∨
            lineKeyValue line = some ("Cc".toList, value)) ∧
          ∃ e, parseEmailUsers (Split value ',') = .error e) := by
  by_cases hc : ':' ∈ TrimSpace line
  · simp only [mimeHeaderStep, lineKeyValue, SplitN2, hc, if_true]
    generalize CanonicalMIMEHeaderKey _ = ck
    generalize TrimSpace (List.dropWhile _ _).tail = value
    generalize TrimSpace (List.takeWhile _ _) = key
    split_ifs with h1 h2 h3 h4 h5 h6 h7 h8
    · subst h1; simp
    · subst h2; simp
    · subst h3; simp
    · subst h4
      cases hp : parseEmailUser value <;> simp [hp]
    · subst h5
      cases hp : parseEmailUsers (Split value ',') <;> simp [hp]
    · subst h6
      cases hp : parseEmailUsers (Split value ',') <;> simp [hp]
    · subst h7; simp
    · subst h8
      cases hp : parseContentType value <;> simp
    · simp_all
  · simp [(lineKeyValue_none line hc).1, (lineKeyValue_none line hc).2]

theorem headerValues_eq (header : MIMEHeader) (name : String) :
    headerValues header name = (headerLines header).filterMap (lineValue name) := by
  unfold headerValues
  rw [List.filterMap_filterMap]
  rfl

theorem mimeHeaderStep_To (h h1 : MimeHeaders) (line : Str)
    (hs : mimeHeaderStep h line = .ok h1) :
    match lineValue "To" line with
    | some v => parseEmailUsers (Split v ',') = .ok h1.To
    | none => h1.To = h.To := by
  by_cases hc : ':' ∈ TrimSpace line
  · simp only [mimeHeaderStep, lineValue, lineKeyValue, SplitN2, hc, if_true,
      Option.some_bind] at hs ⊢
    revert hs
    generalize CanonicalMIMEHeaderKey _ = ck
    generalize TrimSpace (List.dropWhile _ _).tail = value
    generalize TrimSpace (List.takeWhile _ _) = key
    intro hs
    split_ifs at hs with h1 h2 h3 h4 h5 h6 h7 h8
    · subst h1; injection hs with hs; subst hs; simp
    · subst h2; injection hs with hs; subst hs; simp
    · subst h3; injection hs with hs; subst hs; simp
    · subst h4
      cases hp : parseEmailUser value with
      | error e => rw [hp] at hs; cases hs
      | ok u => rw [hp] at hs; injection hs with hs; subst hs; simp
    · subst h5
      cases hp : parseEmailUsers (Split value ',') with
      | error e => rw [hp] at hs; cases hs
      | ok u => rw [hp] at hs; injection hs with hs; subst hs; simp [hp]
    · subst h6
      cases hp : parseEmailUsers (Split value ',') with
      | error e => rw [hp] at hs; cases hs
      | ok u => rw [hp] at hs; injection hs with hs; subst hs; simp
    · subst h7; injection hs with hs; subst hs; simp
    · subst h8
      cases hp : parseContentType value with
      | error e => rw [hp] at hs; injection hs with hs; subst hs; simp
      | ok u => rw [hp] at hs; injection hs with hs; subst hs; simp
    · injection hs with hs; subst hs
      have h5' : ¬ ck = ['T', 'o'] := h5
      simp [h5']
  · rw [(lineKeyValue_none line hc).2] at hs
    injection hs with hs
    subst hs
    simp [lineValue, (lineKeyValue_none line hc).1]

theorem mimeHeaderStep_Cc (h h1 : MimeHeaders) (line : Str)
    (hs : mimeHeaderStep h line = .ok h1) :
    match lineValue "Cc" line with
    | some v => parseEmailUsers (Split v ',') = .ok h1.Cc
    | none => h1.Cc = h.Cc := by
  by_cases hc : ':' ∈ TrimSpace line
  · simp only [mimeHeaderStep, lineValue, lineKeyValue, SplitN2, hc, if_true,
      Option.some_bind] at hs ⊢
    revert hs
    generalize CanonicalMIMEHeaderKey _ = ck
    generalize TrimSpace (List.dropWhile _ _).tail = value
    generalize TrimSpace (List.takeWhile _ _) = key
    intro hs
    split_ifs at hs with h1 h2 h3 h4 h5 h6 h7 h8
    · subst h1; injection hs with hs; subst hs; simp
    · subst h2; injection hs with hs; subst hs; simp
    · subst h3; injection hs with hs; subst hs; simp
    · subst h4
      cases hp : parseEmailUser value with
      | error e => rw [hp] at hs; cases hs
      | ok u => rw [hp] at hs; injection hs with hs; subst hs; simp
    · subst h5
      cases hp : parseEmailUsers (Split value ',') with
      | error e => rw [hp] at hs; cases hs
      | ok u => rw [hp] at hs; injection hs with hs; subst hs; simp
    · subst h6
      cases hp : parseEmailUsers (Split value ',') with
      | error e => rw [hp] at hs; cases hs
      | ok u => rw [hp] at hs; injection hs with hs; subst hs; simp [hp]
    · subst h7; injection hs with hs; subst hs; simp
    · subst h8
      cases hp : parseContentType value with
      | error e => rw [hp] at hs; injection hs with hs; subst hs; simp
      | ok u => rw [hp] at hs; injection hs with hs; subst hs; simp
    · injection hs with hs; subst hs
      have h6' : ¬ ck = ['C', 'c'] := h6
      simp [h6']
  · rw [(lineKeyValue_none line hc).2] at hs
    injection hs with hs
    subst hs
    simp [lineValue, (lineKeyValue_none line hc).1]

theorem mimeHeaderLoop_error_iff (lines : List Str) (h : MimeHeaders) :
    (∃ e, mimeHeaderLoop lines h = .error e) ↔
      ∃ line ∈ lines, ∃ e, mimeHeaderStep h line = .error e := by
  induction lines generalizing h with
  | nil => simp [mimeHeaderLoop]
  | cons line rest ih =>
    have hindep : ∀ h1 h2 : MimeHeaders, ∀ l : Str,
        (∃ e, mimeHeaderStep h1 l = .error e) ↔ (∃ e, mimeHeaderStep h2 l = .error e) := by
      intro h1 h2 l
      rw [mimeHeaderStep_error_iff, mimeHeaderStep_error_iff]
    simp only [mimeHeaderLoop, List.mem_cons, exists_eq_or_imp]
    cases hs : mimeHeaderStep h line with
    | error e => simp
    | ok h1 =>
      simp only [ih h1]
      constructor
      · rintro ⟨l, hl, he⟩
        exact Or.inr ⟨l, hl, (hindep h1 h l).mp he⟩
      · rintro (⟨e, he⟩ | ⟨l, hl, he⟩)
        · cases he
        · exact ⟨l, hl, (hindep h h1 l).mp he⟩

theorem getLast?_option_append {α : Type} (o : Option α) (l : List α) :
    (o.toList ++ l).getLast? = match l.getLast? with
      | some v => some v
      | none => o := by
  cases l using List.reverseRecOn with
  | nil => cases o <;> simp
  | append_singleton l a => simp [← List.append_assoc]

theorem mimeHeaderLoop_To (lines : List Str) (h0 h : MimeHeaders)
    (hl : mimeHeaderLoop lines h0 = .ok h) :
    h.To.map Except.ok =
      match (lines.filterMap (lineValue "To")).getLast? with
      | some v => addressList v
      | none => h0.To.map Except.ok := by
  induction lines generalizing h0 with
  | nil =>
    simp only [mimeHeaderLoop] at hl
    injection hl with hl
    subst hl
    simp
  | cons line rest ih =>
    simp only [mimeHeaderLoop] at hl
    cases hs : mimeHeaderStep h0 line with
    | error e => rw [hs] at hl; cases hl
    | ok h1 =>
      rw [hs] at hl
      have h2 := ih h1 hl
      have h3 := mimeHeaderStep_To h0 h1 line hs
      have h4 : (line :: rest).filterMap (lineValue "To") =
          (lineValue "To" line).toList ++ rest.filterMap (lineValue "To") := by
        cases hv : lineValue "To" line <;> simp [List.filterMap_cons, hv]
      rw [h4, getLast?_option_append]
      cases hr : (rest.filterMap (lineValue "To")).getLast? with
      | some v => rw [hr] at h2; simpa using h2
      | none =>
        rw [hr] at h2
        simp only at h2 ⊢
        cases hv : lineValue "To" line with
        | some v0 =>
          rw [hv] at h3
          simp only at h3
          have := parseEmailUsersLoop_ok _ _ _ h3
          simpa [h2, addressList] using this
        | none =>
          rw [hv] at h3
          simp only at h3
          rw [h2, h3]

theorem mimeHeaderLoop_Cc (lines : List Str) (h0 h : MimeHeaders)
    (hl : mimeHeaderLoop lines h0 = .ok h) :
    h.Cc.map Except.ok =
      match (lines.filterMap (lineValue "Cc")).getLast? with
      | some v => addressList v
      | none => h0.Cc.map Except.ok := by
  induction lines generalizing h0 with
  | nil =>
    simp only [mimeHeaderLoop] at hl
    injection hl with hl
    subst hl
    simp
  | cons line rest ih =>
    simp only [mimeHeaderLoop] at hl
    cases hs : mimeHeaderStep h0 line with
    | error e => rw [hs] at hl; cases hl
    | ok h1 =>
      rw [hs] at hl
      have h2 := ih h1 hl
      have h3 := mimeHeaderStep_Cc h0 h1 line hs
      have h4 : (line :: rest).filterMap (lineValue "Cc") =
          (lineValue "Cc" line).toList ++ rest.filterMap (lineValue "Cc") := by
        cases hv : lineValue "Cc" line <;> simp [List.filterMap_cons, hv]
      rw [h4, getLast?_option_append]
      cases hr : (rest.filterMap (lineValue "Cc")).getLast? with
      | some v => rw [hr] at h2; simpa using h2
      | none =>
        rw [hr] at h2
        simp only at h2 ⊢
        cases hv : lineValue "Cc" line with
        | some v0 =>
          rw [hv] at h3
          simp only at h3
          have := parseEmailUsersLoop_ok _ _ _ h3
          simpa [h2, addressList] using this
        | none =>
          rw [hv] at h3
          simp only at h3
          rw [h2, h3]

theorem lineValue_eq_some (name : String) (line v : Str) :
    lineValue name line = some v ↔ lineKeyValue line = some (name.toList, v) := by
  unfold lineValue
  cases lineKeyValue line with
  | none => simp
  | some kv =>
    obtain ⟨k, w⟩ := kv
    by_cases hk : k = name.toList
    · simp [hk]
    · simp [hk]

theorem mem_headerValues (header : MIMEHeader) (name : String) (v : Str) :
    v ∈ headerValues header name ↔
      ∃ line ∈ headerLines header, lineKeyValue line = some (name.toList, v) := by
  rw [headerValues_eq, List.mem_filterMap]
  simp only [lineValue_eq_some]

/-- C9: `parseMimeHeaderLines` returns an error exactly when the value of a
From header fails `parseEmailUser` or a comma-separated segment of the value
of a To or of a Cc header fails `parseEmailUser`. When it succeeds, `To` and
`Cc` hold one record per comma-separated segment of the value of the header
(of the entry the loop visits last, should several entries have that name),
in order, each equal to `parseEmailUser` of the segment, and are empty when
the header is absent. -/
theorem parseMimeHeaderLines_addresses (header : MIMEHeader) :
    ((∃ e, parseMimeHeaderLines header = .error e) ↔
      (∃ v ∈ headerValues header "From", ∃ e, parseEmailUser v = .error e) ∨
      (∃ v ∈ headerValues header "To",
        ∃ seg ∈ Split v ',', ∃ e, parseEmailUser seg = .error e) ∨
      (∃ v ∈ headerValues header "Cc",
        ∃ seg ∈ Split v ',', ∃ e, parseEmailUser seg = .error e)) ∧
    ∀ h, parseMimeHeaderLines header = .ok h →
      h.To.map Except.ok =
        (match (headerValues header "To").getLast? with
          | some v => addressList v
          | none => []) ∧
      h.Cc.map Except.ok =
        (match (headerValues header "Cc").getLast? with
          | some v => addressList v
          | none => []) := by
  constructor
  · unfold parseMimeHeaderLines
    rw [mimeHeaderLoop_error_iff]
    simp only [mimeHeaderStep_error_iff, mem_headerValues, parseEmailUsers,
      parseEmailUsersLoop_error]
    constructor
    · rintro ⟨line, hl, value, (⟨hk, he⟩ | ⟨hk | hk, he⟩)⟩
      · exact Or.inl ⟨value, ⟨line, hl, hk⟩, he⟩
      · exact Or.inr (Or.inl ⟨value, ⟨line, hl, hk⟩, he⟩)
      · exact Or.inr (Or.inr ⟨value, ⟨line, hl, hk⟩, he⟩)
    · rintro (⟨value, ⟨line, hl, hk⟩, he⟩ | ⟨value, ⟨line, hl, hk⟩, he⟩ |
        ⟨value, ⟨line, hl, hk⟩, he⟩)
      · exact ⟨line, hl, value, Or.inl ⟨hk, he⟩⟩
      · exact ⟨line, hl, value, Or.inr ⟨Or.inl hk, he⟩⟩
      · exact ⟨line, hl, value, Or.inr ⟨Or.inr hk, he⟩⟩
  · intro h hh
    unfold parseMimeHeaderLines at hh
    rw [headerValues_eq, headerValues_eq]
    exact ⟨mimeHeaderLoop_To _ _ _ hh, mimeHeaderLoop_Cc _ _ _ hh⟩

/-- C9 at a header map with `From: a@b` and `To: x@y, Z <z@w>`. -/
theorem parseMimeHeaderLines_addresses_witness :
    parseMimeHeaderLines
        [("From".toList, ["a@b".toList]), ("To".toList, ["x@y, Z <z@w>".toList])] =
      .ok { From := ⟨[], "a@b".toList⟩,
            To := [⟨[], "x@y".toList⟩, ⟨"Z".toList, "z@w".toList⟩] } ∧
    ([⟨[], "x@y".toList⟩, ⟨"Z".toList, "z@w".toList⟩] : List EmailUser).map Except.ok =
      (match (headerValues
          [("From".toList, ["a@b".toList]), ("To".toList, ["x@y, Z <z@w>".toList])]
          "To").getLast? with
        | some v => addressList v
        | none => []) :=
  ⟨by decide,
   ((parseMimeHeaderLines_addresses
      [("From".toList, ["a@b".toList]), ("To".toList, ["x@y, Z <z@w>".toList])]).2
      { From := ⟨[], "a@b".toList⟩,
        To := [⟨[], "x@y".toList⟩, ⟨"Z".toList, "z@w".toList⟩] } (by decide)).1⟩

/-! ## Fatal cases of `parseBody` -/

theorem mimeHeaderStep_ContentType (h h1 : MimeHeaders) (line : Str)
    (hs : mimeHeaderStep h line = .ok h1) (hv : lineValue "Content-Type" line = none) :
    h1.ContentType = h.ContentType := by
  by_cases hc : ':' ∈ TrimSpace line
  · simp only [mimeHeaderStep, lineValue, lineKeyValue, SplitN2, hc, if_true,
      Option.some_bind] at hs hv
    revert hs hv
    generalize CanonicalMIMEHeaderKey _ = ck
    generalize TrimSpace (List.dropWhile _ _).tail = value
    generalize TrimSpace (List.takeWhile _ _) = key
    intro hs hv
    split_ifs at hs with h1 h2 h3 h4 h5 h6 h7 h8
    · injection hs with hs; subst hs; rfl
    · injection hs with hs; subst hs; rfl
    · injection hs with hs; subst hs; rfl
    · cases hp : parseEmailUser value with
      | error e => rw [hp] at hs; cases hs
      | ok u => rw [hp] at hs; injection hs with hs; subst hs; rfl
    · cases hp : parseEmailUsers (Split value ',') with
      | error e => rw [hp] at hs; cases hs
      | ok u => rw [hp] at hs; injection hs with hs; subst hs; rfl
    · cases hp : parseEmailUsers (Split value ',') with
      | error e => rw [hp] at hs; cases hs
      | ok u => rw [hp] at hs; injection hs with hs; subst hs; rfl
    · injection hs with hs; subst hs; rfl
    · have h8' : ck = ['C', 'o', 'n', 't', 'e', 'n', 't', '-', 'T', 'y', 'p', 'e'] := h8
      simp [h8'] at hv
    · injection hs with hs; subst hs; rfl
  · rw [(lineKeyValue_none line hc).2] at hs
    injection hs with hs
    subst hs
    rfl

theorem mimeHeaderLoop_ContentType (lines : List Str) (h0 h : MimeHeaders)
    (hl : mimeHeaderLoop lines h0 = .ok h)
    (hv : lines.filterMap (lineValue "Content-Type") = []) :
    h.ContentType = h0.ContentType := by
  induction lines generalizing h0 with
  | nil =>
    simp only [mimeHeaderLoop] at hl
    injection hl with hl
    subst hl
    rfl
  | cons line rest ih =>
    simp only [mimeHeaderLoop] at hl
    cases hs : mimeHeaderStep h0 line with
    | error e => rw [hs] at hl; cases hl
    | ok h1 =>
      rw [hs] at hl
      cases hlv : lineValue "Content-Type" line with
      | some v => simp [List.filterMap_cons, hlv] at hv
      | none =>
        simp only [List.filterMap_cons, hlv] at hv
        rw [ih h1 hl hv, mimeHeaderStep_ContentType h0 h1 line hs hlv]

/-- C6: `parseBody` returns an error, and so no `BodyText`, `BodyHTML` or
attachment, whenever (a) the top-level media type is multipart and the
`boundary` parameter is absent or empty, or (b) the media type is not
multipart and the type is neither `text/plain` nor `text/html`; this
includes the headers `parseMimeHeaderLines` gives for a message with no
Content-Type header at all. -/
theorem parseBody_fatal (lib : Stdlib) (h : MimeHeaders) (b : Bytes) :
    (HasPrefix h.ContentType.MediaType "multipart".toList = true →
      h.ContentType.Params.get "boundary".toList = [] →
      ∃ e, parseBody lib h b = .error e) ∧
    (HasPrefix h.ContentType.MediaType "multipart".toList = false →
      ¬ (h.ContentType.MediaType = "text".toList ∧
        (h.ContentType.SubType = "plain".toList ∨ h.ContentType.SubType = "html".toList)) →
      ∃ e, parseBody lib h b = .error e) ∧
    (∀ header, parseMimeHeaderLines header = .ok h →
      headerValues header "Content-Type" = [] → ∃ e, parseBody lib h b = .error e) := by
  have hb : ∀ (hp : HasPrefix h.ContentType.MediaType "multipart".toList = false)
      (hn : ¬ (h.ContentType.MediaType = "text".toList ∧
        (h.ContentType.SubType = "plain".toList ∨ h.ContentType.SubType = "html".toList))),
      ∃ e, parseBody lib h b = .error e := by
    intro hp hn
    have h1 : ¬ (h.ContentType.MediaType = "text".toList ∧
        h.ContentType.SubType = "plain".toList) := fun hh => hn ⟨hh.1, Or.inl hh.2⟩
    have h2 : ¬ (h.ContentType.MediaType = "text".toList ∧
        h.ContentType.SubType = "html".toList) := fun hh => hn ⟨hh.1, Or.inr hh.2⟩
    have hnp : ¬ (HasPrefix h.ContentType.MediaType "multipart".toList = true) := by
      rw [hp]; decide
    unfold parseBody
    rw [if_neg hnp, if_neg h1, if_neg h2]
    exact ⟨_, rfl⟩
  refine ⟨?_, hb, ?_⟩
  · intro hp hbd
    unfold parseBody
    rw [if_pos hp]
    simp only [hbd, if_true]
    exact ⟨_, rfl⟩
  · intro header hh hv
    unfold parseMimeHeaderLines at hh
    rw [headerValues_eq] at hv
    have hz : h.ContentType = {} := mimeHeaderLoop_ContentType _ _ _ hh hv
    apply hb
    · rw [hz]; decide
    · rw [hz]; decide

/-- C6 at a `multipart/mixed` message without boundary, at an
`application/pdf` message, and at a message whose only header is `From`. -/
theorem parseBody_fatal_witness :
    (∃ e, parseBody ⟨fun _ _ => .eof, fun d => .ok d⟩
      { ContentType := { MediaType := "multipart".toList, SubType := "mixed".toList } }
      [1, 2, 3] = .error e) ∧
    (∃ e, parseBody ⟨fun _ _ => .eof, fun d => .ok d⟩
      { ContentType := { MediaType := "application".toList, SubType := "pdf".toList } }
      [1, 2, 3] = .error e) ∧
    (∃ e, parseBody ⟨fun _ _ => .eof, fun d => .ok d⟩
      { From := ⟨[], "a@b".toList⟩ } [1, 2, 3] = .error e) :=
  ⟨(parseBody_fatal _ _ _).1 (by decide) (by decide),
   (parseBody_fatal _ _ _).2.1 (by decide) (by decide),
   (parseBody_fatal _ _ _).2.2 [("From".toList, ["a@b".toList])] (by decide) (by decide)⟩

/-! ## Base64 round trip -/

theorem b64val_b64char (v : Nat) (h : v < 64) : b64val (b64char v) = some v := by
  unfold b64char b64val
  split_ifs <;> (try simp) <;> omega

theorem b64Decode_quantum (v0 v1 v2 v3 : Nat) (rest : Bytes) (h0 : v0 < 64) (h1 : v1 < 64)
    (h2 : v2 < 64) (h3 : v3 < 64) :
    b64Decode (b64char v0 :: b64char v1 :: b64char v2 :: b64char v3 :: rest) [] =
      (b64Decode rest []).map (fun out =>
        (v0 * 262144 + v1 * 4096 + v2 * 64 + v3) / 65536 % 256 ::
        (v0 * 262144 + v1 * 4096 + v2 * 64 + v3) / 256 % 256 ::
        (v0 * 262144 + v1 * 4096 + v2 * 64 + v3) % 256 :: out) := by
  simp [b64Decode, b64val_b64char, h0, h1, h2, h3]

theorem b64Decode_b64Encode (x : Bytes) (hx : ∀ b ∈ x, b < 256) :
    b64Decode (b64Encode x) [] = .ok x := by
  induction x using b64Encode.induct with
  | case1 a b c rest ih =>
    have ha : a < 256 := hx a (by simp)
    have hb : b < 256 := hx b (by simp)
    have hc : c < 256 := hx c (by simp)
    have hr : ∀ y ∈ rest, y < 256 := fun y hy => hx y (by simp [hy])
    rw [b64Encode, b64Decode_quantum _ _ _ _ _ (by omega) (by omega) (by omega) (by omega),
      ih hr]
    simp only [Except.map]
    congr 2
    · omega
    · congr 1
      · omega
      · congr 1
        omega
  | case2 a b =>
    have ha : a < 256 := hx a (by simp)
    have hb : b < 256 := hx b (by simp)
    have e0 := b64val_b64char (a / 4) (by omega)
    have e1 := b64val_b64char (a % 4 * 16 + b / 16) (by omega)
    have e2 := b64val_b64char (b % 16 * 4) (by omega)
    have e61 : b64val 61 = none := by decide
    simp [b64Encode, b64Decode, e0, e1, e2, e61, isNL]
    constructor <;> omega
  | case3 a =>
    have ha : a < 256 := hx a (by simp)
    have e0 := b64val_b64char (a / 4) (by omega)
    have e1 := b64val_b64char (a % 4 * 16) (by omega)
    have e61 : b64val 61 = none := by decide
    simp [b64Encode, b64Decode, e0, e1, e61, isNL]
    omega
  | case4 => simp [b64Encode, b64Decode]

theorem toLowerChar_of_ascii (c : Char) (h : c.toLower.toNat < 128) :
    toLowerChar c = c.toLower := by
  unfold toLowerChar
  by_cases h1 : c.toNat = 0x130
  · exfalso
    have : c.toLower = c := by
      unfold Char.toLower
      simp only [ge_iff_le]
      rw [if_neg (by omega)]
    rw [this] at h
    omega
  · by_cases h2 : c.toNat = 0x212A
    · exfalso
      have : c.toLower = c := by
        unfold Char.toLower
        simp only [ge_iff_le]
        rw [if_neg (by omega)]
      rw [this] at h
      omega
    · simp [h1, h2]

theorem ToLower_caseVariant_base64 (e : Str) (h : caseVariant e "base64".toList) :
    ToLower e = "base64".toList := by
  unfold caseVariant at h
  have h2 : "base64".toList.map Char.toLower = "base64".toList := by decide
  rw [h2] at h
  unfold ToLower
  rw [← h]
  apply List.map_congr_left
  intro c hc
  apply toLowerChar_of_ascii
  have hm : c.toLower ∈ e.map Char.toLower := List.mem_map_of_mem _ hc
  rw [h] at hm
  have : ∀ d ∈ "base64".toList, d.toNat < 128 := by decide
  exact this _ hm

/-- C11: for every byte sequence `x` and every letter-case variant `e` of the
name `base64`, `decodeData` of the standard base64 encoding of `x` under the
encoding name `e` returns exactly `x` and no error. -/
theorem decodeData_base64_roundtrip (lib : Stdlib) (x : Bytes) (e : Str)
    (hx : ∀ b ∈ x, b < 256) (he : caseVariant e "base64".toList) :
    decodeData lib (b64Encode x) e = .ok x := by
  unfold decodeData
  simp only [ToLower_caseVariant_base64 e he, if_true]
  exact b64Decode_b64Encode x hx

/-- C11 at the bytes of `hello` and the encoding name `BaSe64`. -/
theorem decodeData_base64_roundtrip_witness :
    b64Encode (asciiBytes "hello".toList) = asciiBytes "aGVsbG8=".toList ∧
    decodeData ⟨fun _ _ => .eof, fun d => .ok d⟩ (b64Encode (asciiBytes "hello".toList))
      "BaSe64".toList = .ok (asciiBytes "hello".toList) :=
  ⟨by decide, decodeData_base64_roundtrip ⟨fun _ _ => .eof, fun d => .ok d⟩
    (asciiBytes "hello".toList) "BaSe64".toList (by decide) (by unfold caseVariant; decide)⟩

/-! ## Identifiers -/

theorem length_sixteen (r : Bytes) (h : r.length = 16) :
    ∃ r0 r1 r2 r3 r4 r5 r6 r7 r8 r9 r10 r11 r12 r13 r14 r15,
      r = [r0, r1, r2, r3, r4, r5, r6, r7, r8, r9, r10, r11, r12, r13, r14, r15] := by
  rcases r with _ | ⟨r0, _ | ⟨r1, _ | ⟨r2, _ | ⟨r3, _ | ⟨r4, _ | ⟨r5, _ | ⟨r6, _ | ⟨r7,
    _ | ⟨r8, _ | ⟨r9, _ | ⟨r10, _ | ⟨r11, _ | ⟨r12, _ | ⟨r13, _ | ⟨r14, _ | ⟨r15, _ | ⟨r16, r⟩⟩⟩⟩⟩⟩⟩⟩⟩⟩⟩⟩⟩⟩⟩⟩⟩ <;>
    simp at h
  exact ⟨r0, r1, r2, r3, r4, r5, r6, r7, r8, r9, r10, r11, r12, r13, r14, r15, rfl⟩

theorem beBytes_six (x : Nat) :
    beBytes 6 x = [x / 2 ^ 40 % 256, x / 2 ^ 32 % 256, x / 2 ^ 24 % 256, x / 2 ^ 16 % 256,
      x / 2 ^ 8 % 256, x % 256] := by
  simp only [beBytes, List.nil_append, List.cons_append, List.cons.injEq, and_true]
  refine ⟨?_, ?_, ?_, ?_, ?_⟩ <;> omega

/-- The bytes of the value `NewUUIDv7` builds from a time stamp that fits in
48 bits. -/
theorem NewUUIDv7_bytes (t : Int) (r0 r1 r2 r3 r4 r5 r6 r7 r8 r9 r10 r11 r12 r13 r14 r15 : Nat)
    (h0 : 0 ≤ t) (h1 : t < 2 ^ 48) :
    NewUUIDv7 (.ok [r0, r1, r2, r3, r4, r5, r6, r7, r8, r9, r10, r11, r12, r13, r14, r15]) t =
      .ok (.ok ⟨beBytes 6 t.toNat ++
        [(r6 &&& 0x0F) ||| 0x70, r7, (r8 &&& 0x3F) ||| 0x80, r9, r10, r11, r12, r13, r14, r15]⟩) := by
  have hn : t.natAbs = t.toNat := by omega
  have hlt : t.toNat < 256 ^ 6 := by
    have : (256 : Nat) ^ 6 = 2 ^ 48 := by norm_num
    omega
  simp only [NewUUIDv7, FillBytes, hn, hlt, if_true]
  rw [beBytes_six]
  rfl

/-- C16, as stated, fails: for the time stamp `2^48` the claim gives a value
whose bytes 0 to 5 are the truncation, all zero, but `FillBytes` panics on a
value that does not fit in six bytes and no value is built. -/
theorem NewUUIDv7_panics_beyond_48_bits :
    ¬ ∃ u, NewUUIDv7 (.ok (List.replicate 16 0)) 281474976710656 = .ok (.ok u) := by
  rintro ⟨u, h⟩
  have hp : NewUUIDv7 (.ok (List.replicate 16 0)) 281474976710656 =
      .panic "math/big: buffer too small to fit value".toList := by decide
  rw [hp] at h
  cases h

/-- C16 (amended): for every millisecond time stamp `t` with `0 ≤ t < 2^48`
and every 16 bytes `r` drawn from the random source, `NewUUIDv7` builds a
value of 16 bytes whose bytes 0 to 5 are the big-endian encoding of `t`,
whose byte 6 is `0x70 | (r[6] & 0x0F)`, whose byte 8 is
`0x80 | (r[8] & 0x3F)`, and whose other bytes (7, 9 to 15) are those of `r`. -/
theorem NewUUIDv7_layout (t : Int) (r : Bytes) (h0 : 0 ≤ t) (h1 : t < 2 ^ 48)
    (hr : r.length = 16) :
    ∃ u, NewUUIDv7 (.ok r) t = .ok (.ok u) ∧ u.bytes.length = 16 ∧
      (∀ i, i < 6 → u.bytes.getD i 0 = t.toNat / 2 ^ (8 * (5 - i)) % 256) ∧
      u.bytes.getD 6 0 = 0x70 ||| (r.getD 6 0 &&& 0x0F) ∧
      u.bytes.getD 8 0 = 0x80 ||| (r.getD 8 0 &&& 0x3F) ∧
      ∀ i, (i = 7 ∨ (9 ≤ i ∧ i ≤ 15)) → u.bytes.getD i 0 = r.getD i 0 := by
  obtain ⟨r0, r1, r2, r3, r4, r5, r6, r7, r8, r9, r10, r11, r12, r13, r14, r15, rfl⟩ :=
    length_sixteen r hr
  refine ⟨_, NewUUIDv7_bytes t r0 r1 r2 r3 r4 r5 r6 r7 r8 r9 r10 r11 r12 r13 r14 r15 h0 h1, ?_⟩
  rw [beBytes_six]
  refine ⟨rfl, ?_, ?_, ?_, ?_⟩
  · intro i hi
    interval_cases i <;> simp
  · simp [Nat.lor_comm]
  · simp [Nat.lor_comm]
  · intro i hi
    rcases hi with hi | ⟨h9, h15⟩
    · subst hi; simp
    · interval_cases i <;> simp

/-- The amended C16 at the time stamp 1730000000000 and the random bytes
0, 1, ..., 15. -/
theorem NewUUIDv7_layout_witness :
    ∃ u, NewUUIDv7 (.ok (List.range 16)) 1730000000000 = .ok (.ok u) ∧ u.bytes.length = 16 ∧
      (∀ i, i < 6 → u.bytes.getD i 0 = (1730000000000 : Int).toNat / 2 ^ (8 * (5 - i)) % 256) ∧
      u.bytes.getD 6 0 = 0x70 ||| ((List.range 16).getD 6 0 &&& 0x0F) ∧
      u.bytes.getD 8 0 = 0x80 ||| ((List.range 16).getD 8 0 &&& 0x3F) ∧
      ∀ i, (i = 7 ∨ (9 ≤ i ∧ i ≤ 15)) → u.bytes.getD i 0 = (List.range 16).getD i 0 :=
  NewUUIDv7_layout 1730000000000 (List.range 16) (by decide) (by decide) (by decide)

theorem lexLt_append_left {α : Type} [DecidableEq α] (lt : α → α → Bool)
    (hirr : ∀ a, lt a a = false) (p x y : List α) :
    lexLt lt (p ++ x) (p ++ y) = lexLt lt x y := by
  induction p with
  | nil => rfl
  | cons a p ih => simp [lexLt, hirr, ih]

theorem lexLt_append_of_lt {α : Type} [DecidableEq α] (lt : α → α → Bool) (x y s t : List α)
    (hl : x.length = y.length) (h : lexLt lt x y = true) :
    lexLt lt (x ++ s) (y ++ t) = true := by
  induction x generalizing y with
  | nil =>
    cases y with
    | nil => simp [lexLt] at h
    | cons b y => simp at hl
  | cons a x ih =>
    cases y with
    | nil => simp at hl
    | cons b y =>
      simp only [lexLt, Bool.or_eq_true, Bool.and_eq_true, decide_eq_true_eq,
        List.cons_append] at h ⊢
      rcases h with h | ⟨h1, h2⟩
      · exact Or.inl h
      · exact Or.inr ⟨h1, ih y (by simpa using hl) h2⟩

theorem lexLt_split {α : Type} [DecidableEq α] (lt : α → α → Bool) (a b c d : List α)
    (hl : a.length = c.length) (h : lexLt lt (a ++ b) (c ++ d) = true) :
    lexLt lt a c = true ∨ (a = c ∧ lexLt lt b d = true) := by
  induction a generalizing c with
  | nil =>
    cases c with
    | nil => exact Or.inr ⟨rfl, h⟩
    | cons z c => simp at hl
  | cons x a ih =>
    cases c with
    | nil => simp at hl
    | cons z c =>
      simp only [lexLt, Bool.or_eq_true, Bool.and_eq_true, decide_eq_true_eq,
        List.cons_append] at h ⊢
      rcases h with h | ⟨h1, h2⟩
      · exact Or.inl (Or.inl h)
      · rcases ih c (by simpa using hl) h2 with h3 | ⟨h3, h4⟩
        · exact Or.inl (Or.inr ⟨h1, h3⟩)
        · exact Or.inr ⟨by rw [h1, h3], h4⟩

theorem beBytes_length (n x : Nat) : (beBytes n x).length = n := by
  induction n generalizing x with
  | zero => rfl
  | succ n ih => simp [beBytes, ih]

theorem beBytes_lt (n x : Nat) : ∀ b ∈ beBytes n x, b < 256 := by
  induction n generalizing x with
  | zero => simp [beBytes]
  | succ n ih =>
    intro b hb
    simp only [beBytes, List.mem_append, List.mem_singleton] at hb
    rcases hb with hb | hb
    · exact ih _ b hb
    · omega

/-- The big-endian bytes of a smaller number come first. -/
theorem beBytes_lexLt (n : Nat) (x y : Nat) (hxy : x < y) (hy : y < 256 ^ n) :
    lexLt (fun a b => decide (a < b)) (beBytes n x) (beBytes n y) = true := by
  induction n generalizing x y with
  | zero => simp at hy; omega
  | succ n ih =>
    simp only [beBytes]
    by_cases hq : x / 256 < y / 256
    · apply lexLt_append_of_lt
      · rw [beBytes_length, beBytes_length]
      · apply ih _ _ hq
        rw [pow_succ] at hy
        exact Nat.div_lt_of_lt_mul (by omega)
    · have he : x / 256 = y / 256 := by omega
      rw [he, lexLt_append_left _ (by simp)]
      simp [lexLt]
      omega

theorem hexDigit_toNat (n : Nat) (h : n < 16) :
    (hexDigit n).toNat = if n < 10 then 48 + n else 87 + n := by
  interval_cases n <;> rfl

theorem hexBytes_length (xs : Bytes) : (hexBytes xs).length = 2 * xs.length := by
  induction xs with
  | nil => rfl
  | cons b t ih => simp [hexBytes, ih]; omega

/-- The hexadecimal text of a byte sequence that comes first comes first. -/
theorem hexBytes_strLt (xs ys : Bytes) (hl : xs.length = ys.length)
    (hx : ∀ b ∈ xs, b < 256) (hy : ∀ b ∈ ys, b < 256)
    (h : lexLt (fun a b => decide (a < b)) xs ys = true) :
    strLt (hexBytes xs) (hexBytes ys) = true := by
  induction xs generalizing ys with
  | nil =>
    cases ys with
    | nil => simp [lexLt] at h
    | cons b y => simp at hl
  | cons a x ih =>
    cases ys with
    | nil => simp at hl
    | cons b y =>
      have ha : a < 256 := hx a (by simp)
      have hb : b < 256 := hy b (by simp)
      have e1 := hexDigit_toNat (a / 16) (by omega)
      have e2 := hexDigit_toNat (a % 16) (by omega)
      have e3 := hexDigit_toNat (b / 16) (by omega)
      have e4 := hexDigit_toNat (b % 16) (by omega)
      simp only [lexLt, Bool.or_eq_true, Bool.and_eq_true, decide_eq_true_eq] at h
      simp only [strLt, hexBytes, lexLt, Bool.or_eq_true, Bool.and_eq_true, decide_eq_true_eq]
      rcases h with h | ⟨h1, h2⟩
      · by_cases hq : a / 16 < b / 16
        · left
          rw [e1, e3]; split_ifs <;> omega
        · right
          have hq2 : a / 16 = b / 16 := by omega
          refine ⟨by rw [hq2], Or.inl ?_⟩
          rw [e2, e4]; split_ifs <;> omega
      · subst h1
        refine Or.inr ⟨rfl, Or.inr ⟨rfl, ?_⟩⟩
        exact ih y (by simpa using hl) (fun c hc => hx c (by simp [hc]))
          (fun c hc => hy c (by simp [hc])) h2

theorem length_six (r : Bytes) (h : r.length = 6) :
    ∃ r0 r1 r2 r3 r4 r5, r = [r0, r1, r2, r3, r4, r5] := by
  rcases r with _ | ⟨r0, _ | ⟨r1, _ | ⟨r2, _ | ⟨r3, _ | ⟨r4, _ | ⟨r5, _ | ⟨r6, r⟩⟩⟩⟩⟩⟩⟩ <;>
    simp at h
  exact ⟨r0, r1, r2, r3, r4, r5, rfl⟩

/-- The text of a 16-byte value: the first six bytes, then the rest. -/
theorem String_of_bytes (a0 a1 a2 a3 a4 a5 b6 b7 b8 b9 b10 b11 b12 b13 b14 b15 : Nat) :
    UUIDv7.String ⟨[a0, a1, a2, a3, a4, a5] ++
        [b6, b7, b8, b9, b10, b11, b12, b13, b14, b15]⟩ =
      hexBytes [a0, a1, a2, a3] ++ (['-'] ++ (hexBytes [a4, a5] ++
        (['-'] ++ hexBytes [b6, b7] ++ ['-'] ++ hexBytes [b8, b9] ++ ['-'] ++
          hexBytes [b10, b11, b12, b13, b14, b15]))) := by
  simp [UUIDv7.String]

theorem strLt_of_first_six (x y : Bytes) (hx : x.length = 6) (hy : y.length = 6)
    (hxb : ∀ b ∈ x, b < 256) (hyb : ∀ b ∈ y, b < 256)
    (h : lexLt (fun a b => decide (a < b)) x y = true) (u v : Str) :
    strLt (hexBytes (x.take 4) ++ (['-'] ++ (hexBytes (x.drop 4) ++ u)))
      (hexBytes (y.take 4) ++ (['-'] ++ (hexBytes (y.drop 4) ++ v))) = true := by
  have hs := lexLt_split _ (x.take 4) (x.drop 4) (y.take 4) (y.drop 4)
    (by simp [hx, hy]) (by simpa using h)
  rcases hs with hs | ⟨he, hs⟩
  · apply lexLt_append_of_lt
    · simp [hexBytes_length, hx, hy]
    · exact hexBytes_strLt _ _ (by simp [hx, hy])
        (fun b hb => hxb b (List.mem_of_mem_take hb))
        (fun b hb => hyb b (List.mem_of_mem_take hb)) hs
  · rw [he]
    unfold strLt
    rw [lexLt_append_left _ (by simp), lexLt_append_left _ (by simp)]
    apply lexLt_append_of_lt
    · simp [hexBytes_length, hx, hy]
    · exact hexBytes_strLt _ _ (by simp [hx, hy])
        (fun b hb => hxb b (List.mem_of_mem_drop hb))
        (fun b hb => hyb b (List.mem_of_mem_drop hb)) hs

/-- C17: for identifiers built from time stamps `t1 < t2`, both in
`[0, 2^48)`, and arbitrary random bytes, the 36-character text of the first
is strictly less than the text of the second in lexicographic order. -/
theorem UUIDv7_String_lt (t1 t2 : Int) (r1 r2 : Bytes) (h0 : 0 ≤ t1) (h12 : t1 < t2)
    (h2 : t2 < 2 ^ 48) (hr1 : r1.length = 16) (hr2 : r2.length = 16) :
    ∃ u1 u2, NewUUIDv7 (.ok r1) t1 = .ok (.ok u1) ∧ NewUUIDv7 (.ok r2) t2 = .ok (.ok u2) ∧
      u1.String.length = 36 ∧ u2.String.length = 36 ∧
      strLt u1.String u2.String = true := by
  obtain ⟨p0, p1, p2, p3, p4, p5, p6, p7, p8, p9, p10, p11, p12, p13, p14, p15, rfl⟩ :=
    length_sixteen r1 hr1
  obtain ⟨q0, q1, q2, q3, q4, q5, q6, q7, q8, q9, q10, q11, q12, q13, q14, q15, rfl⟩ :=
    length_sixteen r2 hr2
  refine ⟨_, _, NewUUIDv7_bytes t1 _ _ _ _ _ _ _ _ _ _ _ _ _ _ _ _ h0 (by omega),
    NewUUIDv7_bytes t2 _ _ _ _ _ _ _ _ _ _ _ _ _ _ _ _ (by omega) h2, ?_⟩
  have hlt : lexLt (fun a b => decide (a < b)) (beBytes 6 t1.toNat) (beBytes 6 t2.toNat) =
      true := by
    apply beBytes_lexLt
    · omega
    · have : (256 : Nat) ^ 6 = 2 ^ 48 := by norm_num
      omega
  have hb1 := beBytes_lt 6 t1.toNat
  have hb2 := beBytes_lt 6 t2.toNat
  obtain ⟨a0, a1, a2, a3, a4, a5, e1⟩ := length_six _ (beBytes_length 6 t1.toNat)
  obtain ⟨c0, c1, c2, c3, c4, c5, e2⟩ := length_six _ (beBytes_length 6 t2.toNat)
  rw [e1] at hlt hb1 ⊢
  rw [e2] at hlt hb2 ⊢
  rw [String_of_bytes, String_of_bytes]
  refine ⟨by simp [hexBytes], by simp [hexBytes], ?_⟩
  exact strLt_of_first_six [a0, a1, a2, a3, a4, a5] [c0, c1, c2, c3, c4, c5] rfl rfl
    hb1 hb2 hlt _ _

/-- C17 at the time stamps 1730000000000 and 1730000000001. -/
theorem UUIDv7_String_lt_witness :
    ∃ u1 u2, NewUUIDv7 (.ok (List.replicate 16 255)) 1730000000000 = .ok (.ok u1) ∧
      NewUUIDv7 (.ok (List.replicate 16 0)) 1730000000001 = .ok (.ok u2) ∧
      u1.String.length = 36 ∧ u2.String.length = 36 ∧
      strLt u1.String u2.String = true :=
  UUIDv7_String_lt 1730000000000 1730000000001 (List.replicate 16 255) (List.replicate 16 0)
    (by decide) (by decide) (by decide) (by decide) (by decide)

/-! ## SPF resolution -/

theorem mem_setInsert (s : List Str) (x y : Str) : y ∈ setInsert s x ↔ y ∈ s ∨ y = x := by
  unfold setInsert
  split_ifs with h
  · constructor
    · intro hy; exact Or.inl hy
    · rintro (hy | rfl)
      · exact hy
      · exact h
  · simp

theorem mem_foldl_setInsert (xs s : List Str) (y : Str) :
    y ∈ xs.foldl setInsert s ↔ y ∈ s ∨ y ∈ xs := by
  induction xs generalizing s with
  | nil => simp
  | cons a t ih =>
    rw [List.foldl_cons, ih, mem_setInsert, List.mem_cons]
    tauto

theorem setInsert_of_not_mem (s : List Str) (x : Str) (h : x ∉ s) : setInsert s x = s ++ [x] := by
  unfold setInsert
  rw [if_neg h]

theorem setInsert_nodup (s : List Str) (x : Str) (h : s.Nodup) : (setInsert s x).Nodup := by
  unfold setInsert
  split_ifs with hx
  · exact h
  · rw [List.nodup_append]
    refine ⟨h, List.nodup_singleton x, ?_⟩
    intro a ha hb
    rw [List.mem_singleton] at hb
    exact hx (hb ▸ ha)

theorem unvisited_mono (U V W : List Str) (h : ∀ v ∈ V, v ∈ W) :
    unvisited U W ≤ unvisited U V := by
  unfold unvisited
  induction U with
  | nil => simp
  | cons a t ih =>
    by_cases hW : a ∈ W
    · by_cases hV : a ∈ V
      · simpa [List.filter_cons, hW, hV] using ih
      · simp only [List.filter_cons, hW, hV, not_true_eq_false, decide_False, not_false_eq_true,
          decide_True, if_true, List.length_cons]
        simp only [Bool.false_eq_true, if_false]
        omega
    · have hV : a ∉ V := fun hv => hW (h a hv)
      simpa [List.filter_cons, hW, hV] using ih

theorem unvisited_lt (U V W : List Str) (d : Str) (h : ∀ v ∈ V, v ∈ W) (hd : d ∈ U)
    (hV : d ∉ V) (hW : d ∈ W) : unvisited U W < unvisited U V := by
  induction U with
  | nil => simp at hd
  | cons a t ih =>
    have hm := unvisited_mono t V W h
    unfold unvisited at hm ih ⊢
    by_cases had : a = d
    · subst had
      simp only [List.filter_cons, hW, hV, not_true_eq_false, decide_False, not_false_eq_true,
        decide_True, if_true, List.length_cons]
      simp only [Bool.false_eq_true, if_false]
      omega
    · have hd1 : d ∈ t := by
        rcases List.mem_cons.1 hd with h1 | h1
        · exact absurd h1.symm had
        · exact h1
      have := ih hd1
      by_cases haW : a ∈ W
      · by_cases haV : a ∈ V
        · simpa [List.filter_cons, haW, haV] using this
        · simp only [List.filter_cons, haW, haV, not_true_eq_false, decide_False,
            not_false_eq_true, decide_True, if_true, List.length_cons]
          simp only [Bool.false_eq_true, if_false]
          omega
      · have haV : a ∉ V := fun hv => haW (h a hv)
        simpa [List.filter_cons, haW, haV] using this

theorem unvisited_le_length (U V : List Str) : unvisited U V ≤ U.length := by
  unfold unvisited
  exact List.length_filter_le _ _

theorem Reach_head (net : Net) (d w v : Str) (hw : w ∈ spfEdges net d) (h : Reach net w v) :
    Reach net d v := by
  induction h with
  | root => exact Reach.step d w Reach.root hw
  | step a b _ hab ih => exact Reach.step a b ih hab

theorem Grow_refl (net : Net) (st : Resolution) : Grow net [] st st where
  mono := fun _ h => h
  targets := fun _ h => by simp at h
  sound := fun _ h => Or.inl h
  closed := fun _ h => h
  ip4 := fun x => by
    constructor
    · intro h; exact Or.inl h
    · rintro (h | ⟨v, h1, h2, _⟩)
      · exact h
      · exact absurd h1 h2
  ip6 := fun x => by
    constructor
    · intro h; exact Or.inl h
    · rintro (h | ⟨v, h1, h2, _⟩)
      · exact h
      · exact absurd h1 h2
  inv := fun h => h

theorem Grow_trans (net : Net) (ds1 ds2 : List Str) (st st1 st2 : Resolution)
    (g1 : Grow net ds1 st st1) (g2 : Grow net ds2 st1 st2) : Grow net (ds1 ++ ds2) st st2 where
  mono := fun v h => g2.mono v (g1.mono v h)
  targets := fun d h => by
    rcases List.mem_append.1 h with h | h
    · exact g2.mono d (g1.targets d h)
    · exact g2.targets d h
  sound := fun v h => by
    rcases g2.sound v h with h1 | ⟨d, hd, hr⟩
    · rcases g1.sound v h1 with h0 | ⟨d, hd, hr⟩
      · exact Or.inl h0
      · exact Or.inr ⟨d, List.mem_append.2 (Or.inl hd), hr⟩
    · exact Or.inr ⟨d, List.mem_append.2 (Or.inr hd), hr⟩
  closed := fun P h => g2.closed P (g1.closed P h)
  ip4 := fun x => by
    rw [g2.ip4, g1.ip4]
    constructor
    · rintro ((h | ⟨v, h1, h2, h3⟩) | ⟨v, h1, h2, h3⟩)
      · exact Or.inl h
      · exact Or.inr ⟨v, g2.mono v h1, h2, h3⟩
      · exact Or.inr ⟨v, h1, fun hv => h2 (g1.mono v hv), h3⟩
    · rintro (h | ⟨v, h1, h2, h3⟩)
      · exact Or.inl (Or.inl h)
      · by_cases hv : v ∈ st1.visited
        · exact Or.inl (Or.inr ⟨v, hv, h2, h3⟩)
        · exact Or.inr ⟨v, h1, hv, h3⟩
  ip6 := fun x => by
    rw [g2.ip6, g1.ip6]
    constructor
    · rintro ((h | ⟨v, h1, h2, h3⟩) | ⟨v, h1, h2, h3⟩)
      · exact Or.inl h
      · exact Or.inr ⟨v, g2.mono v h1, h2, h3⟩
      · exact Or.inr ⟨v, h1, fun hv => h2 (g1.mono v hv), h3⟩
    · rintro (h | ⟨v, h1, h2, h3⟩)
      · exact Or.inl (Or.inl h)
      · by_cases hv : v ∈ st1.visited
        · exact Or.inl (Or.inr ⟨v, hv, h2, h3⟩)
        · exact Or.inr ⟨v, h1, hv, h3⟩
  inv := fun h => g2.inv (g1.inv h)

theorem fetchEach_grow (net : Net) (U : List Str) (n : Nat)
    (ih : ∀ d st, d ∈ U → unvisited U st.visited < n →
      ∃ e st1, fetchSPFNetworks net n d st = some (e, st1) ∧ Grow net [d] st st1) :
    ∀ ds st, (∀ d ∈ ds, d ∈ U) → unvisited U st.visited < n →
      ∃ st1, fetchEach (fetchSPFNetworks net n) ds st = some st1 ∧ Grow net ds st st1 := by
  intro ds
  induction ds with
  | nil => intro st _ _; exact ⟨st, rfl, Grow_refl net st⟩
  | cons d rest ihd =>
    intro st hds hn
    obtain ⟨e, st1, h1, g1⟩ := ih d st (hds d (List.mem_cons_self _ _)) hn
    have hn1 : unvisited U st1.visited < n :=
      lt_of_le_of_lt (unvisited_mono U _ _ g1.mono) hn
    obtain ⟨st2, h2, g2⟩ := ihd st1 (fun x hx => hds x (List.mem_cons_of_mem _ hx)) hn1
    refine ⟨st2, ?_, Grow_trans net [d] rest st st1 st2 g1 g2⟩
    simp only [fetchEach, h1, h2]

theorem recordsLoop_grow (net : Net) (U : List Str) (n : Nat)
    (ih : ∀ d st, d ∈ U → unvisited U st.visited < n →
      ∃ e st1, fetchSPFNetworks net n d st = some (e, st1) ∧ Grow net [d] st st1) :
    ∀ recs st all4 all6,
      (∀ d ∈ (recs.filter (fun record => HasPrefix record "v=spf1".toList)).flatMap
        (fun record => (parseSPFRecord record).includes ++ (parseSPFRecord record).redirects),
        d ∈ U) →
      unvisited U st.visited < n →
      ∃ st1, recordsLoop (fetchSPFNetworks net n) recs st all4 all6 =
          some (st1,
            all4 ++ (recs.filter (fun record => HasPrefix record "v=spf1".toList)).flatMap
              (fun record => (parseSPFRecord record).ipv4),
            all6 ++ (recs.filter (fun record => HasPrefix record "v=spf1".toList)).flatMap
              (fun record => (parseSPFRecord record).ipv6)) ∧
        Grow net ((recs.filter (fun record => HasPrefix record "v=spf1".toList)).flatMap
          (fun record => (parseSPFRecord record).includes ++ (parseSPFRecord record).redirects))
          st st1 := by
  intro recs
  induction recs with
  | nil => intro st all4 all6 _ _; exact ⟨st, by simp [recordsLoop], by simpa using Grow_refl net st⟩
  | cons record rest ihr =>
    intro st all4 all6 hds hn
    by_cases hp : HasPrefix record "v=spf1".toList = true
    · simp only [List.filter_cons, hp, if_true, List.flatMap_cons, List.mem_append] at hds ⊢
      obtain ⟨st1, h1, g1⟩ := fetchEach_grow net U n ih (parseSPFRecord record).includes st
        (fun d hd => hds d (Or.inl (Or.inl hd))) hn
      have hn1 : unvisited U st1.visited < n :=
        lt_of_le_of_lt (unvisited_mono U _ _ g1.mono) hn
      obtain ⟨st2, h2, g2⟩ := fetchEach_grow net U n ih (parseSPFRecord record).redirects st1
        (fun d hd => hds d (Or.inl (Or.inr hd))) hn1
      have hn2 : unvisited U st2.visited < n :=
        lt_of_le_of_lt (unvisited_mono U _ _ g2.mono) hn1
      obtain ⟨st3, h3, g3⟩ := ihr st2 (all4 ++ (parseSPFRecord record).ipv4)
        (all6 ++ (parseSPFRecord record).ipv6) (fun d hd => hds d (Or.inr hd)) hn2
      refine ⟨st3, ?_, ?_⟩
      · simp only [recordsLoop, hp, Bool.not_true, Bool.false_eq_true, if_false, h1, h2, h3,
          List.append_assoc]
      · exact Grow_trans net _ _ st st2 st3 (Grow_trans net _ _ st st1 st2 g1 g2) g3
    · have hp1 : HasPrefix record "v=spf1".toList = false := by simpa using hp
      simp only [List.filter_cons, hp1, Bool.false_eq_true, if_false] at hds ⊢
      obtain ⟨st3, h3, g3⟩ := ihr st all4 all6 hds hn
      refine ⟨st3, ?_, g3⟩
      simp only [recordsLoop, hp1, Bool.not_false, if_true, h3]

theorem spfEdges_error (net : Net) (d err : Str) (h : net.LookupTXT d = .error err) :
    spfEdges net d = [] ∧ spfIPv4 net d = [] ∧ spfIPv6 net d = [] := by
  simp [spfEdges, spfIPv4, spfIPv6, spfRecords, h]

theorem Grow_visit (net : Net) (d : Str) (st st2 : Resolution) (all4 all6 : List Str)
    (hd : d ∉ st.visited) (h4 : all4 = spfIPv4 net d) (h6 : all6 = spfIPv6 net d)
    (g : Grow net (spfEdges net d)
      { st with visited := setInsert st.visited d, lookups := st.lookups ++ [d] } st2) :
    Grow net [d] st { st2 with r := st2.r.Add all4 all6 } where
  mono := fun v h => g.mono v ((mem_setInsert _ _ _).2 (Or.inl h))
  targets := fun x hx => by
    rw [List.mem_singleton] at hx
    subst hx
    exact g.mono x ((mem_setInsert _ _ _).2 (Or.inr rfl))
  sound := fun v h => by
    rcases g.sound v h with h1 | ⟨w, hw, hr⟩
    · rcases (mem_setInsert _ _ _).1 h1 with h0 | rfl
      · exact Or.inl h0
      · exact Or.inr ⟨v, List.mem_singleton.2 rfl, Reach.root⟩
    · exact Or.inr ⟨d, List.mem_singleton.2 rfl, Reach_head net d w v hw hr⟩
  closed := fun P hc => by
    have h1 : Closed net (setInsert st.visited d) (fun v => P v ∨ v = d) := by
      intro v hv hP w hw
      rcases (mem_setInsert _ _ _).1 hv with h0 | rfl
      · exact (mem_setInsert _ _ _).2 (Or.inl (hc v h0 (fun hp => hP (Or.inl hp)) w hw))
      · exact absurd (Or.inr rfl) hP
    have h2 := g.closed _ h1
    intro v hv hP w hw
    by_cases hvd : v = d
    · subst hvd
      exact g.targets w hw
    · exact h2 v hv (fun hp => hp.elim hP hvd) w hw
  ip4 := fun x => by
    show x ∈ all4.foldl setInsert st2.r.ipv4 ↔ _
    rw [mem_foldl_setInsert, g.ip4, h4]
    constructor
    · rintro ((h | ⟨v, h1, h2, h3⟩) | h)
      · exact Or.inl h
      · exact Or.inr ⟨v, h1, fun hv => h2 ((mem_setInsert _ _ _).2 (Or.inl hv)), h3⟩
      · exact Or.inr ⟨d, g.mono d ((mem_setInsert _ _ _).2 (Or.inr rfl)), hd, h⟩
    · rintro (h | ⟨v, h1, h2, h3⟩)
      · exact Or.inl (Or.inl h)
      · by_cases hvd : v = d
        · subst hvd
          exact Or.inr h3
        · refine Or.inl (Or.inr ⟨v, h1, ?_, h3⟩)
          intro hv
          rcases (mem_setInsert _ _ _).1 hv with h0 | h0
          · exact h2 h0
          · exact hvd h0
  ip6 := fun x => by
    show x ∈ all6.foldl setInsert st2.r.ipv6 ↔ _
    rw [mem_foldl_setInsert, g.ip6, h6]
    constructor
    · rintro ((h | ⟨v, h1, h2, h3⟩) | h)
      · exact Or.inl h
      · exact Or.inr ⟨v, h1, fun hv => h2 ((mem_setInsert _ _ _).2 (Or.inl hv)), h3⟩
      · exact Or.inr ⟨d, g.mono d ((mem_setInsert _ _ _).2 (Or.inr rfl)), hd, h⟩
    · rintro (h | ⟨v, h1, h2, h3⟩)
      · exact Or.inl (Or.inl h)
      · by_cases hvd : v = d
        · subst hvd
          exact Or.inr h3
        · refine Or.inl (Or.inr ⟨v, h1, ?_, h3⟩)
          intro hv
          rcases (mem_setInsert _ _ _).1 hv with h0 | h0
          · exact h2 h0
          · exact hvd h0
  inv := fun h => by
    apply g.inv
    show st.lookups ++ [d] = setInsert st.visited d ∧ (setInsert st.visited d).Nodup
    exact ⟨by rw [setInsert_of_not_mem _ _ hd, h.1], setInsert_nodup _ _ h.2⟩

theorem fetchSPFNetworks_grow (net : Net) (U : List Str)
    (hU : ∀ d ∈ U, ∀ w ∈ spfEdges net d, w ∈ U) :
    ∀ n d st, d ∈ U → unvisited U st.visited < n →
      ∃ e st1, fetchSPFNetworks net n d st = some (e, st1) ∧ Grow net [d] st st1 ∧
        (e.isSome = true ↔ d ∉ st.visited ∧ ∃ err, net.LookupTXT d = .error err) := by
  intro n
  induction n with
  | zero => intro d st _ h; omega
  | succ n ih =>
    intro d st hd hn
    by_cases hv : d ∈ st.visited
    · refine ⟨none, st, by simp [fetchSPFNetworks, hv], ?_, by simp [hv]⟩
      have g := Grow_refl net st
      exact { g with targets := fun x hx => by rw [List.mem_singleton.1 hx]; exact hv,
                     sound := fun v h => Or.inl h }
    · have hlt : unvisited U (setInsert st.visited d) < n := by
        have := unvisited_lt U st.visited (setInsert st.visited d) d
          (fun v h => (mem_setInsert _ _ _).2 (Or.inl h)) hd hv
          ((mem_setInsert _ _ _).2 (Or.inr rfl))
        omega
      cases hl : net.LookupTXT d with
      | error err =>
        obtain ⟨he, h4, h6⟩ := spfEdges_error net d err hl
        refine ⟨_, _, by simp only [fetchSPFNetworks, hv, if_false, hl]; rfl, ?_,
          by simp [hv]⟩
        have g := Grow_visit net d st
          { st with visited := setInsert st.visited d, lookups := st.lookups ++ [d] } [] []
          hv h4.symm h6.symm (by rw [he]; exact Grow_refl net _)
        exact g
      | ok txt =>
        have hE : spfEdges net d = (txt.filter (fun record => HasPrefix record "v=spf1".toList)).flatMap
            (fun record => (parseSPFRecord record).includes ++ (parseSPFRecord record).redirects) := by
          simp [spfEdges, spfRecords, hl]
        have h4 : spfIPv4 net d = (txt.filter (fun record => HasPrefix record "v=spf1".toList)).flatMap
            (fun record => (parseSPFRecord record).ipv4) := by
          simp [spfIPv4, spfRecords, hl]
        have h6 : spfIPv6 net d = (txt.filter (fun record => HasPrefix record "v=spf1".toList)).flatMap
            (fun record => (parseSPFRecord record).ipv6) := by
          simp [spfIPv6, spfRecords, hl]
        obtain ⟨st2, h2, g2⟩ := recordsLoop_grow net U n
          (fun d st hd hn => by
            obtain ⟨e, st1, h1, g1, _⟩ := ih d st hd hn
            exact ⟨e, st1, h1, g1⟩)
          txt { st with visited := setInsert st.visited d, lookups := st.lookups ++ [d] } [] []
          (by rw [← hE]; exact hU d hd) hlt
        rw [← h4, ← h6] at h2
        rw [← hE] at g2
        refine ⟨none, { st2 with r := st2.r.Add ([] ++ spfIPv4 net d) ([] ++ spfIPv6 net d) },
          by simp only [fetchSPFNetworks, hv, if_false, hl, h2], ?_, by simp⟩
        exact Grow_visit net d st st2 _ _ hv (by simp) (by simp) g2

theorem Reach_of_closed (net : Net) (root : Str) (V : List Str) (hroot : root ∈ V)
    (hc : Closed net V (fun _ => False)) : ∀ d, Reach net root d → d ∈ V := by
  intro d h
  induction h with
  | root => exact hroot
  | step a b _ hab ih => exact hc a ih (fun h => h) b hab

theorem CheckSPF_run (net : Net) (U : List Str) (root dom : Str) (ip : IP) (fuel : Nat)
    (hroot : root ∈ U) (hU : ∀ d ∈ U, ∀ w ∈ spfEdges net d, w ∈ U) (hfuel : U.length < fuel) :
    ∃ ok err st, (NewSPFRecord dom).CheckSPF net fuel root ip = some ((ok, err), st) ∧
      (err.isSome = true ↔ ∃ e, net.LookupTXT root = .error e) ∧
      (err = none → ok = st.r.CheckIfContains net ip) ∧
      Grow net [root] { r := NewSPFRecord dom, visited := [], lookups := [] } st := by
  obtain ⟨e, st, h, g, he⟩ := fetchSPFNetworks_grow net U hU fuel root
    { r := NewSPFRecord dom, visited := [], lookups := [] } hroot
    (lt_of_le_of_lt (unvisited_le_length U _) hfuel)
  cases e with
  | none =>
    refine ⟨_, none, st, by simp only [SPFRecord.CheckSPF, h], ?_, fun _ => rfl, g⟩
    simpa using he
  | some err =>
    refine ⟨false, some ("error fetching SPF records: ".toList ++ err), st,
      by simp only [SPFRecord.CheckSPF, h], ?_, by simp, g⟩
    simpa using he

theorem Grow_fresh (net : Net) (root dom : Str) (st : Resolution)
    (g : Grow net [root] { r := NewSPFRecord dom, visited := [], lookups := [] } st) :
    (∀ d, d ∈ st.visited ↔ Reach net root d) ∧
    (∀ x, x ∈ st.r.ipv4 ↔ ∃ d, Reach net root d ∧ x ∈ spfIPv4 net d) ∧
    (∀ x, x ∈ st.r.ipv6 ↔ ∃ d, Reach net root d ∧ x ∈ spfIPv6 net d) ∧
    st.lookups = st.visited ∧ st.visited.Nodup := by
  have hV : ∀ d, d ∈ st.visited ↔ Reach net root d := by
    intro d
    constructor
    · intro h
      rcases g.sound d h with h0 | ⟨w, hw, hr⟩
      · simp at h0
      · rw [List.mem_singleton.1 hw] at hr
        exact hr
    · apply Reach_of_closed net root st.visited (g.targets root (List.mem_singleton.2 rfl))
      apply g.closed
      intro v hv
      simp at hv
  refine ⟨hV, ?_, ?_, g.inv ⟨rfl, List.nodup_nil⟩⟩
  · intro x
    rw [g.ip4]
    constructor
    · rintro (h | ⟨v, h1, _, h3⟩)
      · simp [NewSPFRecord] at h
      · exact ⟨v, (hV v).1 h1, h3⟩
    · rintro ⟨v, h1, h3⟩
      exact Or.inr ⟨v, (hV v).2 h1, by simp, h3⟩
  · intro x
    rw [g.ip6]
    constructor
    · rintro (h | ⟨v, h1, _, h3⟩)
      · simp [NewSPFRecord] at h
      · exact ⟨v, (hV v).1 h1, h3⟩
    · rintro ⟨v, h1, h3⟩
      exact Or.inr ⟨v, (hV v).2 h1, by simp, h3⟩

theorem any_cidr_iff (net : Net) (ip : IP) (l : List Str) :
    l.any (cidrContains net ip) = true ↔
    ∃ cidr ipnet, cidr ∈ l ∧ ParseCIDR net cidr = some ipnet ∧ net.contains ipnet ip = true := by
  rw [List.any_eq_true]
  constructor
  · rintro ⟨cidr, hc, h⟩
    unfold cidrContains at h
    cases hp : ParseCIDR net cidr with
    | none => rw [hp] at h; simp at h
    | some ipnet => rw [hp] at h; exact ⟨cidr, ipnet, hc, hp, h⟩
  · rintro ⟨cidr, ipnet, hc, hp, h⟩
    exact ⟨cidr, hc, by unfold cidrContains; rw [hp]; exact h⟩

theorem CheckIfContains_eq_true (net : Net) (r : SPFRecord) (ip : IP) :
    r.CheckIfContains net ip = true ↔
      ∃ cidr ipnet, (cidr ∈ r.ipv4 ∨ cidr ∈ r.ipv6) ∧ ParseCIDR net cidr = some ipnet ∧
        net.contains ipnet ip = true := by
  unfold SPFRecord.CheckIfContains
  rw [Bool.or_eq_true, any_cidr_iff, any_cidr_iff]
  constructor
  · rintro (⟨c, n, h1, h2, h3⟩ | ⟨c, n, h1, h2, h3⟩)
    · exact ⟨c, n, Or.inl h1, h2, h3⟩
    · exact ⟨c, n, Or.inr h1, h2, h3⟩
  · rintro ⟨c, n, h1 | h1, h2, h3⟩
    · exact Or.inl ⟨c, n, h1, h2, h3⟩
    · exact Or.inr ⟨c, n, h1, h2, h3⟩

/-- C13: for a DNS function whose domains reachable from the queried one lie
in a finite list closed under the include and redirect edges (cycles and
self-includes allowed), `fetchSPFNetworks` under `CheckSPF` returns; the log
of TXT lookups has no domain twice and holds exactly the reachable domains;
and a call on a domain already visited returns nil and leaves the state, the
two sets included, as it was. -/
theorem fetchSPFNetworks_terminates (net : Net) (U : List Str) (root dom : Str) (ip : IP)
    (fuel : Nat) (hroot : root ∈ U) (hU : ∀ d ∈ U, ∀ w ∈ spfEdges net d, w ∈ U)
    (hfuel : U.length < fuel) :
    ∃ res st, (NewSPFRecord dom).CheckSPF net fuel root ip = some (res, st) ∧
      st.lookups.Nodup ∧ (∀ d, d ∈ st.lookups ↔ Reach net root d) ∧
      ∀ (s : Resolution) (d : Str) (n : Nat), d ∈ s.visited →
        fetchSPFNetworks net (n + 1) d s = some (none, s) := by
  obtain ⟨ok, err, st, h, _, _, g⟩ := CheckSPF_run net U root dom ip fuel hroot hU hfuel
  obtain ⟨hV, _, _, hl, hn⟩ := Grow_fresh net root dom st g
  refine ⟨(ok, err), st, h, hl ▸ hn, fun d => hl ▸ hV d, ?_⟩
  intro s d n hd
  simp [fetchSPFNetworks, hd]

theorem fetchSPFNetworks_terminates_witness :
    (NewSPFRecord "a.test".toList).CheckSPF cycleNet 4 "b.test".toList [192, 0, 2, 1] =
      some ((false, none),
        { r := { Domain := "a.test".toList,
                 ipv4 := ["10.0.0.0/8".toList, "192.0.2.1".toList],
                 ipv6 := ["2001:db8::/32".toList] },
          visited := ["b.test".toList, "gone.test".toList, "a.test".toList],
          lookups := ["b.test".toList, "gone.test".toList, "a.test".toList] }) ∧
    ∃ res st, (NewSPFRecord "a.test".toList).CheckSPF cycleNet 4 "b.test".toList
        [192, 0, 2, 1] = some (res, st) ∧
      st.lookups.Nodup ∧ (∀ d, d ∈ st.lookups ↔ Reach cycleNet "b.test".toList d) ∧
      ∀ (s : Resolution) (d : Str) (n : Nat), d ∈ s.visited →
        fetchSPFNetworks cycleNet (n + 1) d s = some (none, s) :=
  ⟨by decide,
   fetchSPFNetworks_terminates cycleNet ["a.test".toList, "b.test".toList, "gone.test".toList]
    "b.test".toList "a.test".toList [192, 0, 2, 1] 4 (by decide) (by decide) (by decide)⟩

/-- C14: `CheckIfContains` returns true exactly when some entry of the IPv4 or
IPv6 set parses as a CIDR network that contains the address; an entry without
`/` (a bare address) does not parse, so a record with only such entries gives
false; and the result does not depend on the order of the entries. -/
theorem CheckIfContains_iff (net : Net) (r : SPFRecord) (ip : IP) :
    (r.CheckIfContains net ip = true ↔
      ∃ cidr ipnet, (cidr ∈ r.ipv4 ∨ cidr ∈ r.ipv6) ∧ ParseCIDR net cidr = some ipnet ∧
        net.contains ipnet ip = true) ∧
    (∀ cidr, '/' ∉ cidr → ParseCIDR net cidr = none) ∧
    ((∀ cidr, cidr ∈ r.ipv4 ∨ cidr ∈ r.ipv6 → '/' ∉ cidr) → r.CheckIfContains net ip = false) ∧
    (∀ r2 : SPFRecord, r2.ipv4.Perm r.ipv4 → r2.ipv6.Perm r.ipv6 →
      r2.CheckIfContains net ip = r.CheckIfContains net ip) := by
  have hbare : ∀ cidr : Str, '/' ∉ cidr → ParseCIDR net cidr = none := by
    intro cidr h
    unfold ParseCIDR
    rw [if_neg h]
  refine ⟨CheckIfContains_eq_true net r ip, hbare, ?_, ?_⟩
  · intro h
    rw [← Bool.not_eq_true, CheckIfContains_eq_true]
    rintro ⟨c, n, hc, hp, _⟩
    rw [hbare c (h c hc)] at hp
    exact Option.noConfusion hp
  · intro r2 h4 h6
    rw [Bool.eq_iff_iff, CheckIfContains_eq_true, CheckIfContains_eq_true]
    constructor
    · rintro ⟨c, n, hc, h⟩
      exact ⟨c, n, hc.imp h4.mem_iff.1 h6.mem_iff.1, h⟩
    · rintro ⟨c, n, hc, h⟩
      exact ⟨c, n, hc.imp h4.mem_iff.2 h6.mem_iff.2, h⟩

theorem CheckIfContains_iff_witness :
    SPFRecord.CheckIfContains cycleNet
      { Domain := "a.test".toList, ipv4 := ["10.1.2.3".toList, "10.0.0.0/8".toList], ipv6 := [] }
      [10, 1, 2, 3] = true ∧
    SPFRecord.CheckIfContains cycleNet
      { Domain := "a.test".toList, ipv4 := ["10.0.0.0/8".toList, "10.1.2.3".toList], ipv6 := [] }
      [10, 1, 2, 3] = true ∧
    SPFRecord.CheckIfContains cycleNet
      { Domain := "a.test".toList, ipv4 := ["10.1.2.3".toList], ipv6 := ["10.0.0.0".toList] }
      [10, 1, 2, 3] = false :=
  ⟨by decide,
   ((CheckIfContains_iff cycleNet
      { Domain := "a.test".toList, ipv4 := ["10.1.2.3".toList, "10.0.0.0/8".toList], ipv6 := [] }
      [10, 1, 2, 3]).2.2.2
      { Domain := "a.test".toList, ipv4 := ["10.0.0.0/8".toList, "10.1.2.3".toList], ipv6 := [] }
      (List.Perm.swap _ _ _) (List.Perm.refl _)).trans (by decide),
   (CheckIfContains_iff cycleNet
      { Domain := "a.test".toList, ipv4 := ["10.1.2.3".toList], ipv6 := ["10.0.0.0".toList] }
      [10, 1, 2, 3]).2.2.1
      (fun c hc => by rcases hc with h | h <;> (rw [List.mem_singleton] at h; subst h; decide))⟩

/-! ## Recipients, sessions and SPF verification -/

theorem Char_eq_iff_toNat (a b : Char) : a = b ↔ a.toNat = b.toNat :=
  ⟨fun h => congrArg _ h, fun h => by rw [← Char.ofNat_toNat a, ← Char.ofNat_toNat b, h]⟩

theorem toLower_toNat (c : Char) :
    c.toLower.toNat = if 65 ≤ c.toNat ∧ c.toNat ≤ 90 then c.toNat + 32 else c.toNat := by
  split_ifs with h
  · have hc : c = Char.ofNat c.toNat := (Char.ofNat_toNat c).symm
    obtain ⟨h1, h2⟩ := h
    generalize c.toNat = n at hc h1 h2
    subst hc
    interval_cases n <;> rfl
  · unfold Char.toLower
    simp only [ge_iff_le]
    rw [if_neg h]

theorem equalFoldRune_ascii (orbit : Char → Char → Bool) (a b : Char) (ha : a.toNat < 128)
    (hb : b.toNat < 128) : equalFoldRune orbit a b = true ↔ a.toLower = b.toLower := by
  rw [Char_eq_iff_toNat a.toLower, toLower_toNat, toLower_toNat]
  unfold equalFoldRune
  by_cases hab : b = a
  · subst hab
    simp
  · have hne : b.toNat ≠ a.toNat := fun h => hab ((Char_eq_iff_toNat _ _).2 h)
    rw [if_neg hab]
    by_cases hlt : b.toNat < a.toNat
    · simp only [hlt, if_true, ha, decide_eq_true_eq]
      split_ifs <;> omega
    · simp only [hlt, if_false, hb, if_true, decide_eq_true_eq]
      split_ifs <;> omega

theorem EqualFold_ascii (orbit : Char → Char → Bool) :
    ∀ d dm : Str, (∀ c ∈ d, c.toNat < 128) → (∀ c ∈ dm, c.toNat < 128) →
      (EqualFold orbit d dm = true ↔ d.map Char.toLower = dm.map Char.toLower)
  | [], [], _, _ => by simp [EqualFold]
  | [], _ :: _, _, _ => by simp [EqualFold]
  | _ :: _, [], _, _ => by simp [EqualFold]
  | a :: s, b :: t, h1, h2 => by
    have ih := EqualFold_ascii orbit s t (fun c hc => h1 c (List.mem_cons_of_mem _ hc))
      (fun c hc => h2 c (List.mem_cons_of_mem _ hc))
    have hr := equalFoldRune_ascii orbit a b (h1 a (List.mem_cons_self _ _))
      (h2 b (List.mem_cons_self _ _))
    simp only [EqualFold, Bool.and_eq_true, List.map_cons, List.cons.injEq, hr, ih]

theorem SplitN2_at (s : Str) (h : '@' ∈ s) :
    ∃ lp dm, SplitN2 s '@' = [lp, dm] ∧ s = lp ++ '@' :: dm ∧ '@' ∉ lp := by
  refine ⟨s.takeWhile (fun c => c != '@'), (s.dropWhile (fun c => c != '@')).tail, ?_, ?_, ?_⟩
  · unfold SplitN2
    rw [if_pos h]
  · induction s with
    | nil => simp at h
    | cons c t ih =>
      by_cases hc : c = '@'
      · subst hc
        simp [List.takeWhile, List.dropWhile]
      · have ht : '@' ∈ t := by
          rcases List.mem_cons.1 h with h1 | h1
          · exact absurd h1.symm hc
          · exact h1
        have hne : (c != '@') = true := by simpa using hc
        simp only [List.takeWhile, List.dropWhile, hne, List.cons_append, List.cons.injEq,
          true_and]
        exact ih ht
  · intro hm
    have := List.mem_takeWhile_imp hm
    simp at this

theorem append_at_unique (lp dm lp2 dm2 : Str) (h : lp ++ '@' :: dm = lp2 ++ '@' :: dm2)
    (h1 : '@' ∉ lp) (h2 : '@' ∉ lp2) : lp = lp2 ∧ dm = dm2 := by
  induction lp generalizing lp2 with
  | nil =>
    cases lp2 with
    | nil => simpa using h
    | cons c t =>
      simp only [List.nil_append, List.cons_append, List.cons.injEq] at h
      exact absurd (h.1 ▸ List.mem_cons_self _ _) h2
  | cons c t ih =>
    cases lp2 with
    | nil =>
      simp only [List.nil_append, List.cons_append, List.cons.injEq] at h
      exact absurd (h.1 ▸ List.mem_cons_self _ _) h1
    | cons c2 t2 =>
      simp only [List.cons_append, List.cons.injEq] at h
      obtain ⟨e1, e2⟩ := ih t2 h.2 (fun hm => h1 (List.mem_cons_of_mem _ hm))
        (fun hm => h2 (List.mem_cons_of_mem _ hm))
      exact ⟨by rw [h.1, e1], e2⟩

theorem HasDomain_iff (orbit : Char → Char → Bool) (eu : EmailUser) (L : List Str) :
    (eu.HasDomain orbit L).2 = true ↔
      ∃ lp dm, eu.Email = lp ++ '@' :: dm ∧ '@' ∉ lp ∧
        ∃ d ∈ L, EqualFold orbit d dm = true := by
  by_cases h : '@' ∈ eu.Email
  · obtain ⟨lp, dm, hs, he, hl⟩ := SplitN2_at eu.Email h
    unfold EmailUser.HasDomain
    rw [hs]
    simp only [List.any_eq_true]
    constructor
    · rintro ⟨d, hd, hf⟩
      exact ⟨lp, dm, he, hl, d, hd, hf⟩
    · rintro ⟨lp2, dm2, he2, hl2, d, hd, hf⟩
      obtain ⟨_, e2⟩ := append_at_unique lp dm lp2 dm2 (he ▸ he2) hl hl2
      exact ⟨d, hd, e2 ▸ hf⟩
  · have hs : SplitN2 eu.Email '@' = [eu.Email] := by
      unfold SplitN2
      rw [if_neg h]
    unfold EmailUser.HasDomain
    rw [hs]
    simp only [Bool.false_eq_true, false_iff]
    rintro ⟨lp, dm, he, _⟩
    exact h (by rw [he]; simp)

theorem Rcpt_of_parsed (orbit : Char → Char → Bool) (s : Session) (a : Str) (eu : EmailUser)
    (h : parseEmailUser a = .ok eu) :
    ((s.Rcpt orbit a).err = none ↔
      (s.TrustedDomains = [] ∨ (eu.HasDomain orbit s.TrustedDomains).2 = true)) ∧
    ((s.Rcpt orbit a).err = none → (s.Rcpt orbit a).session.RcptTo = s.RcptTo ++ [eu]) ∧
    ((s.Rcpt orbit a).err ≠ none → (s.Rcpt orbit a).session.RcptTo = s.RcptTo) := by
  unfold Session.Rcpt
  rw [h]
  simp only []
  by_cases hc : s.TrustedDomains.length > 0 ∧ (eu.HasDomain orbit s.TrustedDomains).2 = false
  · rw [if_pos hc]
    refine ⟨?_, by simp, by simp⟩
    simp only [reduceCtorEq, false_iff, not_or]
    obtain ⟨h1, h2⟩ := hc
    refine ⟨fun hn => ?_, by simp [h2]⟩
    rw [hn] at h1
    simp at h1
  · rw [if_neg hc]
    refine ⟨?_, by simp, by simp⟩
    simp only [true_iff]
    by_cases hl : s.TrustedDomains = []
    · exact Or.inl hl
    · right
      have : s.TrustedDomains.length > 0 := List.length_pos.2 hl
      cases hb : (eu.HasDomain orbit s.TrustedDomains).2 with
      | true => rfl
      | false => exact absurd ⟨this, hb⟩ hc

/-- C18: for an address `a` that `parseEmailUser` accepts as `eu`, `Rcpt(a)` on
a session with a non-empty `TrustedDomains` succeeds exactly when the address
has an `@` and the text after its first `@` is `strings.EqualFold`-equal to
some element of the list; with an empty list it succeeds; on success `eu` is
appended at the end of `RcptTo`, on failure `RcptTo` is unchanged; and on
ASCII texts `strings.EqualFold` is equality up to the case of the letters. -/
theorem Rcpt_trusted_domains (orbit : Char → Char → Bool) (s : Session) (a : Str)
    (eu : EmailUser) (h : parseEmailUser a = .ok eu) :
    (s.TrustedDomains ≠ [] →
      ((s.Rcpt orbit a).err = none ↔
        ∃ lp dm, eu.Email = lp ++ '@' :: dm ∧ '@' ∉ lp ∧
          ∃ d ∈ s.TrustedDomains, EqualFold orbit d dm = true)) ∧
    (s.TrustedDomains = [] → (s.Rcpt orbit a).err = none) ∧
    ((s.Rcpt orbit a).err = none → (s.Rcpt orbit a).session.RcptTo = s.RcptTo ++ [eu]) ∧
    ((s.Rcpt orbit a).err ≠ none → (s.Rcpt orbit a).session.RcptTo = s.RcptTo) ∧
    (∀ d dm : Str, (∀ c ∈ d, c.toNat < 128) → (∀ c ∈ dm, c.toNat < 128) →
      (EqualFold orbit d dm = true ↔ d.map Char.toLower = dm.map Char.toLower)) := by
  obtain ⟨h1, h2, h3⟩ := Rcpt_of_parsed orbit s a eu h
  refine ⟨fun hl => ?_, fun hl => h1.2 (Or.inl hl), h2, h3, EqualFold_ascii orbit⟩
  rw [h1, ← HasDomain_iff]
  constructor
  · rintro (h0 | h0)
    · exact absurd h0 hl
    · exact h0
  · exact Or.inr

theorem Rcpt_trusted_domains_witness :
    (Session.Rcpt (fun _ _ => false) { TrustedDomains := ["example.com".toList] }
      "user@other.com".toList).err ≠ none ∧
    (Session.Rcpt (fun _ _ => false) { TrustedDomains := ["example.com".toList] }
      "user@other.com".toList).session.RcptTo = [] ∧
    (Session.Rcpt (fun _ _ => false) { TrustedDomains := ["example.com".toList] }
      "user@example.com".toList).err = none ∧
    (Session.Rcpt (fun _ _ => false) { TrustedDomains := ["example.com".toList] }
      "User <user@Example.COM>".toList).session.RcptTo =
        [{ Name := "User".toList, Email := "user@Example.COM".toList }] :=
  ⟨by decide, by decide, by decide,
   (Rcpt_trusted_domains (fun _ _ => false) { TrustedDomains := ["example.com".toList] }
      "User <user@Example.COM>".toList
      { Name := "User".toList, Email := "user@Example.COM".toList } (by decide)).2.2.1
      (by decide)⟩

/-- C19: `NewSession` does not hand the allowlist of the backend to the
session: for the backend built by `NewBackend` with the allowlist
`["example.com"]`, the session returned by `NewSession` has an empty
`TrustedDomains`, and its `Rcpt("user@other.com")` returns nil and adds the
recipient. -/
theorem NewSession_drops_TrustedDomains :
    ((NewBackend none false ["example.com".toList]).NewSession none).TrustedDomains = [] ∧
    (Session.Rcpt (fun _ _ => false)
      ((NewBackend none false ["example.com".toList]).NewSession none)
      "user@other.com".toList).err = none ∧
    (Session.Rcpt (fun _ _ => false)
      ((NewBackend none false ["example.com".toList]).NewSession none)
      "user@other.com".toList).session.RcptTo = [{ Email := "user@other.com".toList }] := by
  decide

/-- C15: `VerifySPF` does not store its result: on an `Email` from
`alice@a.test` received from 10.1.2.3, with a DNS whose SPF networks contain
that address, the call returns `(true, nil)` after three TXT lookups, the
`SPF` flag of the `Email` is still false after the call, and a second call
performs the same three lookups again. -/
theorem VerifySPF_not_memoized :
    aliceEmail.VerifySPF cycleNet 4 =
      some { result := .ok (true, none), email := aliceEmail,
             lookups := ["a.test".toList, "b.test".toList, "gone.test".toList] } ∧
    aliceEmail.SPF = false ∧
    (aliceEmail.VerifySPF cycleNet 4).map (fun c => c.email.SPF) = some false ∧
    ((aliceEmail.VerifySPF cycleNet 4).bind (fun c => c.email.VerifySPF cycleNet 4)).map
      (fun c => c.lookups) = some ["a.test".toList, "b.test".toList, "gone.test".toList] := by
  decide

theorem VerifySPF_receiver (net : Net) (fuel : Nat) (e : Email) (c : SPFCall)
    (h : e.VerifySPF net fuel = some c) : c.email = e := by
  unfold Email.VerifySPF at h
  split_ifs at h with h1 h2
  · cases h; rfl
  · cases h; rfl
  · split at h
    · split at h
      · cases h
      · cases h; rfl
    · cases h; rfl

/-! ## Delivery at logout -/

theorem call_session (orbit : Char → Char → Bool) (s : Session) (c : Call) (step : Step)
    (h : s.call orbit c = .ok step) :
    step.session.OnEmailReceived = s.OnEmailReceived ∧
    step.session.Email = (ingested [(c, step)]).getLast?.or s.Email ∧
    receivedEmails step.events = [] := by
  cases c with
  | Mail sender =>
    simp only [Session.call, Outcome.ok.injEq] at h
    subst h
    unfold Session.Mail
    split <;> simp [ingested, receivedEmails]
  | Rcpt toAddress =>
    simp only [Session.call, Outcome.ok.injEq] at h
    subst h
    unfold Session.Rcpt
    split
    · simp [ingested, receivedEmails]
    · split_ifs <;> simp [ingested, receivedEmails]
  | Reset =>
    simp only [Session.call, Outcome.ok.injEq] at h
    subst h
    simp [ingested, Session.Reset, receivedEmails]
  | Data w r =>
    simp only [Session.call, Session.Data] at h
    split at h
    · cases h
    · simp only [Outcome.ok.injEq] at h
      subst h
      simp only [ingested, receivedEmails]
      split_ifs <;> simp
    · simp only [Outcome.ok.injEq] at h
      subst h
      simp [ingested, receivedEmails]

theorem calls_session (orbit : Char → Char → Bool) :
    ∀ (cs : List Call) (s : Session) (steps : List (Call × Step)),
      Session.calls orbit s cs = .ok steps →
      (lastSession s steps).OnEmailReceived = s.OnEmailReceived ∧
      (lastSession s steps).Email = (ingested steps).getLast?.or s.Email ∧
      steps.map (fun x => x.1) = cs ∧
      ∀ x ∈ steps, receivedEmails x.2.events = []
  | [], s, steps, h => by
    simp only [Session.calls, Outcome.ok.injEq] at h
    subst h
    simp [lastSession, ingested]
  | c :: rest, s, steps, h => by
    simp only [Session.calls] at h
    split at h
    · cases h
    · rename_i step hstep
      split at h
      · cases h
      · rename_i steps1 hrest
        simp only [Outcome.ok.injEq] at h
        subst h
        obtain ⟨h1, h2, h3⟩ := call_session orbit s c step hstep
        obtain ⟨k1, k2, k3, k4⟩ := calls_session orbit rest step.session steps1 hrest
        have hl : lastSession s ((c, step) :: steps1) = lastSession step.session steps1 := by
          cases steps1 with
          | nil => simp [lastSession]
          | cons x t =>
            unfold lastSession
            rw [List.getLast?_cons_cons]
            cases hg : (x :: t).getLast? with
            | none => simp at hg
            | some p => rfl
        have hi : ingested ((c, step) :: steps1) = ingested [(c, step)] ++ ingested steps1 := by
          simp [ingested, List.filterMap_cons]
          split <;> simp
        rw [hl, hi, List.getLast?_append, k1, k2, h1, h2, Option.or_assoc]
        refine ⟨rfl, rfl, by simp [k3], ?_⟩
        intro x hx
        rcases List.mem_cons.1 hx with hx | hx
        · rw [hx]
          exact h3
        · exact k4 x hx

theorem Logout_received (s : Session) (f : Email → Option Str)
    (hf : s.OnEmailReceived = some f) (hnf : ∀ e, f e = none) :
    receivedEmails s.Logout.events = s.Email.toList ∧ s.Logout.err = none := by
  unfold Session.Logout
  rw [hf]
  cases s.Email with
  | none => simp [receivedEmails]
  | some e => simp [hnf e, receivedEmails]

/-- C20, what fails: a session that ingests two messages (two `Data` calls
that return nil, with different `Email`s) and then logs out invokes
`OnEmailReceived` once, with the second `Email`; the first is not
delivered. -/
theorem Logout_delivers_only_last :
    ∃ ing rcv, deliveries (fun _ _ => false)
        ((NewBackend (some (fun _ => none)) true []).NewSession (some "192.0.2.7:2525".toList))
        twoMessages = .ok (ing, rcv) ∧
      ing.map (fun e => e.Raw) = [asciiBytes "one".toList, asciiBytes "two".toList] ∧
      ing.map (fun e => e.RcptTo.map (fun u => u.Email)) =
        [["bob@b.test".toList], ["bob@b.test".toList, "carol@c.test".toList]] ∧
      rcv.map (fun e => e.Raw) = [asciiBytes "two".toList] ∧
      rcv = ing.drop 1 := by
  refine ⟨_, _, rfl, ?_, ?_, ?_, ?_⟩ <;> decide

/-- C20, amended: for a session with no `Email` yet and an `OnEmailReceived`
that does not panic, in a sequence of `Mail`, `Rcpt`, `Data` and `Reset`
calls none of which panics no call invokes `OnEmailReceived`, and `Logout`
after it returns nil and invokes `OnEmailReceived` once with the `Email` of
the last `Data` call that returned success, and not at all when no `Data`
call returned success. -/
theorem Logout_delivers_last (orbit : Char → Char → Bool) (s : Session)
    (f : Email → Option Str) (cs : List Call) (steps : List (Call × Step))
    (hf : s.OnEmailReceived = some f) (hnf : ∀ e, f e = none) (h0 : s.Email = none)
    (h : Session.calls orbit s cs = .ok steps) :
    receivedEmails (lastSession s steps).Logout.events = (ingested steps).getLast?.toList ∧
    (lastSession s steps).Logout.err = none ∧
    steps.map (fun x => x.1) = cs ∧
    ∀ x ∈ steps, receivedEmails x.2.events = [] := by
  obtain ⟨k1, k2, k3, k4⟩ := calls_session orbit cs s steps h
  obtain ⟨l1, l2⟩ := Logout_received (lastSession s steps) f (k1.trans hf) hnf
  rw [l1, k2, h0]
  exact ⟨by simp, l2, k3, k4⟩

theorem Logout_delivers_last_witness :
    ∃ steps, Session.calls (fun _ _ => false)
        ((NewBackend (some (fun _ => none)) true []).NewSession none)
        [.Mail "alice@a.test".toList, .Rcpt "bob@b.test".toList,
         .Data (plainWorld 1000) (.ok (asciiBytes "one".toList))] = .ok steps ∧
      (ingested steps).map (fun e => e.Raw) = [asciiBytes "one".toList] ∧
      receivedEmails
        (lastSession ((NewBackend (some (fun _ => none)) true []).NewSession none)
          steps).Logout.events = (ingested steps).getLast?.toList ∧
      (lastSession ((NewBackend (some (fun _ => none)) true []).NewSession none)
        steps).Logout.err = none ∧
      steps.map (fun x => x.1) =
        [.Mail "alice@a.test".toList, .Rcpt "bob@b.test".toList,
         .Data (plainWorld 1000) (.ok (asciiBytes "one".toList))] ∧
      ∀ x ∈ steps, receivedEmails x.2.events = [] :=
  ⟨_, rfl, by decide,
    Logout_delivers_last (fun _ _ => false)
      ((NewBackend (some (fun _ => none)) true []).NewSession none) (fun _ => none) _ _
      rfl (fun _ => rfl) rfl rfl⟩

/-! ## Parts with an unparseable type and read errors -/

theorem partContent_qpReadAll (lib : Stdlib) (f : Bytes → Str → Reader) (p : Part) :
    partContent { NewReader := f, qpReadAll := lib.qpReadAll } p = partContent lib p := rfl

theorem parseBody_multipart_parts (lib : Stdlib) (h : MimeHeaders) (b : Bytes)
    (hm : HasPrefix h.ContentType.MediaType "multipart".toList = true)
    (hb : h.ContentType.Params.get "boundary".toList ≠ []) :
    parseBody lib h b = .ok
      (((lib.NewReader b (h.ContentType.Params.get "boundary".toList)).parts.filterMap
        (partContent lib)).foldl classify {}) := by
  unfold parseBody
  rw [if_pos hm]
  simp only [hb, if_false]
  rw [parseBody_multipart_fold, walkerContents_eq]

/-- C22, as stated, fails: on a multipart body cut after its first part the
walker yields the part and then the read error, and `parseBody` returns no
error but the `BodyText` collected before the error. -/
theorem parseBody_read_error_returns_parts :
    (truncatedLib.NewReader [] "B".toList).failure =
      some "multipart: NextPart: unexpected EOF".toList ∧
    (yielded (truncatedLib.NewReader [] "B".toList)).map itemData =
      [.ok (asciiBytes "Hello".toList), .error "multipart: NextPart: unexpected EOF".toList] ∧
    parseBody truncatedLib mixedHeaders [] = .ok
      { bodyText := some ⟨asciiBytes "Hello".toList, ctOnly "text" "plain", 5⟩,
        bodyHTML := none, attachments := [] } := by
  decide

/-- C22 (amended): when the walker surfaces a read error other than
end-of-stream while `parseBody` consumes it, at the top level or inside a
nested container, the error item is the last item the walker yields and it is
not fatal to the message: `parseBody` returns no error and the body parts
collected from the parts yielded before the error, the same result as for a
body `rd2` that ends after those parts. -/
theorem parseBody_read_error (lib : Stdlib) (h : MimeHeaders) (b : Bytes) (err : Str)
    (rd2 : Reader)
    (hm : HasPrefix h.ContentType.MediaType "multipart".toList = true)
    (hb : h.ContentType.Params.get "boundary".toList ≠ [])
    (hf : (lib.NewReader b (h.ContentType.Params.get "boundary".toList)).failure = some err)
    (h2 : rd2.parts = (lib.NewReader b (h.ContentType.Params.get "boundary".toList)).parts)
    (h3 : rd2.failure = none) :
    yielded (lib.NewReader b (h.ContentType.Params.get "boundary".toList)) =
      (lib.NewReader b (h.ContentType.Params.get "boundary".toList)).parts.map .ok ++
        [.error err] ∧
    yielded rd2 =
      (lib.NewReader b (h.ContentType.Params.get "boundary".toList)).parts.map .ok ∧
    ∃ st, parseBody lib h b = .ok st ∧
      parseBody { NewReader := fun _ _ => rd2, qpReadAll := lib.qpReadAll } h b = .ok st ∧
      st = ((lib.NewReader b (h.ContentType.Params.get "boundary".toList)).parts.filterMap
        (partContent lib)).foldl classify {} := by
  refine ⟨?_, ?_, _, parseBody_multipart_parts lib h b hm hb, ?_, rfl⟩
  · rw [yielded_eq_items]
    unfold Reader.items
    rw [hf]
  · rw [yielded_eq_items]
    unfold Reader.items
    rw [h3, h2]
    simp
  · rw [parseBody_multipart_parts { NewReader := fun _ _ => rd2, qpReadAll := lib.qpReadAll }
      h b hm hb]
    simp only [h2]
    rfl

theorem parseBody_read_error_witness :
    (yielded (nestedTruncatedLib.NewReader [] "B".toList)).map itemData =
      [.ok (asciiBytes "Hello".toList), .ok (asciiBytes "<p>Hello</p>".toList),
       .error "multipart: NextPart: unexpected EOF".toList] ∧
    parseBody nestedTruncatedLib mixedHeaders [] = .ok
      { bodyText := some ⟨asciiBytes "Hello".toList, ctOnly "text" "plain", 5⟩,
        bodyHTML := some ⟨asciiBytes "<p>Hello</p>".toList, ctOnly "text" "html", 12⟩,
        attachments := [] } ∧
    ∃ st, parseBody nestedTruncatedLib mixedHeaders [] = .ok st ∧
      parseBody { NewReader := fun _ _ => plainHtmlReader,
                  qpReadAll := nestedTruncatedLib.qpReadAll } mixedHeaders [] = .ok st ∧
      st = ((nestedTruncatedLib.NewReader []
          (mixedHeaders.ContentType.Params.get "boundary".toList)).parts.filterMap
        (partContent nestedTruncatedLib)).foldl classify {} :=
  ⟨by decide, by decide,
    (parseBody_read_error nestedTruncatedLib mixedHeaders []
      "multipart: NextPart: unexpected EOF".toList plainHtmlReader
      (by decide) (by decide) (by decide) (by rfl) (by decide)).2.2⟩

/-! ## Content-Type parameters -/

theorem Headers_get?_cons (e : Str × Str) (t : Headers) (k1 : Str) :
    Headers.get? (e :: t) k1 = if e.1 = k1 then some e.2 else Headers.get? t k1 := by
  unfold Headers.get?
  rw [List.find?_cons]
  by_cases h : e.1 = k1
  · have hb : (e.1 == k1) = true := by simpa using h
    rw [hb, if_pos h]
    rfl
  · have hb : (e.1 == k1) = false := by simpa using h
    rw [hb, if_neg h]

theorem Headers_get?_set (h : Headers) (k v k1 : Str) :
    (h.set k v).get? k1 = if k1 = k then some v else h.get? k1 := by
  induction h with
  | nil =>
    unfold Headers.set
    rw [Headers_get?_cons]
    by_cases hk : k1 = k
    · rw [if_pos hk, if_pos hk.symm]
    · rw [if_neg hk, if_neg (fun e => hk e.symm)]
  | cons e t ih =>
    unfold Headers.set
    by_cases he : e.1 = k
    · rw [if_pos he, Headers_get?_cons, Headers_get?_cons]
      by_cases hk : k1 = k
      · rw [if_pos hk, if_pos hk.symm]
      · rw [if_neg hk, if_neg (fun e => hk e.symm), if_neg (fun e1 => hk (e1.symm.trans he))]
    · rw [if_neg he, Headers_get?_cons, Headers_get?_cons, ih]
      by_cases hk : k1 = k
      · rw [if_pos hk, if_neg (fun e1 => he (e1.trans hk)), if_pos hk]
      · rw [if_neg hk, if_neg hk]

theorem Headers_keys_set (h : Headers) (k v : Str) :
    (∀ k1, k1 ∈ (h.set k v).map Prod.fst ↔ k1 = k ∨ k1 ∈ h.map Prod.fst) ∧
    ((h.map Prod.fst).Nodup → ((h.set k v).map Prod.fst).Nodup) := by
  induction h with
  | nil => simp [Headers.set]
  | cons e t ih =>
    obtain ⟨ih1, ih2⟩ := ih
    unfold Headers.set
    by_cases he : e.1 = k
    · rw [if_pos he]
      constructor
      · intro k1
        simp only [List.map_cons, List.mem_cons, he]
        tauto
      · intro hn
        simp only [List.map_cons, List.nodup_cons] at hn ⊢
        rw [← he]
        exact hn
    · rw [if_neg he]
      constructor
      · intro k1
        simp only [List.map_cons, List.mem_cons, ih1]
        tauto
      · intro hn
        simp only [List.map_cons, List.nodup_cons] at hn ⊢
        refine ⟨?_, ih2 hn.2⟩
        rw [ih1]
        rintro (h1 | h1)
        · exact he h1
        · exact hn.1 h1

theorem Headers_mem_iff_get? (h : Headers) (hn : (h.map Prod.fst).Nodup) (k v : Str) :
    (k, v) ∈ h ↔ h.get? k = some v := by
  induction h with
  | nil => simp [Headers.get?]
  | cons e t ih =>
    simp only [List.map_cons, List.nodup_cons] at hn
    obtain ⟨k0, v0⟩ := e
    rw [Headers_get?_cons]
    by_cases hk : k0 = k
    · subst hk
      have hnot : ∀ w, (k0, w) ∉ t := fun w hw => hn.1 (List.mem_map.2 ⟨(k0, w), hw, rfl⟩)
      simp only [List.mem_cons, Prod.mk.injEq, true_and, if_true, Option.some.injEq]
      constructor
      · rintro (h1 | h1)
        · exact h1.symm
        · exact absurd h1 (hnot v)
      · intro h1
        exact Or.inl h1.symm
    · rw [if_neg hk, ← ih hn.2]
      simp only [List.mem_cons, Prod.mk.injEq]
      constructor
      · rintro (h1 | h1)
        · exact absurd h1.1.symm hk
        · exact h1
      · exact Or.inr

theorem foldl_set (kvs : List (Str × Str)) (acc : Headers) :
    (∀ k, (kvs.foldl (fun a kv => a.set kv.1 kv.2) acc).get? k =
      (((kvs.filter (fun kv => decide (kv.1 = k))).getLast?).map Prod.snd).or (acc.get? k)) ∧
    ((acc.map Prod.fst).Nodup →
      ((kvs.foldl (fun a kv => a.set kv.1 kv.2) acc).map Prod.fst).Nodup) := by
  induction kvs generalizing acc with
  | nil => simp
  | cons kv rest ih =>
    obtain ⟨ih1, ih2⟩ := ih (acc.set kv.1 kv.2)
    rw [List.foldl_cons]
    refine ⟨?_, fun hn => ih2 ((Headers_keys_set acc kv.1 kv.2).2 hn)⟩
    intro k
    rw [ih1, Headers_get?_set]
    by_cases hk : kv.1 = k
    · have hk1 : k = kv.1 := hk.symm
      rw [if_pos hk1, List.filter_cons]
      simp only [hk, decide_True, if_true]
      cases hr : rest.filter (fun kv => decide (kv.1 = k)) with
      | nil => simp
      | cons x t =>
        rw [List.getLast?_cons_cons]
        cases hl : (x :: t).getLast? with
        | none => simp at hl
        | some y => simp
    · have hk1 : ¬ (k = kv.1) := fun e => hk e.symm
      rw [if_neg hk1, List.filter_cons]
      simp [hk]

theorem parseContentTypeParams_eq (rest : List Str) (acc : Headers) :
    parseContentTypeParams rest acc =
      ((rest.filter (fun seg => decide ('=' ∈ seg))).map
        (fun seg => (paramKey seg, paramValue seg))).foldl (fun a kv => a.set kv.1 kv.2) acc := by
  induction rest generalizing acc with
  | nil => rfl
  | cons seg rest ih =>
    unfold parseContentTypeParams
    by_cases hs : '=' ∈ seg
    · simp only [SplitN2, hs, if_true, List.filter_cons, decide_True, List.map_cons,
        List.foldl_cons]
      rw [ih]
      rfl
    · simp only [SplitN2, hs, if_false, List.filter_cons, decide_False]
      rw [ih]
      simp

theorem filter_pairs (k : Str) (segs : List Str) :
    (((segs.filter (fun seg => decide ('=' ∈ seg))).map
      (fun seg => (paramKey seg, paramValue seg))).filter (fun kv => decide (kv.1 = k))) =
    (segmentsOf k segs).map (fun seg => (paramKey seg, paramValue seg)) := by
  unfold segmentsOf
  induction segs with
  | nil => rfl
  | cons seg rest ih =>
    by_cases hs : '=' ∈ seg
    · by_cases hk : paramKey seg = k
      · simp [List.filter_cons, hs, hk, ih]
      · simp [List.filter_cons, hs, hk, ih]
    · simp [List.filter_cons, hs, ih]

theorem contains_dquote (c : Char) : ([dquote] : Str).contains c = decide (c = dquote) := by
  by_cases h : c = dquote
  · simp [h]
  · simp [h]

theorem Trim_wrapped (w : Str) (h : ∀ c ∈ w, c ≠ dquote) :
    Trim ([dquote] ++ w ++ [dquote]) [dquote] = w := by
  unfold Trim TrimFunc
  have hw : ∀ c ∈ w, ([dquote] : Str).contains c = false := by
    intro c hc
    rw [contains_dquote]
    simpa using h c hc
  have hq : ([dquote] : Str).contains dquote = true := by rw [contains_dquote]; simp
  cases w with
  | nil => simp [List.dropWhile, List.rdropWhile, hq]
  | cons a t =>
    have h1 : ([dquote] ++ a :: t ++ [dquote]).dropWhile (fun c => ([dquote] : Str).contains c) =
        (a :: t) ++ [dquote] := by
      simp only [List.singleton_append, List.cons_append, List.dropWhile, hq,
        hw a (List.mem_cons_self _ _)]
      rfl
    rw [h1, List.rdropWhile_concat_pos _ _ _ hq]
    exact List.rdropWhile_eq_self_iff.mpr
      (fun hl => by rw [hw _ (List.getLast_mem hl)]; simp)

theorem Trim_unquoted (s : Str) (h : ∀ c ∈ s, c ≠ dquote) : Trim s [dquote] = s := by
  unfold Trim
  apply TrimFunc_all
  intro c hc
  rw [contains_dquote]
  simpa using h c hc

theorem segmentsOf_ne_nil (k : Str) (segs : List Str) :
    segmentsOf k segs ≠ [] ↔ ∃ seg ∈ segs, '=' ∈ seg ∧ paramKey seg = k := by
  unfold segmentsOf
  constructor
  · intro h
    obtain ⟨seg, hs⟩ := List.exists_mem_of_ne_nil _ h
    rw [List.mem_filter] at hs
    exact ⟨seg, hs.1, by simpa using hs.2⟩
  · rintro ⟨seg, hs, h1⟩ hn
    have : seg ∈ segs.filter (fun seg => decide ('=' ∈ seg ∧ paramKey seg = k)) :=
      List.mem_filter.2 ⟨hs, by simpa using h1⟩
    rw [hn] at this
    cases this

theorem parseContentTypeParams_spec (segs : List Str) :
    ((parseContentTypeParams segs []).map Prod.fst).Nodup ∧
    ∀ k v, (k, v) ∈ parseContentTypeParams segs [] ↔
      ((segmentsOf k segs).getLast?).map paramValue = some v := by
  rw [parseContentTypeParams_eq]
  obtain ⟨h1, h2⟩ := foldl_set ((segs.filter (fun seg => decide ('=' ∈ seg))).map
    (fun seg => (paramKey seg, paramValue seg))) []
  have hn := h2 (by simp)
  refine ⟨hn, ?_⟩
  intro k v
  rw [Headers_mem_iff_get? _ hn, h1, filter_pairs]
  have : Headers.get? [] k = none := rfl
  rw [this, List.getLast?_map]
  cases (segmentsOf k segs).getLast? <;> simp

/-- C23: for a Content-Type value whose first `;`-segment has a `/`,
`parseContentType` succeeds whatever the other segments are; `Params` has no
key twice; it has an entry for `k` exactly when some other segment has an `=`
and the trimmed text before its first `=` is `k`, and the value of the entry
is the text after the first `=` of the last such segment, trimmed and without
the double quotes at its two ends: for a text `"w"` with no double quote in
`w` the value is `w`, for a text without double quotes the text itself. A
segment without `=` gives no entry. -/
theorem parseContentType_params (value : Str)
    (hm : '/' ∈ TrimSpace ((Split value ';').headD [])) :
    ∃ ct, parseContentType value = .ok ct ∧
      (ct.Params.map Prod.fst).Nodup ∧
      (∀ k v, (k, v) ∈ ct.Params ↔
        ((segmentsOf k (Split value ';').tail).getLast?).map paramValue = some v) ∧
      (∀ k, (∃ v, (k, v) ∈ ct.Params) ↔
        ∃ seg ∈ (Split value ';').tail, '=' ∈ seg ∧ paramKey seg = k) ∧
      (∀ seg w, (∀ c ∈ w, c ≠ dquote) →
        TrimSpace (seg.dropWhile (fun c => c != '=')).tail = [dquote] ++ w ++ [dquote] →
        paramValue seg = w) ∧
      (∀ seg, (∀ c ∈ TrimSpace (seg.dropWhile (fun c => c != '=')).tail, c ≠ dquote) →
        paramValue seg = TrimSpace (seg.dropWhile (fun c => c != '=')).tail) := by
  obtain ⟨hn, hp⟩ := parseContentTypeParams_spec (Split value ';').tail
  generalize hseg : TrimSpace ((Split value ';').headD []) = seg at hm
  have hpc : parseContentType value = .ok
      { MediaType := TrimSpace (seg.takeWhile (fun x => x != '/')),
        SubType := TrimSpace ((seg.dropWhile (fun x => x != '/')).tail),
        Params := parseContentTypeParams (Split value ';').tail [] } := by
    simp only [parseContentType, hseg, SplitN2, hm, if_true]
  refine ⟨_, hpc, hn, hp, ?_, ?_, ?_⟩
  · intro k
    rw [← segmentsOf_ne_nil]
    constructor
    · rintro ⟨v, hv⟩ hnil
      rw [hp, hnil] at hv
      cases hv
    · intro hne
      cases hl : (segmentsOf k (Split value ';').tail).getLast? with
      | none => exact absurd (List.getLast?_eq_none_iff.1 hl) hne
      | some seg => exact ⟨paramValue seg, (hp k _).2 (by rw [hl]; rfl)⟩
  · intro seg w hw ht
    unfold paramValue
    rw [ht]
    exact Trim_wrapped w hw
  · intro seg hs
    exact Trim_unquoted _ hs

theorem parseContentType_params_witness :
    parseContentType
        "multipart/mixed; boundary=\"abc123\"; charset = utf-8 ; junk; charset=\"x".toList =
      .ok ⟨"multipart".toList, "mixed".toList,
        [("boundary".toList, "abc123".toList), ("charset".toList, "x".toList)]⟩ ∧
    ∃ ct, parseContentType
        "multipart/mixed; boundary=\"abc123\"; charset = utf-8 ; junk; charset=\"x".toList =
        .ok ct ∧
      (ct.Params.map Prod.fst).Nodup ∧
      (∀ k v, (k, v) ∈ ct.Params ↔
        ((segmentsOf k (Split
          "multipart/mixed; boundary=\"abc123\"; charset = utf-8 ; junk; charset=\"x".toList
          ';').tail).getLast?).map paramValue = some v) :=
  ⟨by decide,
    (parseContentType_params
      "multipart/mixed; boundary=\"abc123\"; charset = utf-8 ; junk; charset=\"x".toList
      (by decide)).imp (fun _ h => ⟨h.1, h.2.1, h.2.2.1⟩)⟩

/-! ## Header normalisation -/

theorem TrimFunc_idempotent (s : Str) (f : Char → Bool) :
    TrimFunc (TrimFunc s f) f = TrimFunc s f := by
  unfold TrimFunc
  have h1 : ((s.dropWhile f).rdropWhile f).dropWhile f = (s.dropWhile f).rdropWhile f := by
    cases ht : (s.dropWhile f).rdropWhile f with
    | nil => rfl
    | cons a t =>
      have hp : (a :: t) <+: s.dropWhile f := ht ▸ List.rdropWhile_prefix f (s.dropWhile f)
      obtain ⟨r, hr⟩ := hp
      have hh := List.head?_dropWhile_not f s
      rw [← hr] at hh
      simp only [List.cons_append, List.head?_cons] at hh
      simp [List.dropWhile, hh]
  rw [h1, List.rdropWhile_idempotent]

theorem TrimSpace_space_cons (s : Str) : TrimSpace (' ' :: s) = TrimSpace s := by
  unfold TrimSpace TrimFunc
  have : isSpace ' ' = true := by decide
  simp [List.dropWhile, this]

theorem Split_not_mem (s : Str) (c : Char) (h : c ∉ s) : Split s c = [s] := by
  induction s with
  | nil => rfl
  | cons x t ih =>
    have hx : x ≠ c := fun e => h (e ▸ List.mem_cons_self _ _)
    have ht : c ∉ t := fun hm => h (List.mem_cons_of_mem _ hm)
    simp [Split, hx, ih ht]

theorem Split_append_sep (a t : Str) (c : Char) (h : c ∉ a) :
    Split (a ++ c :: t) c = a :: Split t c := by
  induction a with
  | nil => simp [Split]
  | cons x a ih =>
    have hx : x ≠ c := fun e => h (e ▸ List.mem_cons_self _ _)
    have ha : c ∉ a := fun hm => h (List.mem_cons_of_mem _ hm)
    simp [Split, hx, ih ha]

theorem Split_segment_no_sep (s : Str) (c : Char) : ∀ seg ∈ Split s c, c ∉ seg := by
  induction s with
  | nil => simp [Split]
  | cons x t ih =>
    rcases Split_cons_eq x t c with ⟨h, _⟩ | ⟨hd, tl, hs, h, hx⟩
    · rw [h]
      intro seg hm
      rcases List.mem_cons.1 hm with h1 | h1
      · rw [h1]; simp
      · exact ih seg h1
    · rw [h]
      rw [hs] at ih
      intro seg hm
      rcases List.mem_cons.1 hm with h1 | h1
      · rw [h1]
        intro hc
        rcases List.mem_cons.1 hc with h2 | h2
        · exact hx h2.symm
        · exact ih hd (List.mem_cons_self _ _) h2
      · exact ih seg (List.mem_cons_of_mem _ h1)

theorem Split_Join_segments (a : Str) (segs : List Str)
    (h : ∀ s ∈ a :: segs, ';' ∉ s) :
    Split (Join (a :: segs) "; ".toList) ';' = a :: segs.map (fun s => ' ' :: s) := by
  induction segs generalizing a with
  | nil =>
    simp only [Join, List.map_nil]
    exact Split_not_mem a ';' (h a (List.mem_cons_self _ _))
  | cons b t ih =>
    have hj : Join (a :: b :: t) "; ".toList = a ++ ';' :: (' ' :: Join (b :: t) "; ".toList) := by
      simp [Join]
    rw [hj, Split_append_sep a _ ';' (h a (List.mem_cons_self _ _))]
    have ih1 := ih b (fun s hs => h s (List.mem_cons_of_mem _ hs))
    rcases Split_cons_eq ' ' (Join (b :: t) "; ".toList) ';' with ⟨_, hx⟩ | ⟨hd, tl, hs, hh, _⟩
    · exact absurd hx (by decide)
    · rw [ih1] at hs
      injection hs with e1 e2
      rw [hh, ← e1, ← e2]
      rfl

theorem normalise_idempotent (v : Str) : normalise (normalise v) = normalise v := by
  unfold normalise splitAndTrim
  cases hs : Split v ';' with
  | nil => exact absurd hs (Split_ne_nil v ';')
  | cons a rest =>
    have hno : ∀ s ∈ (a :: rest).map TrimSpace, ';' ∉ s := by
      intro s hm hc
      obtain ⟨s0, h0, rfl⟩ := List.mem_map.1 hm
      exact Split_segment_no_sep v ';' s0 (hs ▸ h0) (mem_TrimSpace ';' s0 hc)
    rw [List.map_cons] at hno ⊢
    rw [Split_Join_segments _ _ hno]
    congr 1
    simp only [List.map_cons, List.map_map]
    congr 1
    · exact TrimFunc_idempotent a isSpace
    · apply List.map_congr_left
      intro s _
      simp only [Function.comp]
      rw [TrimSpace_space_cons]
      exact TrimFunc_idempotent s isSpace

theorem parseHeaders_eq (h : MIMEHeader) (acc : Headers) :
    h.foldl (fun headers e =>
      if e.2.length = 0 then headers
      else
        let v := if e.2.length = 1 then splitAndTrim (e.2.headD []) ';' else e.2
        headers.set (CanonicalMIMEHeaderKey e.1) (Join v "; ".toList)) acc =
    ((h.filter (fun e => decide (e.2 ≠ []))).map (fun e => (CanonicalMIMEHeaderKey e.1,
      if e.2.length = 1 then normalise (e.2.headD []) else Join e.2 "; ".toList))).foldl
        (fun a kv => a.set kv.1 kv.2) acc := by
  induction h generalizing acc with
  | nil => rfl
  | cons e t ih =>
    rw [List.foldl_cons, ih]
    by_cases he : e.2 = []
    · simp [he, List.filter_cons]
    · have hl : ¬ (e.2.length = 0) := fun h0 => he (List.length_eq_zero.1 h0)
      simp only [hl, if_false, List.filter_cons, he, ne_eq, not_false_eq_true, decide_True,
        if_true, List.map_cons, List.foldl_cons]
      by_cases h1 : e.2.length = 1
      · simp only [h1, if_true, normalise]
      · simp only [h1, if_false]

theorem filter_key_unique (l : List (Str × Str)) (hn : (l.map Prod.fst).Nodup) (k v : Str)
    (hm : (k, v) ∈ l) : l.filter (fun kv => decide (kv.1 = k)) = [(k, v)] := by
  induction l with
  | nil => cases hm
  | cons e t ih =>
    simp only [List.map_cons, List.nodup_cons] at hn
    rcases List.mem_cons.1 hm with h1 | h1
    · subst h1
      have : t.filter (fun kv => decide (kv.1 = k)) = [] := by
        rw [List.filter_eq_nil_iff]
        intro a ha hk
        have hk1 : a.1 = k := by simpa using hk
        exact hn.1 (List.mem_map.2 ⟨a, ha, hk1⟩)
      simp [List.filter_cons, this]
    · have hne : e.1 ≠ k := by
        intro hk
        exact hn.1 (List.mem_map.2 ⟨(k, v), h1, hk.symm⟩)
      simp [List.filter_cons, hne, ih hn.2 h1]

theorem filter_key_absent (l : List (Str × Str)) (k : Str) (hk : k ∉ l.map Prod.fst) :
    l.filter (fun kv => decide (kv.1 = k)) = [] := by
  rw [List.filter_eq_nil_iff]
  intro a ha h1
  have h2 : a.1 = k := by simpa using h1
  exact hk (List.mem_map.2 ⟨a, ha, h2⟩)

theorem parseHeaders_get? (h : MIMEHeader)
    (hn : (h.map (fun e => CanonicalMIMEHeaderKey e.1)).Nodup) (k : Str) (vs : List Str)
    (hm : (k, vs) ∈ h) :
    (parseHeaders h).get? (CanonicalMIMEHeaderKey k) =
      if vs = [] then none
      else some (if vs.length = 1 then normalise (vs.headD []) else Join vs "; ".toList) := by
  unfold parseHeaders
  rw [parseHeaders_eq, (foldl_set _ []).1]
  have hnil : Headers.get? [] (CanonicalMIMEHeaderKey k) = none := rfl
  rw [hnil]
  have hsub : (((h.filter (fun e => decide (e.2 ≠ []))).map (fun e =>
      (CanonicalMIMEHeaderKey e.1,
        if e.2.length = 1 then normalise (e.2.headD []) else Join e.2 "; ".toList))).map
          Prod.fst).Nodup := by
    rw [List.map_map]
    exact hn.sublist ((List.filter_sublist _).map _)
  by_cases hv : vs = []
  · rw [if_pos hv, filter_key_absent]
    · rfl
    · rw [List.map_map]
      intro hc
      obtain ⟨e, he, hk⟩ := List.mem_map.1 hc
      rw [List.mem_filter] at he
      have := List.inj_on_of_nodup_map hn he.1 hm hk
      rw [this] at he
      simp [hv] at he
  · rw [if_neg hv, filter_key_unique _ hsub (CanonicalMIMEHeaderKey k)
      (if vs.length = 1 then normalise (vs.headD []) else Join vs "; ".toList)]
    · rfl
    · exact List.mem_map.2 ⟨(k, vs), List.mem_filter.2 ⟨hm, by simpa using hv⟩, rfl⟩

/-- C24: for a header map in which no two names have the same canonical
form, `parseHeaders` stores, under the canonical name of a header with the
single raw value `v`, the `;`-separated segments of `v`, each trimmed, joined
with `"; "`; under the canonical name of a header with several raw values,
these values joined with `"; "`; and nothing for a header with no value. The
normalisation of a single value is idempotent. -/
theorem parseHeaders_entries (h : MIMEHeader)
    (hn : (h.map (fun e => CanonicalMIMEHeaderKey e.1)).Nodup) :
    (∀ k v, (k, [v]) ∈ h →
      (parseHeaders h).get? (CanonicalMIMEHeaderKey k) =
        some (Join ((Split v ';').map TrimSpace) "; ".toList)) ∧
    (∀ k vs, (k, vs) ∈ h → 2 ≤ vs.length →
      (parseHeaders h).get? (CanonicalMIMEHeaderKey k) = some (Join vs "; ".toList)) ∧
    (∀ k, (k, []) ∈ h → (parseHeaders h).get? (CanonicalMIMEHeaderKey k) = none) ∧
    (∀ v, normalise v = Join ((Split v ';').map TrimSpace) "; ".toList ∧
      normalise (normalise v) = normalise v) := by
  refine ⟨?_, ?_, ?_, fun v => ⟨rfl, normalise_idempotent v⟩⟩
  · intro k v hm
    rw [parseHeaders_get? h hn k [v] hm]
    simp [normalise, splitAndTrim]
  · intro k vs hm hl
    rw [parseHeaders_get? h hn k vs hm]
    have h1 : vs ≠ [] := by
      intro e
      rw [e] at hl
      simp at hl
    have h2 : ¬ (vs.length = 1) := by omega
    rw [if_neg h1, if_neg h2]
  · intro k hm
    rw [parseHeaders_get? h hn k [] hm]
    rfl

theorem parseHeaders_entries_witness :
    parseHeaders [("content-type".toList, [" text/plain ;charset=x ; ".toList]),
      ("Received".toList, ["from a".toList, "from b".toList]), ("X-Empty".toList, [])] =
      [("Content-Type".toList, "text/plain; charset=x; ".toList),
       ("Received".toList, "from a; from b".toList)] ∧
    normalise "text/plain; charset=x; ".toList = "text/plain; charset=x; ".toList ∧
    (parseHeaders [("content-type".toList, [" text/plain ;charset=x ; ".toList]),
      ("Received".toList, ["from a".toList, "from b".toList]),
      ("X-Empty".toList, [])]).get? (CanonicalMIMEHeaderKey "content-type".toList) =
        some (Join ((Split " text/plain ;charset=x ; ".toList ';').map TrimSpace) "; ".toList) :=
  ⟨by decide, by decide,
    (parseHeaders_entries [("content-type".toList, [" text/plain ;charset=x ; ".toList]),
      ("Received".toList, ["from a".toList, "from b".toList]), ("X-Empty".toList, [])]
      (by decide)).1 "content-type".toList " text/plain ;charset=x ; ".toList (by simp)⟩

/-! ## The two parameter extractors -/

theorem rdropWhile_append_cons_neg (f : Char → Bool) (x : Str) (c : Char) (r : Str)
    (hc : f c = false) : (x ++ c :: r).rdropWhile f = x ++ c :: r.rdropWhile f := by
  induction r using List.reverseRecOn with
  | nil =>
    have : x ++ [c] = x ++ [c] := rfl
    rw [List.rdropWhile_concat_neg f x c (by simp [hc])]
    simp [List.rdropWhile]
  | append_singleton r z ih =>
    have e : x ++ c :: (r ++ [z]) = (x ++ c :: r) ++ [z] := by simp
    rw [e]
    by_cases hz : f z = true
    · rw [List.rdropWhile_concat_pos f _ z hz, List.rdropWhile_concat_pos f _ z hz, ih]
    · rw [List.rdropWhile_concat_neg f _ z hz, List.rdropWhile_concat_neg f _ z hz]
      simp

theorem dropWhile_append_cons_neg (f : Char → Bool) (x : Str) (c : Char) (r : Str)
    (hc : f c = false) : (x ++ c :: r).dropWhile f = x.dropWhile f ++ c :: r := by
  induction x with
  | nil => simp [List.dropWhile, hc]
  | cons a x ih =>
    by_cases ha : f a = true
    · simp [List.dropWhile, ha, ih]
    · have ha1 : f a = false := by simpa using ha
      simp [List.dropWhile, ha1]

theorem TrimFunc_dropWhile (s : Str) (f : Char → Bool) :
    TrimFunc (s.dropWhile f) f = TrimFunc s f := by
  unfold TrimFunc
  rw [List.dropWhile_idempotent]

theorem TrimFunc_rdropWhile (s : Str) (f : Char → Bool) :
    TrimFunc (s.rdropWhile f) f = TrimFunc s f := by
  unfold TrimFunc
  have hs := List.takeWhile_append_dropWhile f s
  cases hd : s.dropWhile f with
  | nil =>
    have hall : ∀ e ∈ s, f e = true := by
      intro e he
      have := List.dropWhile_eq_nil_iff.1 hd
      exact this e he
    have : s.rdropWhile f = [] := List.rdropWhile_eq_nil_iff.2 hall
    rw [this]
    rfl
  | cons c r =>
    have hc : f c = false := by
      have := List.head?_dropWhile_not f s
      rw [hd] at this
      simpa using this
    rw [hd] at hs
    have e1 : s.rdropWhile f = s.takeWhile f ++ c :: r.rdropWhile f := by
      conv_lhs => rw [← hs]
      exact rdropWhile_append_cons_neg f _ c r hc
    rw [e1, dropWhile_append_cons_neg f _ c _ hc]
    have e2 : (s.takeWhile f).dropWhile f = [] := by
      rw [List.dropWhile_eq_nil_iff]
      intro e he
      exact (List.mem_takeWhile_imp he)
    rw [e2, List.nil_append]
    have e3 := rdropWhile_append_cons_neg f [] c (r.rdropWhile f) hc
    have e4 := rdropWhile_append_cons_neg f [] c r hc
    simp only [List.nil_append] at e3 e4
    rw [e3, e4, List.rdropWhile_idempotent]

theorem eq_decompose (s : Str) (h : '=' ∈ s) :
    s = s.takeWhile (fun c => c != '=') ++ '=' :: (s.dropWhile (fun c => c != '=')).tail ∧
    '=' ∉ s.takeWhile (fun c => c != '=') := by
  constructor
  · induction s with
    | nil => simp at h
    | cons c t ih =>
      by_cases hc : c = '='
      · subst hc
        simp [List.takeWhile, List.dropWhile]
      · have ht : '=' ∈ t := by
          rcases List.mem_cons.1 h with h1 | h1
          · exact absurd h1.symm hc
          · exact h1
        have hne : (c != '=') = true := by simpa using hc
        simp only [List.takeWhile, List.dropWhile, hne, List.cons_append, List.cons.injEq,
          true_and]
        exact ih ht
  · intro hm
    have := List.mem_takeWhile_imp hm
    simp at this

theorem eq_split (a b : Str) (h : '=' ∉ a) :
    (a ++ '=' :: b).takeWhile (fun c => c != '=') = a ∧
    ((a ++ '=' :: b).dropWhile (fun c => c != '=')).tail = b := by
  induction a with
  | nil => simp [List.takeWhile, List.dropWhile]
  | cons x a ih =>
    have hx : (x != '=') = true := by
      have : x ≠ '=' := fun e => h (e ▸ List.mem_cons_self _ _)
      simpa using this
    obtain ⟨i1, i2⟩ := ih (fun hm => h (List.mem_cons_of_mem _ hm))
    simp [List.takeWhile, List.dropWhile, hx, i1, i2]

theorem TrimSpace_eq (a b : Str) :
    TrimSpace (a ++ '=' :: b) = a.dropWhile isSpace ++ '=' :: b.rdropWhile isSpace := by
  have he : isSpace '=' = false := by decide
  unfold TrimSpace TrimFunc
  rw [dropWhile_append_cons_neg isSpace a '=' b he,
    rdropWhile_append_cons_neg isSpace _ '=' b he]

theorem param_TrimSpace (s : Str) (h : '=' ∈ s) :
    '=' ∈ TrimSpace s ∧ paramKey (TrimSpace s) = paramKey s ∧
      paramValue (TrimSpace s) = paramValue s := by
  obtain ⟨hs, hn⟩ := eq_decompose s h
  generalize s.takeWhile (fun c => c != '=') = a at hs hn
  generalize (s.dropWhile (fun c => c != '=')).tail = b at hs
  subst hs
  have hn1 : '=' ∉ a.dropWhile isSpace :=
    fun hm => hn ((List.dropWhile_suffix isSpace).subset hm)
  rw [TrimSpace_eq]
  refine ⟨by simp, ?_, ?_⟩
  · unfold paramKey
    rw [(eq_split _ _ hn1).1, (eq_split _ _ hn).1]
    exact TrimFunc_dropWhile a isSpace
  · unfold paramValue
    rw [(eq_split _ _ hn1).2, (eq_split _ _ hn).2]
    have : TrimSpace (b.rdropWhile isSpace) = TrimSpace b := TrimFunc_rdropWhile b isSpace
    rw [this]

theorem param_space_cons (s : Str) :
    ('=' ∈ ' ' :: s ↔ '=' ∈ s) ∧ paramKey (' ' :: s) = paramKey s ∧
      paramValue (' ' :: s) = paramValue s := by
  have hne : (' ' != '=') = true := by decide
  refine ⟨by simp, ?_, ?_⟩
  · unfold paramKey
    simp only [List.takeWhile, hne]
    exact TrimSpace_space_cons _
  · unfold paramValue
    simp only [List.dropWhile, hne]

theorem getParamLoop_eq (segs : List Str) (k : Str) :
    getParamLoop segs k = (((segmentsOf k segs).head?).map paramValue).getD [] := by
  unfold segmentsOf
  induction segs with
  | nil => rfl
  | cons seg rest ih =>
    unfold getParamLoop
    by_cases hs : '=' ∈ seg
    · simp only [SplitN2, hs, if_true]
      by_cases hk : paramKey seg = k
      · have hk1 : TrimSpace (seg.takeWhile (fun c => c != '=')) = k := hk
        simp [hk1, List.filter_cons, hs, hk, paramValue]
      · have hk1 : ¬ (TrimSpace (seg.takeWhile (fun c => c != '=')) = k) := hk
        simp only [hk1, if_false, ih]
        simp [List.filter_cons, hs, hk]
    · simp only [SplitN2, hs, if_false, ih]
      simp [List.filter_cons, hs]

theorem segmentsOf_cons (k : Str) (s : Str) (segs : List Str) :
    segmentsOf k (s :: segs) =
      (if '=' ∈ s ∧ paramKey s = k then [s] else []) ++ segmentsOf k segs := by
  unfold segmentsOf
  by_cases h : '=' ∈ s ∧ paramKey s = k
  · simp [List.filter_cons, h]
  · rw [if_neg h, List.filter_cons]
    simp [h]

theorem values_map (k : Str) (g : Str → Str) (segs : List Str)
    (hg : ∀ s, ('=' ∈ s → '=' ∈ g s ∧ paramKey (g s) = paramKey s ∧
      paramValue (g s) = paramValue s) ∧ ('=' ∉ s → '=' ∉ g s)) :
    (segmentsOf k (segs.map g)).map paramValue = (segmentsOf k segs).map paramValue := by
  induction segs with
  | nil => rfl
  | cons s rest ih =>
    rw [List.map_cons, segmentsOf_cons, segmentsOf_cons, List.map_append, List.map_append, ih]
    congr 1
    by_cases hs : '=' ∈ s
    · obtain ⟨h1, h2, h3⟩ := (hg s).1 hs
      by_cases hk : paramKey s = k
      · simp [hs, hk, h1, h2, h3]
      · simp [hk, h2]
    · have := (hg s).2 hs
      simp [hs, this]

theorem values_normalise (k v : Str) :
    (segmentsOf k (Split (normalise v) ';')).map paramValue =
      (segmentsOf k (Split v ';')).map paramValue := by
  unfold normalise splitAndTrim
  cases hs : Split v ';' with
  | nil => exact absurd hs (Split_ne_nil v ';')
  | cons a rest =>
    have hno : ∀ s ∈ (a :: rest).map TrimSpace, ';' ∉ s := by
      intro s hm hc
      obtain ⟨s0, h0, rfl⟩ := List.mem_map.1 hm
      exact Split_segment_no_sep v ';' s0 (hs ▸ h0) (mem_TrimSpace ';' s0 hc)
    rw [List.map_cons] at hno ⊢
    rw [Split_Join_segments _ _ hno, List.map_map]
    have h0 := values_map k TrimSpace [a] (fun s =>
      ⟨fun h => param_TrimSpace s h, fun h hm => h (mem_TrimSpace '=' s hm)⟩)
    have h1 := values_map k ((fun s => ' ' :: s) ∘ TrimSpace) rest (fun s =>
      ⟨fun h => by
          obtain ⟨p1, p2, p3⟩ := param_TrimSpace s h
          obtain ⟨q1, q2, q3⟩ := param_space_cons (TrimSpace s)
          exact ⟨q1.2 p1, q2.trans p2, q3.trans p3⟩,
        fun h hm => by
          obtain ⟨q1, _, _⟩ := param_space_cons (TrimSpace s)
          exact h (mem_TrimSpace '=' s (q1.1 hm))⟩)
    rw [segmentsOf_cons, List.map_append, h1]
    rw [segmentsOf_cons k a rest, List.map_append]
    congr 1
    simp only [List.map_cons, List.map_nil] at h0
    rw [segmentsOf_cons, segmentsOf_cons] at h0
    have hnil : segmentsOf k [] = [] := rfl
    rw [hnil, List.append_nil, List.append_nil] at h0
    exact h0

theorem Headers_get_eq (h : Headers) (k : Str) : h.get k = (h.get? k).getD [] := by
  unfold Headers.get Headers.get?
  cases h.find? (fun e => e.1 == k) <;> rfl

/-- `GetParam` on the headers `parseHeaders` makes of a single Content-Type
value: the value of the first segment, of all the `;`-segments, with the key. -/
theorem GetParam_first (v k : Str) :
    (parseHeaders [("Content-Type".toList, [v])]).GetParam "Content-Type".toList k =
      (((segmentsOf k (Split v ';')).head?).map paramValue).getD [] := by
  have hc : CanonicalMIMEHeaderKey "Content-Type".toList = "Content-Type".toList := by decide
  have hp : parseHeaders [("Content-Type".toList, [v])] =
      [("Content-Type".toList, normalise v)] := by
    simp only [parseHeaders, List.foldl_cons, List.foldl_nil, List.length_singleton,
      one_ne_zero, if_false, if_true, hc, Headers.set, List.headD_cons, normalise]
  rw [hp]
  unfold Headers.GetParam
  rw [Headers_get?_cons]
  simp only [if_true]
  rw [getParamLoop_eq, ← List.head?_map, values_normalise, List.head?_map]

/-- `parseContentType` on a Content-Type value: the parameter `k` is the
value of the last segment, of the segments after the first, with the key. -/
theorem Params_last (v k : Str) (hm : '/' ∈ TrimSpace ((Split v ';').headD [])) :
    ∃ ct, parseContentType v = .ok ct ∧
      ct.Params.get k =
        (((segmentsOf k (Split v ';').tail).getLast?).map paramValue).getD [] := by
  generalize hseg : TrimSpace ((Split v ';').headD []) = seg at hm
  have hpc : parseContentType v = .ok
      { MediaType := TrimSpace (seg.takeWhile (fun x => x != '/')),
        SubType := TrimSpace ((seg.dropWhile (fun x => x != '/')).tail),
        Params := parseContentTypeParams (Split v ';').tail [] } := by
    simp only [parseContentType, hseg, SplitN2, hm, if_true]
  refine ⟨_, hpc, ?_⟩
  simp only []
  rw [Headers_get_eq, parseContentTypeParams_eq, (foldl_set _ []).1, filter_pairs]
  have : Headers.get? [] k = none := rfl
  rw [this, List.getLast?_map]
  cases (segmentsOf k (Split v ';').tail).getLast? <;> rfl

/-- The two extractors agree on a parameter name that is the key of at most
one segment after the first and not the key of the first segment. -/
theorem extractors_agree (v k : Str) (hm : '/' ∈ TrimSpace ((Split v ';').headD []))
    (hfirst : ¬ ('=' ∈ (Split v ';').headD [] ∧ paramKey ((Split v ';').headD []) = k))
    (hone : (segmentsOf k (Split v ';').tail).length ≤ 1) :
    ∃ ct, parseContentType v = .ok ct ∧
      ct.Params.get k =
        (parseHeaders [("Content-Type".toList, [v])]).GetParam "Content-Type".toList k := by
  obtain ⟨ct, h1, h2⟩ := Params_last v k hm
  refine ⟨ct, h1, ?_⟩
  rw [h2, GetParam_first]
  cases hs : Split v ';' with
  | nil => exact absurd hs (Split_ne_nil v ';')
  | cons a rest =>
    rw [hs] at hfirst hone
    simp only [List.headD_cons, List.tail_cons] at hfirst hone ⊢
    rw [segmentsOf_cons, if_neg hfirst, List.nil_append]
    cases hl : segmentsOf k rest with
    | nil => rfl
    | cons x t =>
      rw [hl] at hone
      cases t with
      | nil => rfl
      | cons y t => simp at hone

/-- C25: the two extractors disagree on a repeated parameter. On the value
`multipart/mixed; boundary=A; boundary=B`, `parseContentType` succeeds and
its `Params["boundary"]` is `B`, the value `parseBody` takes from the headers
of `parseMimeHeaderLines`, while `GetParam("Content-Type", "boundary")` on
the headers `parseHeaders` makes of the same single value is `A`, the
boundary the walker uses. -/
theorem extractors_disagree_on_repeated_boundary :
    (parseContentType "multipart/mixed; boundary=A; boundary=B".toList).map
      (fun ct => ct.Params.get "boundary".toList) = .ok "B".toList ∧
    (parseHeaders (ctHeader "multipart/mixed; boundary=A; boundary=B")).GetParam
      "Content-Type".toList "boundary".toList = "A".toList ∧
    (parseMimeHeaderLines (ctHeader "multipart/mixed; boundary=A; boundary=B")).map
      (fun h => h.ContentType.Params.get "boundary".toList) = .ok "B".toList ∧
    walkerBoundary (ctHeader "multipart/mixed; boundary=A; boundary=B") = "A".toList := by
  decide

/-! ## SPF: entries, edges and records -/

/-- A part whose unparseable Content-Type value contains the text multipart
and has a boundary parameter is not yielded by the walker, which descends
into it: on a body with a `text/plain` part, such a part and a `text/html`
part, `parseBody` returns the first part only, and no attachment. -/
theorem parseBody_unparseable_container :
    (∀ ct, parseContentType "multipart; boundary=x".toList ≠ .ok ct) ∧
    descends (ctHeader "multipart; boundary=x") = true ∧
    (yielded (containerLib.NewReader [] "B".toList)).map itemData =
      [.ok (asciiBytes "Hello".toList), .error "multipart: NextPart: EOF".toList] ∧
    parseBody containerLib mixedHeaders [] = .ok
      { bodyText := some ⟨asciiBytes "Hello".toList, ctOnly "text" "plain", 5⟩,
        bodyHTML := none, attachments := [] } := by
  refine ⟨?_, by decide, by decide, by decide⟩
  intro ct h
  have : parseContentType "multipart; boundary=x".toList =
      .error ("invalid media type: multipart; boundary=x".toList) := by decide
  rw [this] at h
  cases h

end Getmail
